import Mathlib

/-!
# Verification of the CS435 routing simulator (distvec.cpp / linkstate.cpp)

This file gives a shallow embedding of the two routing programs and proves
or refutes the specification claims about them.

Conventions of the embedding:
* `std::map<int,V>` iterated by the programs is modelled as an association
  list sorted by key (`minsert` keeps it sorted, mirroring the iteration
  order of `std::map`).
* `int` is modelled as `Int`.  The sentinel `INF = numeric_limits<int>::max()`
  is the literal `2147483647`.  distvec computes its relaxation candidates
  in `long long` (overflow-free for `int` inputs) and stores only values
  guarded below the previous one, so its arithmetic is exact `Int`.
  linkstate computes `int alt = dist[u] + edge.cost` in 32-bit `int`, which
  can overflow; that addition is modelled by two's-complement wrap-around
  (`wrap32`).  Theorems about the overflow-free regime carry an explicit
  hypothesis (`SafeCosts`) under which the wrap is provably never exercised.
* `map::operator[]` on the inner `int`-valued tables value-initializes a
  missing entry to `0`; reads/writes through `operator[]` are therefore
  modelled by total functions `Int → Int` (default `0` where the program
  would default-insert).  `map::at`, which throws on a missing key, is
  modelled by an explicit key-membership test whose failure is a `crash`
  result.
* the `while` loops of the resolver (`writeMessages`) and of the link-state
  solver have no structural bound in the source; they are modelled with an
  explicit fuel parameter, `timeout` marking fuel exhaustion.  Theorems
  either show the fuel is irrelevant (the loop exits) or that every fuel
  times out (the loop diverges).
-/

/-- Edge cost sentinel `numeric_limits<int>::max()`. -/
def INF : Int := 2147483647

/-- Adjacency of one node: neighbour id ↦ edge cost, sorted by key.
    (`struct Edge { int to; int cost; }` always stores its own key in `to`,
    so only the cost is kept.) -/
abbrev Adj := List (Int × Int)

/-- `map<int, Node>`: node id ↦ adjacency, sorted by key.
    (`Node::id` is never read by either program and is omitted.) -/
abbrev Topo := List (Int × Adj)

/-- Sorted-association-list lookup (`map::find` / `map::at`). -/
def mfind {α : Type} : List (Int × α) → Int → Option α
  | [], _ => none
  | p :: rest, k => if p.1 = k then some p.2 else mfind rest k

/-- Sorted-association-list insert-or-replace (`map::operator[] = v`). -/
def minsert {α : Type} : List (Int × α) → Int → α → List (Int × α)
  | [], k, v => [(k, v)]
  | p :: rest, k, v =>
    if k < p.1 then (k, v) :: p :: rest
    else if k = p.1 then (k, v) :: rest
    else p :: minsert rest k v

/-- Sorted-association-list erase (`map::erase(key)`); no-op when absent. -/
def merase {α : Type} : List (Int × α) → Int → List (Int × α)
  | [], _ => []
  | p :: rest, k => if p.1 = k then rest else p :: merase rest k

/-- The key list of a map, in iteration order. -/
def mkeys {α : Type} (m : List (Int × α)) : List Int := m.map Prod.fst

/-- Key membership (`map::count(k) != 0`). -/
def mHasKey {α : Type} (m : List (Int × α)) (k : Int) : Bool :=
  (mkeys m).contains k

/-- Modify the value stored at an existing key, identity when absent. -/
def mModify {α : Type} : List (Int × α) → Int → (α → α) → List (Int × α)
  | [], _, _ => []
  | p :: rest, k, f =>
    if p.1 = k then (p.1, f p.2) :: rest else p :: mModify rest k f

/-- `nodes[a]` used for its insertion side effect: ensure `a` is a node
    (with empty adjacency, as `map::operator[]` value-initializes `Node`). -/
def ensureNode (t : Topo) (a : Int) : Topo :=
  if mHasKey t a then t else minsert t a []

/-- `nodes[a].edges[b] = {b, c}; nodes[b].edges[a] = {a, c};` preceded by the
    `operator[]` node creations — the edge upsert of `parseTopologyFile` and
    of the change applicator in `main` (both files, non-sentinel branch). -/
def upsertEdge (t : Topo) (a b c : Int) : Topo :=
  let t1 := ensureNode (ensureNode t a) b
  let t2 := mModify t1 a (fun ad => minsert ad b c)
  mModify t2 b (fun ad => minsert ad a c)

/-- `nodes[from].edges.erase(to); nodes[to].edges.erase(from);` — the
    `-999` branch of the change applicator in `main` (both files).  Note the
    `operator[]` accesses `nodes[from]` / `nodes[to]` create the nodes when
    absent. -/
def removeEdge (t : Topo) (a b : Int) : Topo :=
  let t1 := mModify (ensureNode t a) a (fun ad => merase ad b)
  mModify (ensureNode t1 b) b (fun ad => merase ad a)

/-- One change record `(from, to, cost)`: cost `-999` removes the edge,
    anything else upserts it (`main`, both files). -/
def applyChange (t : Topo) (ch : Int × Int × Int) : Topo :=
  if ch.2.2 = -999 then removeEdge t ch.1 ch.2.1 else upsertEdge t ch.1 ch.2.1 ch.2.2

/-- `parseTopologyFile`: fold the edge triples in file order. -/
def buildTopo (l : List (Int × Int × Int)) : Topo :=
  l.foldl (fun t e => upsertEdge t e.1 e.2.1 e.2.2) []

/-- Node id list in `std::map` iteration order. -/
def nodeIds (t : Topo) : List Int := mkeys t

/-- Adjacency of a node (`nodes.at(u).edges`); `u` is always a key where the
    programs use it (see the queue/key invariants below), so the default `[]`
    is never observable. -/
def adjOf (t : Topo) (u : Int) : Adj := (mfind t u).getD []

/-- Cost of the directed edge `a → b` as stored in `a`'s adjacency. -/
def adjCost (t : Topo) (a b : Int) : Option Int := mfind (adjOf t a) b

/-- Well-formedness maintained by the parsers and the change applicator:
    node keys sorted (hence nodup), each adjacency sorted, and every
    neighbour id is itself a node key. -/
def TopoWF (t : Topo) : Prop :=
  List.Pairwise (· < ·) (mkeys t) ∧
  ∀ p ∈ t, List.Pairwise (· < ·) (mkeys p.2) ∧ ∀ q ∈ p.2, q.1 ∈ mkeys t

instance (t : Topo) : Decidable (TopoWF t) :=
  inferInstanceAs (Decidable (List.Pairwise (· < ·) (mkeys t) ∧
    ∀ p ∈ t, List.Pairwise (· < ·) (mkeys p.2) ∧ ∀ q ∈ p.2, q.1 ∈ mkeys t))

/-- All edge costs non-negative. -/
def NonnegCosts (t : Topo) : Prop := ∀ p ∈ t, ∀ q ∈ p.2, 0 ≤ q.2

/-- All edge costs strictly positive. -/
def PosCosts (t : Topo) : Prop := ∀ p ∈ t, ∀ q ∈ p.2, 1 ≤ q.2

/-- No self-loop edges: every stored edge joins two distinct nodes. -/
def NoSelfLoops (t : Topo) : Prop := ∀ p ∈ t, ∀ q ∈ p.2, q.1 ≠ p.1

instance (t : Topo) : Decidable (NonnegCosts t) :=
  inferInstanceAs (Decidable (∀ p ∈ t, ∀ q ∈ p.2, 0 ≤ q.2))

instance (t : Topo) : Decidable (PosCosts t) :=
  inferInstanceAs (Decidable (∀ p ∈ t, ∀ q ∈ p.2, 1 ≤ q.2))

instance (t : Topo) : Decidable (NoSelfLoops t) :=
  inferInstanceAs (Decidable (∀ p ∈ t, ∀ q ∈ p.2, q.1 ≠ p.1))

/-! ## Distance-vector solver (`distvec.cpp`) -/

/-- Point update of a two-argument table (`dist[i][k] = v`). -/
def set2 (f : Int → Int → Int) (a b v : Int) : Int → Int → Int :=
  fun x y => if x = a then (if y = b then v else f x y) else f x y

/-- Solver state of `distvec.cpp`: the two `map<int, map<int,int>>` tables
    (total functions — `operator[]` semantics, see header) and the `updated`
    flag of `runDistanceVector`. -/
structure DVState where
  dist : Int → Int → Int
  next : Int → Int → Int
  upd : Bool

/-- The innermost body of `runDistanceVector`: relax destination `k` through
    neighbour `j` of node `i` (distvec.cpp lines 160–173). -/
def dvRelax (i j k : Int) (st : DVState) : DVState :=
  let alt := st.dist i j + st.dist j k
  let cur := st.dist i k
  if alt < cur then
    { dist := set2 st.dist i k alt, next := set2 st.next i k (st.next i j), upd := true }
  else if alt = cur ∧ st.next i j ≠ -1 ∧ st.next i j < st.next i k then
    { dist := st.dist, next := set2 st.next i k (st.next i j), upd := true }
  else st

/-- The `k` loop over all destinations. -/
def dvLoopK (i j : Int) (ks : List Int) (st : DVState) : DVState :=
  ks.foldl (fun s k => dvRelax i j k s) st

/-- The `j` loop over `i`'s neighbours, with the `dist[i][j] == INF` skip. -/
def dvLoopJ (i : Int) (ad : Adj) (ks : List Int) (st : DVState) : DVState :=
  ad.foldl (fun s q => if s.dist i q.1 = INF then s else dvLoopK i q.1 ks s) st

/-- One full pass of `runDistanceVector` (the `updated` flag is reset at the
    start of the pass). -/
def dvPass (t : Topo) (st : DVState) : DVState :=
  t.foldl (fun s p => dvLoopJ p.1 p.2 (nodeIds t) s) { st with upd := false }

/-- The pass loop: at most `nodeCount - 1` passes, stopping early once a
    pass reports no update (`for (_iter = 0; _iter < nodeCount-1 && updated; ...)`). -/
def dvIter (t : Topo) : Nat → DVState → DVState
  | 0, st => st
  | n + 1, st => if st.upd then dvIter t n (dvPass t st) else st

/-- One write of the base initialization loop:
    `dist[i][id2] = (i == id2) ? 0 : INF; nextHop[i][id2] = (i == id2) ? i : -1`. -/
def dvInitColD (i : Int) (st : DVState) (k : Int) : DVState :=
  { st with
    dist := set2 st.dist i k (if i = k then 0 else INF),
    next := set2 st.next i k (if i = k then i else -1) }

/-- One write of the neighbour initialization loop:
    `dist[i][neighbor] = edge.cost; nextHop[i][neighbor] = neighbor`. -/
def dvInitAdjD (i : Int) (st : DVState) (q : Int × Int) : DVState :=
  { st with
    dist := set2 st.dist i q.1 q.2,
    next := set2 st.next i q.1 q.1 }

/-- Initialization of row `p.1`: the base loop over all node ids, then the
    neighbour overwrite loop over `p.2 = nodes[p.1].edges`. -/
def dvInitRow (t : Topo) (st : DVState) (p : Int × Adj) : DVState :=
  p.2.foldl (dvInitAdjD p.1) ((nodeIds t).foldl (dvInitColD p.1) st)

/-- Initialization of `dist` / `nextHop` in `main` (distvec.cpp lines 51–61):
    diagonal `0` / self, neighbours get the edge cost / themselves, the rest
    `INF` / `-1`.  The base for non-key pairs is the `operator[]` default. -/
def dvInit (t : Topo) : DVState :=
  t.foldl (dvInitRow t) { dist := fun _ _ => 0, next := fun _ _ => 0, upd := true }

/-- `runDistanceVector` applied to the freshly initialized tables. -/
def dvRun (t : Topo) : DVState := dvIter t ((nodeIds t).length - 1) (dvInit t)

/-- Final distance table of the distance-vector solver. -/
def dvDist (t : Topo) (i k : Int) : Int := (dvRun t).dist i k

/-- Final next-hop table of the distance-vector solver. -/
def dvNext (t : Topo) (i k : Int) : Int := (dvRun t).next i k

/-! ## Link-state solver (`linkstate.cpp`) -/

/-- Point update of a one-argument table. -/
def set1 (f : Int → Int) (a v : Int) : Int → Int :=
  fun x => if x = a then v else f x

/-- Point update of an optional table (`map<int,int>` whose key set matters). -/
def set1o (f : Int → Option Int) (a v : Int) : Int → Option Int :=
  fun x => if x = a then some v else f x

/-- Two's-complement wrap-around of 32-bit `int` addition: the value a C++
    `int` holds after an overflowing computation (the conventional model of
    the out-of-range case). -/
def wrap32 (x : Int) : Int := (x + 2147483648) % 4294967296 - 2147483648

/-- Lexicographic order of `std::pair<int,int>` (the `set` ordering of the
    priority structure). -/
def pairLt (a b : Int × Int) : Prop := a.1 < b.1 ∨ (a.1 = b.1 ∧ a.2 < b.2)

instance (a b : Int × Int) : Decidable (pairLt a b) := by
  unfold pairLt; infer_instance

/-- `std::set` insert into the sorted pair list; no-op when present. -/
def pqInsert (x : Int × Int) : List (Int × Int) → List (Int × Int)
  | [] => [x]
  | y :: ys => if pairLt x y then x :: y :: ys
               else if x = y then y :: ys
               else y :: pqInsert x ys

/-- `std::set` erase-by-value from the pair list; no-op when absent. -/
def pqErase (x : Int × Int) : List (Int × Int) → List (Int × Int)
  | [] => []
  | y :: ys => if x = y then ys else y :: pqErase x ys

/-- Dijkstra state of the per-source block in `writeForwardingTable`
    (linkstate.cpp lines 32–58): `dist` and `prevHop` are read through
    `operator[]` (total functions, default `0` matches value-initialization;
    `dist` additionally starts at `INT_MAX` on every node key), `nextHop`'s
    key set is observable via `find` in `writeMessages`, so it is an
    `Option`-valued function. -/
structure LSState where
  dist : Int → Int
  next : Int → Option Int
  prev : Int → Int
  pq : List (Int × Int)

/-- Relaxation of one edge `(u, v, c)` out of the popped node `u`
    (linkstate.cpp lines 49–58).  `s` is the source node `id`.  The
    candidate `int alt = dist[u] + edge.cost` (line 50) is a 32-bit `int`
    addition, so it wraps on overflow. -/
def lsRelaxEdge (s u : Int) (st : LSState) (q : Int × Int) : LSState :=
  let alt := wrap32 (st.dist u + q.2)
  if alt < st.dist q.1 ∨ (alt = st.dist q.1 ∧ u < st.prev q.1) then
    { dist := set1 st.dist q.1 alt,
      next := set1o st.next q.1 (if u = s then q.1 else (st.next u).getD 0),
      prev := set1 st.prev q.1 u,
      pq := pqInsert (alt, q.1) (pqErase (st.dist q.1, q.1) st.pq) }
  else st

/-- One iteration of the `while (!priority_queue.empty())` loop: pop the
    first (minimum) pair, relax all edges of the popped node. -/
def lsStep (t : Topo) (s : Int) (st : LSState) : LSState :=
  match st.pq with
  | [] => st
  | d :: rest => (adjOf t d.2).foldl (lsRelaxEdge s d.2) { st with pq := rest }

/-- The fuelled main loop.  The source loop has no structural bound; fuel
    exhaustion leaves the current state (theorems below either establish an
    emptied queue or are stated fuel-independently). -/
def lsLoop (t : Topo) (s : Int) : Nat → LSState → LSState
  | 0, st => st
  | n + 1, st =>
    match st.pq with
    | [] => st
    | _ :: _ => lsLoop t s n (lsStep t s st)

/-- Initial Dijkstra state for source `s` (linkstate.cpp lines 37–43):
    every node key holds `INT_MAX`, then `dist[id] = 0`,
    `nextHop[id] = id`, `prevHop[id] = id`, queue seeded with `(0, id)`. -/
def lsInit (s : Int) : LSState :=
  { dist := fun v => if v = s then 0 else INF,
    next := fun v => if v = s then some s else none,
    prev := fun v => if v = s then s else 0,
    pq := [(0, s)] }

/-- Fuel sufficient for the link-state loop to drain its queue (established
    by the termination development below): a crude upper bound on the
    potential-measure argument for non-negative costs. -/
def lsFuel (t : Topo) : Nat :=
  let n := (nodeIds t).length
  (n + 2) * (n * (4294967296 * (n + 2) + n + 2)) + n + 2

/-- The per-source Dijkstra computation of `writeForwardingTable`, run to
    queue exhaustion. -/
def lsSolve (t : Topo) (s : Int) : LSState := lsLoop t s (lsFuel t) (lsInit s)

/-- `routeCost[id]` as stored by `writeForwardingTable`. -/
def lsDist (t : Topo) (s v : Int) : Int := (lsSolve t s).dist v

/-- `routeNext[id]` as stored by `writeForwardingTable` (key set included). -/
def lsNext (t : Topo) (s v : Int) : Option Int := (lsSolve t s).next v

/-! ## Path resolver (`writeMessages`, both files)

Message queries arrive pre-parsed as `(src, dst, text)` triples (the spec
treats parsing as a collaborator concern; `writeMessages` itself splits the
line with `iss >> src >> dst; getline(iss, text)`). -/

/-- Result of one trace-line computation.  `crash` is an uncaught
    `std::out_of_range` from `map::at`; `timeout` is fuel exhaustion of the
    unbounded `while` walk. -/
inductive MsgOut
  | line (s : String)
  | crash
  | timeout
deriving DecidableEq

/-- The reachable trace line
    `from <src> to <dst> cost <c> hops <h…> message <text>`. -/
def reachLine (src dst c : Int) (hops : List Int) (text : String) : String :=
  "from " ++ toString src ++ " to " ++ toString dst ++ " cost " ++ toString c ++
    " hops " ++ String.intercalate " " (hops.map toString) ++ " message " ++ text

/-- The unreachable trace line. -/
def unreachLine (src dst : Int) (text : String) : String :=
  "from " ++ toString src ++ " to " ++ toString dst ++
    " cost infinite hops unreachable message " ++ text

/-- Outcome of the distvec walk loop
    `while (current != dst && current != -1) { path.push_back(current);
       current = nextHop.at(current).at(dst); }` (distvec.cpp lines 225–230). -/
inductive DVWalkOut
  | exited (current : Int) (path : List Int)
  | crashed
  | timeout
deriving DecidableEq

/-- The fuelled distvec walk.  `keys` is the key set of the `nextHop` table
    (the node ids at solve time); a lookup outside it crashes (`map::at`). -/
def dvWalk (keys : List Int) (next : Int → Int → Int) (dst : Int) :
    Nat → Int → List Int → DVWalkOut
  | 0, _, _ => .timeout
  | n + 1, cur, path =>
    if cur = dst ∨ cur = -1 then .exited cur path
    else if cur ∈ keys ∧ dst ∈ keys then
      dvWalk keys next dst n (next cur dst) (path ++ [cur])
    else .crashed

/-- One trace line of distvec's `writeMessages` (lines 219–245): the
    `dist.at(src).at(dst)` guard, the INF test, the walk, and the two output
    forms. -/
def dvMessage (keys : List Int) (dist next : Int → Int → Int)
    (src dst : Int) (text : String) (fuel : Nat) : MsgOut :=
  if src ∈ keys ∧ dst ∈ keys then
    if dist src dst = INF then .line (unreachLine src dst text)
    else
      match dvWalk keys next dst fuel src [] with
      | .exited cur path =>
        if cur = dst then .line (reachLine src dst (dist src dst) (path ++ [dst]) text)
        else .line (unreachLine src dst text)
      | .crashed => .crash
      | .timeout => .timeout
  else .crash

/-- Outcome of the linkstate walk loop (linkstate.cpp lines 140–147):
    `found` exits with `current == dst` (the destination is *not* appended),
    `notfound` is the `find == end` break (`pathExists = false`). -/
inductive LSWalkOut
  | found (path : List Int)
  | notfound
  | crashed
  | timeout
deriving DecidableEq

/-- The fuelled linkstate walk.  `rkeys` is the key set of `routeNext`
    (`routeNext.at(current)` throws outside it); each node's own table
    `rnext current` answers membership via `find`. -/
def lsWalk (rkeys : List Int) (rnext : Int → Int → Option Int) (dst : Int) :
    Nat → Int → List Int → LSWalkOut
  | 0, _, _ => .timeout
  | n + 1, cur, path =>
    if cur = dst then .found path
    else if cur ∈ rkeys then
      match rnext cur dst with
      | none => .notfound
      | some nxt => lsWalk rkeys rnext dst n nxt (path ++ [cur])
    else .crashed

/-- One trace line of linkstate's `writeMessages` (lines 136–160).  On a
    successful walk the cost line reads `routeCost.at(src).at(dst)`, whose
    key sets are the node ids (`rkeys`). -/
def lsMessage (rkeys : List Int) (rnext : Int → Int → Option Int)
    (rcost : Int → Int → Int) (src dst : Int) (text : String) (fuel : Nat) : MsgOut :=
  match lsWalk rkeys rnext dst fuel src [] with
  | .found path =>
    if src ∈ rkeys ∧ dst ∈ rkeys then
      .line (reachLine src dst (rcost src dst) path text)
    else .crash
  | .notfound => .line (unreachLine src dst text)
  | .crashed => .crash
  | .timeout => .timeout

/-- Distvec end-to-end trace line for a query against a topology snapshot. -/
def dvTrace (t : Topo) (src dst : Int) (text : String) (fuel : Nat) : MsgOut :=
  dvMessage (nodeIds t) (dvDist t) (dvNext t) src dst text fuel

/-- Linkstate end-to-end trace line for a query against a topology
    snapshot (`routeNext` / `routeCost` keyed by the node ids). -/
def lsTrace (t : Topo) (src dst : Int) (text : String) (fuel : Nat) : MsgOut :=
  lsMessage (nodeIds t) (lsNext t) (lsDist t) src dst text fuel

/-! ## Spec-side notions: chains, shortest costs, next-hop iterates -/

/-- Cost of the edge chain `a → l₀ → l₁ → …` in `t`; `none` when some edge
    is missing. -/
def chainCost (t : Topo) : Int → List Int → Option Int
  | _, [] => some 0
  | a, b :: rest =>
    match adjCost t a b, chainCost t b rest with
    | some c, some r => some (c + r)
    | _, _ => none

/-- Last vertex of the chain `a :: l`. -/
def chainLast (a : Int) (l : List Int) : Int := l.getLastD a

/-- `b` is reachable from `a` along stored edges. -/
def Reachable (t : Topo) (a b : Int) : Prop :=
  ∃ l c, chainCost t a l = some c ∧ chainLast a l = b

/-- `v` is the least chain cost from `a` to `b`. -/
def IsMinCost (t : Topo) (a b v : Int) : Prop :=
  (∃ l, chainCost t a l = some v ∧ chainLast a l = b) ∧
  ∀ l c, chainCost t a l = some c → chainLast a l = b → v ≤ c

/-- Iterate a step function `n` times (used for next-hop walks). -/
def nextIter (f : Int → Int) : Nat → Int → Int
  | 0, c => c
  | n + 1, c => nextIter f n (f c)

/-- The distvec next-hop step toward a fixed destination. -/
def dvStepTo (next : Int → Int → Int) (dst : Int) : Int → Int :=
  fun c => next c dst

/-- The linkstate next-hop step toward a fixed destination (each node's own
    `routeNext` table; missing entries keep the walker in place, but the
    hypotheses below always supply the entry). -/
def lsStepTo (rnext : Int → Int → Option Int) (dst : Int) : Int → Int :=
  fun c => (rnext c dst).getD c

/-- The distvec resolver walk from `src` toward `dst` succeeds in exactly
    `n` steps over the table `next` with key set `keys`: the `n`-th iterate
    is `dst` and no earlier iterate is `dst` or `-1` or outside `keys`. -/
def DVReaches (keys : List Int) (next : Int → Int → Int) (src dst : Int) (n : Nat) : Prop :=
  nextIter (dvStepTo next dst) n src = dst ∧
  ∀ m < n, nextIter (dvStepTo next dst) m src ≠ dst ∧
    nextIter (dvStepTo next dst) m src ≠ -1 ∧
    nextIter (dvStepTo next dst) m src ∈ keys

/-- The linkstate resolver walk from `src` toward `dst` succeeds in exactly
    `n` steps: the `n`-th iterate is `dst` and every earlier hop is a
    `routeNext` key whose own table has an entry for `dst`. -/
def LSReaches (rkeys : List Int) (rnext : Int → Int → Option Int)
    (src dst : Int) (n : Nat) : Prop :=
  nextIter (lsStepTo rnext dst) n src = dst ∧
  ∀ m < n, nextIter (lsStepTo rnext dst) m src ≠ dst ∧
    nextIter (lsStepTo rnext dst) m src ∈ rkeys ∧
    (rnext (nextIter (lsStepTo rnext dst) m src) dst).isSome

/-- Concrete topologies used by the claims. -/
def topoA : Topo := buildTopo [(1, 2, 1), (2, 3, 1), (1, 3, 5)]

/-- `topoA` after the change record `(2, 3, -999)`. -/
def topoA2 : Topo := applyChange topoA (2, 3, -999)

/-- A single zero-cost edge (tie-break counterexample for the self entry). -/
def topoZ : Topo := buildTopo [(1, 2, 0)]

/-- Zero-cost edge plus a triangle: the distance-vector tie-break produces a
    next-hop cycle between nodes 1 and 2 toward destination 3. -/
def topoC : Topo := buildTopo [(1, 2, 0), (1, 3, 1), (2, 3, 1)]

/-- A self-loop at node 1 (positive costs). -/
def topoS : Topo := buildTopo [(1, 1, 5), (1, 2, 1)]

/-- The two-hop equal-cost diamond: 1–2–4 and 1–3–4, all edges cost 1. -/
def topoD : Topo := buildTopo [(1, 2, 1), (2, 4, 1), (1, 3, 1), (3, 4, 1)]

/-- A line topology whose two edge costs are `int`-representable but sum
    past `INT_MAX`: linkstate's `int alt = dist[u] + edge.cost` overflows
    on it. -/
def topoOvf : Topo := buildTopo [(1, 2, 1500000000), (2, 3, 1500000000)]

/-- Two three-hop equal-cost paths 1–2–9–4 and 1–3–5–4 (all edges cost 1):
    the link-state predecessor tie-break prefers the path through 3. -/
def topoL : Topo := buildTopo [(1, 2, 1), (2, 9, 1), (9, 4, 1), (1, 3, 1), (3, 5, 1), (5, 4, 1)]

/-- An explicitly inconsistent linkstate routing state: nodes 1 and 2 point
    at each other for destination 3. -/
def lsCycNext : Int → Int → Option Int :=
  fun c _ => some (if c = 1 then 2 else 1)

/-- Distance-vector invariant behind the amended C9: self entries intact
    and off-diagonal estimates at least 1 (positive costs, no self-loops). -/
def DVSelfInv (t : Topo) (st : DVState) : Prop :=
  (∀ a ∈ mkeys t, st.dist a a = 0 ∧ st.next a a = a) ∧
  (∀ a b, a ∈ mkeys t → b ∈ mkeys t → a ≠ b → 1 ≤ st.dist a b)

/-- Link-state invariant behind the amended C9: non-negative estimates and
    an intact source self entry. -/
def LSSelfInv (s : Int) (st : LSState) : Prop :=
  (∀ v, 0 ≤ st.dist v) ∧ st.dist s = 0 ∧ st.next s = some s

/-- Rank of an integer among the candidate predecessor values (node ids and
    the `operator[]` default `0`): the number of candidates not exceeding it. -/
def lsRank (t : Topo) (x : Int) : Nat :=
  (0 :: mkeys t).countP (fun y => decide (y ≤ x))

/-- Termination potential of one node: lexicographic `(dist, prev)` packed
    into a natural number; `dist` is shifted into `[0, 2^32)` because the
    wrapped `int` values range over `[-2^31, 2^31)`. -/
def lsPhiNode (t : Topo) (st : LSState) (v : Int) : Nat :=
  (st.dist v + 2147483648).toNat * ((mkeys t).length + 2) + lsRank t (st.prev v)

/-- Total termination potential of the link-state loop state. -/
def lsPhi (t : Topo) (st : LSState) : Nat :=
  ((mkeys t).map (lsPhiNode t st)).sum

/-- Loop measure: potential first, queue length second. -/
def lsMeasure (t : Topo) (st : LSState) : Nat :=
  lsPhi t st * ((mkeys t).length + 1) + st.pq.length

/-- Run-time invariant of the link-state loop: estimates stay in the 32-bit
    `int` range, every queue entry carries the current distance of a node
    key, queued node ids are distinct, and every recorded predecessor is a
    node key or `0`. -/
def LSRunInv (t : Topo) (st : LSState) : Prop :=
  (∀ v, -2147483648 ≤ st.dist v ∧ st.dist v < 2147483648) ∧
  (∀ p ∈ st.pq, p.1 = st.dist p.2 ∧ p.2 ∈ mkeys t) ∧
  (st.pq.map Prod.snd).Nodup ∧
  (∀ v, st.prev v ∈ (0 :: mkeys t))

/-- All edge costs representable as C++ `int` (≤ `INT_MAX`); always true
    of the program's parsed input and needed for the `INF` sentinel to mean
    "unreachable". -/
def BoundedCosts (t : Topo) : Prop := ∀ p ∈ t, ∀ q ∈ p.2, q.2 ≤ INF

instance (t : Topo) : Decidable (BoundedCosts t) :=
  inferInstanceAs (Decidable (∀ p ∈ t, ∀ q ∈ p.2, q.2 ≤ INF))

/-- Distance-vector cost invariant: zero diagonal, entries in `[0, INF]`,
    and every finite entry is witnessed by an actual chain. -/
def DVInv (t : Topo) (st : DVState) : Prop :=
  (∀ a ∈ mkeys t, st.dist a a = 0) ∧
  (∀ a b, a ∈ mkeys t → b ∈ mkeys t →
    0 ≤ st.dist a b ∧ st.dist a b ≤ INF ∧
    (st.dist a b = INF ∨
      ∃ l, chainCost t a l = some (st.dist a b) ∧ chainLast a l = b))

/-- Each estimate is at most the direct edge cost (holds at initialization
    and is kept by monotone decrease). -/
def DVNbUB (t : Topo) (st : DVState) : Prop :=
  ∀ a ∈ mkeys t, ∀ q ∈ adjOf t a, st.dist a q.1 ≤ q.2

/-- The estimates dominate every chain of at most `m` edges. -/
def DVPUB (t : Topo) (st : DVState) (m : Nat) : Prop :=
  ∀ a b, a ∈ mkeys t → b ∈ mkeys t → ∀ l c, l.length ≤ m →
    chainCost t a l = some c → chainLast a l = b → st.dist a b ≤ c

/-- The estimates dominate every chain (the converged upper bound). -/
def DVFullUB (t : Topo) (st : DVState) : Prop :=
  ∀ a b, a ∈ mkeys t → b ∈ mkeys t → ∀ l c,
    chainCost t a l = some c → chainLast a l = b → st.dist a b ≤ c

/-- Fixed point of the relaxation: no triple can improve (the state of a
    pass that reported no update). -/
def DVFP (t : Topo) (st : DVState) : Prop :=
  ∀ p ∈ t, ∀ q ∈ p.2, st.dist p.1 q.1 ≠ INF →
    ∀ k ∈ mkeys t, st.dist p.1 k ≤ st.dist p.1 q.1 + st.dist q.1 k

/-- The relax-completeness predicate for one edge-tail pair: the edge is
    already relaxed or its tail is still queued with its current distance. -/
def LSPred (st : LSState) (u2 : Int) (q2 : Int × Int) : Prop :=
  st.dist q2.1 ≤ st.dist u2 + q2.2 ∨ (st.dist u2, u2) ∈ st.pq

/-- Sum of the costs of all edges leaving `u` (one adjacency row). -/
def adjSum (t : Topo) (u : Int) : Int := ((adjOf t u).map Prod.snd).sum

/-- Sum of all stored edge costs (both stored directions of every link). -/
def totalCost (t : Topo) : Int := ((mkeys t).map (adjSum t)).sum

/-- Overflow-safety of linkstate's `int alt = dist[u] + edge.cost`: twice
    the total stored edge cost stays below `INT_MAX`.  Every estimate the
    loop ever relaxes from is the cost of a node-simple chain (proved
    below), hence at most `totalCost`, so under this bound the addition
    never leaves the `int` range. -/
def SafeCosts (t : Topo) : Prop := 2 * totalCost t < INF

instance (t : Topo) : Decidable (SafeCosts t) :=
  inferInstanceAs (Decidable (2 * totalCost t < INF))

/-- A wrap-safety witness for the estimate of `v`: a node-simple chain from
    `s` costing exactly `st.dist v`, each of whose intermediate nodes
    already has an estimate dominating the matching chain prefix. -/
def LSWit (t : Topo) (s : Int) (st : LSState) (v : Int) (l : List Int) : Prop :=
  chainCost t s l = some (st.dist v) ∧ chainLast s l = v ∧ (s :: l).Nodup ∧
  ∀ l1 x l2, l = l1 ++ x :: l2 → ∀ c2, chainCost t x l2 = some c2 →
    st.dist x + c2 ≤ st.dist v

/-- Wrap-safety invariant of the link-state loop for source `s`: the source
    estimate is pinned at `0` and every finite estimate carries a
    node-simple witness chain. -/
def LSBound (t : Topo) (s : Int) (st : LSState) : Prop :=
  st.dist s = 0 ∧ ∀ v, st.dist v = INF ∨ ∃ l, LSWit t s st v l

/-- Every queued entry refers to a finite estimate. -/
def LSQFin (st : LSState) : Prop := ∀ p ∈ st.pq, st.dist p.2 ≠ INF

/-- Next-hop soundness of the distance-vector tables: every finite
    off-diagonal entry is witnessed by a chain whose first hop is the
    stored next hop. -/
def DVNextInv (t : Topo) (st : DVState) : Prop :=
  ∀ a b, a ∈ mkeys t → b ∈ mkeys t → a ≠ b → st.dist a b < INF →
    ∃ l, chainCost t a (st.next a b :: l) = some (st.dist a b) ∧
      chainLast a (st.next a b :: l) = b

/-- Next-hop soundness of the link-state tables for source `s`: every
    finite non-source entry is witnessed by a chain whose first hop is the
    stored next hop. -/
def LSNextInv (t : Topo) (s : Int) (st : LSState) : Prop :=
  ∀ v, v ≠ s → st.dist v < INF →
    ∃ h l, st.next v = some h ∧
      chainCost t s (h :: l) = some (st.dist v) ∧ chainLast s (h :: l) = v

/-- The list of nodes visited by `n` applications of the resolver step `f`
    starting just after `cur` (the walk of `writeMessages`, unrolled). -/
def walkList (f : Int → Int) : Nat → Int → List Int
  | 0, _ => []
  | n + 1, c => f c :: walkList f n (f c)

/-- The combined safe-regime invariant: wrap-safety, queued-finiteness,
    relax-completeness and next-hop soundness. -/
def LSAll (t : Topo) (s : Int) (st : LSState) : Prop :=
  LSBound t s st ∧ LSQFin st ∧
  (∀ u2 q2, q2 ∈ adjOf t u2 → LSPred st u2 q2) ∧
  LSNextInv t s st

/-! ## Generic helper lemmas -/

theorem foldl_inv {σ α : Type} {P : σ → Prop} (l : List α) (f : σ → α → σ)
    (h : ∀ s x, x ∈ l → P s → P (f s x)) :
    ∀ s, P s → P (l.foldl f s) := by
  induction l with
  | nil => intro s hs; simpa using hs
  | cons a rest ih =>
    intro s hs
    simp only [List.foldl_cons]
    exact ih (fun s x hx => h s x (List.mem_cons_of_mem a hx)) (f s a)
      (h s a (List.mem_cons_self a rest) hs)

theorem mfind_eq_none_merase {α : Type} (m : List (Int × α)) (k : Int)
    (h : mfind m k = none) : merase m k = m := by
  induction m with
  | nil => rfl
  | cons p rest ih =>
    by_cases hp : p.1 = k
    · simp [mfind, hp] at h
    · simp only [mfind, hp, if_neg, ite_false] at h
      simp [merase, hp, ih h]

theorem mem_mkeys_mfind {α : Type} (m : List (Int × α)) (k : Int)
    (h : k ∈ mkeys m) : ∃ v, mfind m k = some v := by
  induction m with
  | nil => simp [mkeys] at h
  | cons p rest ih =>
    by_cases hp : p.1 = k
    · exact ⟨p.2, by simp [mfind, hp]⟩
    · simp only [mkeys, List.map_cons, List.mem_cons] at h
      rcases h with h | h
      · exact absurd h.symm hp
      · obtain ⟨v, hv⟩ := ih h
        exact ⟨v, by simp [mfind, hp, hv]⟩

theorem mHasKey_true_of_mem {α : Type} (m : List (Int × α)) (k : Int)
    (h : k ∈ mkeys m) : mHasKey m k = true :=
  List.elem_eq_true_of_mem h

theorem mModify_fix {α : Type} (m : List (Int × α)) (k : Int) (f : α → α)
    (h : ∀ v, mfind m k = some v → f v = v) : mModify m k f = m := by
  induction m with
  | nil => rfl
  | cons p rest ih =>
    obtain ⟨pk, pv⟩ := p
    by_cases hp : pk = k
    · have hfix : f pv = pv := h pv (by simp [mfind, hp])
      simp [mModify, hp, hfix]
    · simp only [mModify, hp, ite_false, if_neg]
      rw [ih]
      intro v hv
      exact h v (by simp [mfind, hp, hv])

theorem mfind_adjOf {t : Topo} {a : Int} (h : a ∈ mkeys t) :
    mfind t a = some (adjOf t a) := by
  obtain ⟨v, hv⟩ := mem_mkeys_mfind t a h
  simp [adjOf, hv]

/-! ## Claim C3 — unknown node ids crash the resolver (code bug) -/

/-- **C3.**  The spec requires a query with an unknown node id to be
    reported as unreachable; instead `writeMessages` crashes: distvec's
    `dist.at(src).at(dst)` throws for an unknown destination (query `1 7`)
    and for an unknown source (query `7 1`), and linkstate's
    `routeNext.at(current)` throws for an unknown source (query `7 1`).
    (Linkstate handles an unknown destination: `find` misses and the
    unreachable line is printed.) -/
theorem c3_unknown_id_crashes :
    dvTrace topoA 1 7 "hi" 10 = .crash ∧
    dvTrace topoA 7 1 "hi" 10 = .crash ∧
    lsTrace topoA 7 1 "hi" 10 = .crash ∧
    lsTrace topoA 1 7 "hi" 10 = .line (unreachLine 1 7 "hi") := by
  refine ⟨by decide, by decide, ?_, ?_⟩ <;> decide

/-! ## Claim C4 — removeEdge on absent edge (corrected) -/

/-- **C4 counterexample.**  Removing a non-existent edge between ids that
    are not nodes does *not* leave the store unchanged: `nodes[from]` /
    `nodes[to]` (`operator[]`) insert the ids as fresh nodes.  Here the
    topology has nodes `{1, 2}`, there is no edge between `5` and `6`, yet
    `removeEdge` grows the node set to `{1, 2, 5, 6}`. -/
theorem c4_removeEdge_creates_nodes :
    adjCost (buildTopo [(1, 2, 1)]) 5 6 = none ∧
    adjCost (buildTopo [(1, 2, 1)]) 6 5 = none ∧
    nodeIds (removeEdge (buildTopo [(1, 2, 1)]) 5 6) = [1, 2, 5, 6] ∧
    removeEdge (buildTopo [(1, 2, 1)]) 5 6 ≠ buildTopo [(1, 2, 1)] := by
  refine ⟨by decide, by decide, by decide, by decide⟩

/-- **C4 amended.**  If `a` and `b` are both existing nodes and there is no
    edge between them, the `-999` change is a no-op on the store. -/
theorem c4_amended (t : Topo) (a b : Int)
    (ha : a ∈ nodeIds t) (hb : b ∈ nodeIds t)
    (hab : adjCost t a b = none) (hba : adjCost t b a = none) :
    removeEdge t a b = t := by
  have e1 : ensureNode t a = t := by
    simp [ensureNode, mHasKey_true_of_mem t a ha]
  have e2 : ensureNode t b = t := by
    simp [ensureNode, mHasKey_true_of_mem t b hb]
  have h1 : mModify t a (fun ad => merase ad b) = t := by
    apply mModify_fix
    intro v hv
    have hv2 : v = adjOf t a := by
      have h3 := mfind_adjOf ha
      rw [hv] at h3
      exact Option.some_injective _ h3
    subst hv2
    exact mfind_eq_none_merase _ _ hab
  have h2 : mModify t b (fun ad => merase ad a) = t := by
    apply mModify_fix
    intro v hv
    have hv2 : v = adjOf t b := by
      have h3 := mfind_adjOf hb
      rw [hv] at h3
      exact Option.some_injective _ h3
    subst hv2
    exact mfind_eq_none_merase _ _ hba
  show mModify (ensureNode (mModify (ensureNode t a) a _) b) b _ = t
  rw [e1, h1, e2, h2]

/-- Witness for `c4_amended`: in the store `[(1,2,1),(3,4,1)]` the nodes
    `1` and `3` exist and carry no edge between them, and removal is a
    no-op. -/
theorem c4_amended_witness :
    (1 : Int) ∈ nodeIds (buildTopo [(1, 2, 1), (3, 4, 1)]) ∧
    (3 : Int) ∈ nodeIds (buildTopo [(1, 2, 1), (3, 4, 1)]) ∧
    adjCost (buildTopo [(1, 2, 1), (3, 4, 1)]) 1 3 = none ∧
    adjCost (buildTopo [(1, 2, 1), (3, 4, 1)]) 3 1 = none ∧
    removeEdge (buildTopo [(1, 2, 1), (3, 4, 1)]) 1 3 = buildTopo [(1, 2, 1), (3, 4, 1)] :=
  ⟨by decide, by decide, by decide, by decide,
    c4_amended _ 1 3 (by decide) (by decide) (by decide) (by decide)⟩

/-! ## Claim C5 — the concrete scenario (confirmed) -/

/-- **C5.**  On topology `(1,2,1) (2,3,1) (1,3,5)` with query `1 3 hello`:
    the initial snapshot has `cost[1][3] = 2` and distvec's trace line is
    exactly `from 1 to 3 cost 2 hops 1 2 3 message hello`; after the change
    `(2,3,-999)` the path becomes `1 3` with cost `5`.  The link-state
    solver computes the same costs on both snapshots. -/
theorem c5_scenario :
    dvDist topoA 1 3 = 2 ∧
    dvTrace topoA 1 3 "hello" 10 =
      .line "from 1 to 3 cost 2 hops 1 2 3 message hello" ∧
    lsDist topoA 1 3 = 2 ∧
    dvDist topoA2 1 3 = 5 ∧
    dvTrace topoA2 1 3 "hello" 10 =
      .line "from 1 to 3 cost 5 hops 1 3 message hello" ∧
    lsDist topoA2 1 3 = 5 :=
  ⟨by decide, by decide, by decide, by decide, by decide, by decide⟩

/-! ## Claim C6 — cost agreement of the two solvers (corrected) -/

/-- **C6 counterexample.**  With a self-loop — allowed by the claim, which
    only assumes non-negative costs — the two solvers disagree on the
    (trivially reachable) pair `(1,1)`: distvec's initialization overwrites
    `dist[1][1]` with the self-loop cost and relaxation lowers it to the
    round-trip cost `2`, while linkstate keeps `dist[1][1] = 0`. -/
theorem c6_selfloop_costs_disagree :
    NonnegCosts topoS ∧ Reachable topoS 1 1 ∧ (1 : Int) ∈ nodeIds topoS ∧
    dvDist topoS 1 1 = 2 ∧ lsDist topoS 1 1 = 0 ∧
    dvDist topoS 1 1 ≠ lsDist topoS 1 1 :=
  ⟨by decide, ⟨[], 0, by decide, by decide⟩, by decide, by decide, by decide, by decide⟩

/-! ## Claim C8 — the tie-break scenario (corrected) -/

/-- **C8 counterexample.**  A topology where node 1 has two equal-cost
    (cost 3) paths to node 4, one through neighbour 2 and one through
    neighbour 3.  The link-state tie-break compares *predecessor* ids, so it
    resolves the next hop to `3`, not to the smaller candidate `2`
    (distvec, comparing candidate next hops, does yield `2`). -/
theorem c8_ls_prefers_larger_neighbour :
    chainCost topoL 1 [2, 9, 4] = some 3 ∧
    chainCost topoL 1 [3, 5, 4] = some 3 ∧
    dvDist topoL 1 4 = 3 ∧ lsDist topoL 1 4 = 3 ∧
    lsNext topoL 1 4 = some 3 ∧ lsNext topoL 1 4 ≠ some 2 ∧
    dvNext topoL 1 4 = 2 :=
  ⟨by decide, by decide, by decide, by decide, by decide, by decide, by decide⟩

/-- **C8 amended.**  In the two-hop equal-cost scenario (diamond 1–2–4 /
    1–3–4, all costs 1) both variants resolve the next hop from 1 toward 4
    to the smaller neighbour 2; both solvers are pure functions of the
    topology, hence trivially identical across repeated runs.  For longer
    equal-cost paths the link-state predecessor tie-break may choose the
    neighbour 3 (see the counterexample). -/
theorem c8_amended :
    chainCost topoD 1 [2, 4] = some 2 ∧
    chainCost topoD 1 [3, 4] = some 2 ∧
    dvDist topoD 1 4 = 2 ∧ lsDist topoD 1 4 = 2 ∧
    dvNext topoD 1 4 = 2 ∧ lsNext topoD 1 4 = some 2 :=
  ⟨by decide, by decide, by decide, by decide, by decide, by decide⟩

/-! ## Claim C9 — the self entries (corrected) -/

/-- **C9 counterexample.**  With the single zero-cost edge `(1,2,0)` — a
    non-negative topology — the tie-break rewrites the self entry: both
    solvers end with `nextHop[2][2] = 1 ≠ 2`.  With the positive-cost
    self-loop `(1,1,5)` distvec's initialization overwrites `cost[1][1]`
    and relaxation leaves `2 ≠ 0`. -/
theorem c9_self_entry_rewritten :
    NonnegCosts topoZ ∧
    dvNext topoZ 2 2 = 1 ∧ dvNext topoZ 2 2 ≠ 2 ∧
    lsNext topoZ 2 2 = some 1 ∧ lsNext topoZ 2 2 ≠ some 2 ∧
    PosCosts topoS ∧ dvDist topoS 1 1 = 2 ∧ dvDist topoS 1 1 ≠ 0 :=
  ⟨by decide, by decide, by decide, by decide, by decide, by decide, by decide, by decide⟩

/-! ## Claim C2 — the resolver walk is not bounded (code bug) -/

theorem dv_topoC_dist13 : dvDist topoC 1 3 = 1 := by decide

theorem dv_topoC_next13 : dvNext topoC 1 3 = 2 := by decide

theorem dv_topoC_next23 : dvNext topoC 2 3 = 1 := by decide

theorem c2_dv_aux (n : Nat) :
    ∀ cur path, (cur = 1 ∨ cur = 2) →
      dvWalk (nodeIds topoC) (dvNext topoC) 3 n cur path = .timeout := by
  induction n with
  | zero => intro cur path _; rfl
  | succ n ih =>
    intro cur path hcur
    rcases hcur with h | h <;> subst h
    · show dvWalk (nodeIds topoC) (dvNext topoC) 3 (n + 1) 1 path = .timeout
      rw [dvWalk]
      rw [if_neg (by decide), if_pos (by decide)]
      rw [dv_topoC_next13]
      exact ih 2 _ (Or.inr rfl)
    · show dvWalk (nodeIds topoC) (dvNext topoC) 3 (n + 1) 2 path = .timeout
      rw [dvWalk]
      rw [if_neg (by decide), if_pos (by decide)]
      rw [dv_topoC_next23]
      exact ih 1 _ (Or.inl rfl)

theorem c2_ls_aux (n : Nat) :
    ∀ cur path, (cur = 1 ∨ cur = 2) →
      lsWalk [1, 2] lsCycNext 3 n cur path = .timeout := by
  induction n with
  | zero => intro cur path _; rfl
  | succ n ih =>
    intro cur path hcur
    rcases hcur with h | h <;> subst h
    · show lsWalk [1, 2] lsCycNext 3 (n + 1) 1 path = .timeout
      rw [lsWalk]
      rw [if_neg (by decide), if_pos (by decide)]
      show lsWalk [1, 2] lsCycNext 3 n 2 (path ++ [1]) = .timeout
      exact ih 2 _ (Or.inr rfl)
    · show lsWalk [1, 2] lsCycNext 3 (n + 1) 2 path = .timeout
      rw [lsWalk]
      rw [if_neg (by decide), if_pos (by decide)]
      show lsWalk [1, 2] lsCycNext 3 n 1 (path ++ [2]) = .timeout
      exact ih 1 _ (Or.inl rfl)

/-- **C2.**  The resolver walk is *not* bounded by the node count and can
    loop forever.  Distvec's own solver output on the non-negative topology
    `(1,2,0) (1,3,1) (2,3,1)` yields `nextHop[1][3] = 2` and
    `nextHop[2][3] = 1`, so `writeMessages` on query `1 3` never leaves the
    `while` loop: every fuel times out.  Likewise the linkstate walk on an
    inconsistent `routeNext` with the 2-cycle `1 ↔ 2` never terminates. -/
theorem c2_resolver_walk_unbounded (fuel : Nat) :
    dvTrace topoC 1 3 "x" fuel = .timeout ∧
    lsWalk [1, 2] lsCycNext 3 fuel 1 [] = .timeout := by
  constructor
  · show dvMessage (nodeIds topoC) (dvDist topoC) (dvNext topoC) 1 3 "x" fuel = .timeout
    rw [dvMessage, if_pos (by decide), if_neg (by rw [dv_topoC_dist13]; decide)]
    rw [c2_dv_aux fuel 1 [] (Or.inl rfl)]
  · exact c2_ls_aux fuel 1 [] (Or.inl rfl)

/-! ## Claim C7 — walk round-trip (corrected) -/

/-- **C7 counterexample.**  On the non-negative topology
    `(1,2,0) (1,3,1) (2,3,1)` (3 nodes) destination 3 is reachable from 1
    and `cost[1][3] = 1` is finite, yet following `nextHop[·][3]` from 1
    cycles `1 → 2 → 1 → 2` and never reaches 3 — in particular not within
    `N = 3` steps.  Separately, with the positive self-loop `(1,1,5)` the
    walk for `(1,1)` visits no edge, so the edge-cost sum `0` differs from
    `cost[1][1] = 2`. -/
theorem c7_walk_roundtrip_fails :
    NonnegCosts topoC ∧ Reachable topoC 1 3 ∧ dvDist topoC 1 3 = 1 ∧
    (nodeIds topoC).length = 3 ∧
    nextIter (dvStepTo (dvNext topoC) 3) 0 1 = 1 ∧
    nextIter (dvStepTo (dvNext topoC) 3) 1 1 = 2 ∧
    nextIter (dvStepTo (dvNext topoC) 3) 2 1 = 1 ∧
    nextIter (dvStepTo (dvNext topoC) 3) 3 1 = 2 ∧
    (1 : Int) ≠ 3 ∧ (2 : Int) ≠ 3 ∧
    PosCosts topoS ∧ dvDist topoS 1 1 = 2 ∧ (0 : Int) ≠ dvDist topoS 1 1 :=
  ⟨by decide, ⟨[2, 3], 1, by decide, by decide⟩, by decide, by decide, by decide,
    by decide, by decide, by decide, by decide, by decide, by decide, by decide, by decide⟩

/-! ## Claim C1 — reported hop sequence (corrected) -/

/-- **C1 counterexample.**  For the reachable query `(1,3)` on
    `(1,2,1) (2,3,1) (1,3,5)` the link-state `writeMessages` reports the
    hops `1 2`, *excluding* the destination 3, so the reported sequence is
    not "from source to destination inclusive of both endpoints". -/
theorem c1_ls_hops_exclude_destination :
    lsDist topoA 1 3 = 2 ∧
    lsTrace topoA 1 3 "hello" 10 = .line (reachLine 1 3 2 [1, 2] "hello") ∧
    reachLine 1 3 2 [1, 2] "hello" ≠ reachLine 1 3 2 [1, 2, 3] "hello" :=
  ⟨by decide, by decide, by decide⟩

/-! ## Claim C1 amended — what each resolver reports on success -/

theorem dvWalk_of_reaches (keys : List Int) (next : Int → Int → Int) (dst : Int)
    (hdst : dst ∈ keys) :
    ∀ n fuel cur path, n < fuel →
      nextIter (dvStepTo next dst) n cur = dst →
      (∀ m < n, nextIter (dvStepTo next dst) m cur ≠ dst ∧
        nextIter (dvStepTo next dst) m cur ≠ -1 ∧
        nextIter (dvStepTo next dst) m cur ∈ keys) →
      dvWalk keys next dst fuel cur path =
        .exited dst (path ++ (List.range n).map (fun i => nextIter (dvStepTo next dst) i cur)) := by
  intro n
  induction n with
  | zero =>
    intro fuel cur path hfuel hit _
    obtain ⟨f, rfl⟩ := Nat.exists_eq_succ_of_ne_zero (Nat.pos_iff_ne_zero.mp hfuel)
    have hcur : cur = dst := hit
    rw [dvWalk, if_pos (Or.inl hcur)]
    simp [hcur]
  | succ n ih =>
    intro fuel cur path hfuel hit hpre
    obtain ⟨f, rfl⟩ := Nat.exists_eq_succ_of_ne_zero (Nat.pos_iff_ne_zero.mp (Nat.lt_of_le_of_lt (Nat.zero_le _) hfuel))
    obtain ⟨h0d, h0m, h0k⟩ := hpre 0 (Nat.succ_pos n)
    rw [dvWalk, if_neg (by simpa [nextIter] using And.intro h0d h0m),
      if_pos ⟨by simpa [nextIter] using h0k, hdst⟩]
    have hit2 : nextIter (dvStepTo next dst) n (next cur dst) = dst := hit
    have hpre2 : ∀ m < n, nextIter (dvStepTo next dst) m (next cur dst) ≠ dst ∧
        nextIter (dvStepTo next dst) m (next cur dst) ≠ -1 ∧
        nextIter (dvStepTo next dst) m (next cur dst) ∈ keys := by
      intro m hm
      exact hpre (m + 1) (Nat.succ_lt_succ hm)
    rw [ih f (next cur dst) (path ++ [cur]) (Nat.lt_of_succ_lt_succ hfuel) hit2 hpre2]
    have hshape : (List.range (n + 1)).map (fun i => nextIter (dvStepTo next dst) i cur) =
        cur :: (List.range n).map (fun i => nextIter (dvStepTo next dst) i (next cur dst)) := by
      rw [List.range_succ_eq_map, List.map_cons, List.map_map]
      rfl
    rw [hshape]
    simp

theorem lsWalk_of_reaches (rkeys : List Int) (rnext : Int → Int → Option Int) (dst : Int) :
    ∀ n fuel cur path, n < fuel →
      nextIter (lsStepTo rnext dst) n cur = dst →
      (∀ m < n, nextIter (lsStepTo rnext dst) m cur ≠ dst ∧
        nextIter (lsStepTo rnext dst) m cur ∈ rkeys ∧
        (rnext (nextIter (lsStepTo rnext dst) m cur) dst).isSome) →
      lsWalk rkeys rnext dst fuel cur path =
        .found (path ++ (List.range n).map (fun i => nextIter (lsStepTo rnext dst) i cur)) := by
  intro n
  induction n with
  | zero =>
    intro fuel cur path hfuel hit _
    obtain ⟨f, rfl⟩ := Nat.exists_eq_succ_of_ne_zero (Nat.pos_iff_ne_zero.mp hfuel)
    have hcur : cur = dst := hit
    rw [lsWalk, if_pos hcur]
    simp
  | succ n ih =>
    intro fuel cur path hfuel hit hpre
    obtain ⟨f, rfl⟩ := Nat.exists_eq_succ_of_ne_zero (Nat.pos_iff_ne_zero.mp (Nat.lt_of_le_of_lt (Nat.zero_le _) hfuel))
    obtain ⟨h0d, h0k, h0s⟩ := hpre 0 (Nat.succ_pos n)
    have h0d2 : cur ≠ dst := by simpa [nextIter] using h0d
    have h0k2 : cur ∈ rkeys := by simpa [nextIter] using h0k
    obtain ⟨nx, hnx⟩ := Option.isSome_iff_exists.mp (by simpa [nextIter] using h0s)
    rw [lsWalk, if_neg h0d2, if_pos h0k2, hnx]
    dsimp only
    have hstep : lsStepTo rnext dst cur = nx := by simp [lsStepTo, hnx]
    have hit2 : nextIter (lsStepTo rnext dst) n nx = dst := by
      have : nextIter (lsStepTo rnext dst) n (lsStepTo rnext dst cur) = dst := hit
      rwa [hstep] at this
    have hpre2 : ∀ m < n, nextIter (lsStepTo rnext dst) m nx ≠ dst ∧
        nextIter (lsStepTo rnext dst) m nx ∈ rkeys ∧
        (rnext (nextIter (lsStepTo rnext dst) m nx) dst).isSome := by
      intro m hm
      have := hpre (m + 1) (Nat.succ_lt_succ hm)
      show nextIter (lsStepTo rnext dst) m nx ≠ dst ∧ _ ∧ _
      rw [← hstep]
      exact this
    rw [ih f nx (path ++ [cur]) (Nat.lt_of_succ_lt_succ hfuel) hit2 hpre2]
    have hshape : (List.range (n + 1)).map (fun i => nextIter (lsStepTo rnext dst) i cur) =
        cur :: (List.range n).map (fun i => nextIter (lsStepTo rnext dst) i nx) := by
      rw [List.range_succ_eq_map, List.map_cons, List.map_map]
      have h00 : nextIter (lsStepTo rnext dst) 0 cur = cur := rfl
      rw [h00]
      have htail : ∀ i : ℕ, ((fun i => nextIter (lsStepTo rnext dst) i cur) ∘ Nat.succ) i =
          nextIter (lsStepTo rnext dst) i nx := by
        intro i
        show nextIter (lsStepTo rnext dst) (i + 1) cur = _
        show nextIter (lsStepTo rnext dst) i (lsStepTo rnext dst cur) = _
        rw [hstep]
      rw [funext htail]
    rw [hshape]
    simp

/-- **C1 amended.**  For every routing state and every query whose
    destination the next-hop walk reaches from the source: the
    distance-vector `writeMessages` reports the trace line whose hop list is
    the walk from source to destination *inclusive of both endpoints*
    together with `cost[src][dst]`, while the link-state `writeMessages`
    reports the hop list from the source up to but *excluding* the
    destination, together with `cost[src][dst]`. -/
theorem c1_amended (keys : List Int) (dist next : Int → Int → Int)
    (rkeys : List Int) (rnext : Int → Int → Option Int) (rcost : Int → Int → Int)
    (src dst : Int) (text : String) (n m fuel : Nat)
    (hsrc : src ∈ keys) (hdst : dst ∈ keys)
    (hfin : dist src dst ≠ INF)
    (hdv : DVReaches keys next src dst n)
    (hls : LSReaches rkeys rnext src dst m)
    (hsrc2 : src ∈ rkeys) (hdst2 : dst ∈ rkeys)
    (hfuel : n < fuel) (hfuel2 : m < fuel) :
    dvMessage keys dist next src dst text fuel =
      .line (reachLine src dst (dist src dst)
        ((List.range n).map (fun i => nextIter (dvStepTo next dst) i src) ++ [dst]) text) ∧
    lsMessage rkeys rnext rcost src dst text fuel =
      .line (reachLine src dst (rcost src dst)
        ((List.range m).map (fun i => nextIter (lsStepTo rnext dst) i src)) text) := by
  constructor
  · rw [dvMessage, if_pos ⟨hsrc, hdst⟩, if_neg hfin,
      dvWalk_of_reaches keys next dst hdst n fuel src [] hfuel hdv.1 hdv.2]
    simp
  · rw [lsMessage, lsWalk_of_reaches rkeys rnext dst m fuel src [] hfuel2 hls.1 hls.2]
    dsimp only
    rw [if_pos ⟨hsrc2, hdst2⟩]
    simp

/-- Witness for `c1_amended`: the scenario topology with query `(1,3)`,
    using each solver's own computed state (`n = m = 2` walk steps). -/
theorem c1_amended_witness :
    ((1 : Int) ∈ nodeIds topoA ∧ (3 : Int) ∈ nodeIds topoA ∧
      dvDist topoA 1 3 ≠ INF ∧
      DVReaches (nodeIds topoA) (dvNext topoA) 1 3 2 ∧
      LSReaches (nodeIds topoA) (lsNext topoA) 1 3 2) ∧
    dvMessage (nodeIds topoA) (dvDist topoA) (dvNext topoA) 1 3 "hello" 10 =
      .line (reachLine 1 3 (dvDist topoA 1 3)
        ((List.range 2).map (fun i => nextIter (dvStepTo (dvNext topoA) 3) i 1) ++ [3]) "hello") ∧
    lsMessage (nodeIds topoA) (lsNext topoA) (lsDist topoA) 1 3 "hello" 10 =
      .line (reachLine 1 3 (lsDist topoA 1 3)
        ((List.range 2).map (fun i => nextIter (lsStepTo (lsNext topoA) 3) i 1)) "hello") := by
  refine ⟨⟨by decide, by decide, by decide, ⟨by decide, by decide⟩, ⟨by decide, by decide⟩⟩, ?_⟩
  exact c1_amended (nodeIds topoA) (dvDist topoA) (dvNext topoA)
    (nodeIds topoA) (lsNext topoA) (lsDist topoA) 1 3 "hello" 2 2 10
    (by decide) (by decide) (by decide) ⟨by decide, by decide⟩ ⟨by decide, by decide⟩
    (by decide) (by decide) (by decide) (by decide)

/-! ## More map lemmas and the initialization tables -/

theorem mfind_some_mem {α : Type} {m : List (Int × α)} {k : Int} {v : α}
    (h : mfind m k = some v) : (k, v) ∈ m := by
  induction m with
  | nil => simp [mfind] at h
  | cons p rest ih =>
    by_cases hp : p.1 = k
    · simp only [mfind, hp, if_pos] at h
      have hv : p.2 = v := by injection h
      subst hp
      subst hv
      rw [Prod.mk.eta]
      exact List.mem_cons_self p rest
    · simp only [mfind, hp, ite_false, if_neg] at h
      exact List.mem_cons_of_mem p (ih h)

theorem mem_keys_of_mfind_some {α : Type} {m : List (Int × α)} {k : Int} {v : α}
    (h : mfind m k = some v) : k ∈ mkeys m := by
  have := mfind_some_mem h
  exact List.mem_map_of_mem Prod.fst this

theorem mfind_eq_none_of_not_mem {α : Type} {m : List (Int × α)} {k : Int}
    (h : k ∉ mkeys m) : mfind m k = none := by
  cases hm : mfind m k with
  | none => rfl
  | some v => exact absurd (mem_keys_of_mfind_some hm) h

theorem mfind_of_mem_nodup {α : Type} {m : List (Int × α)} {k : Int} {v : α}
    (hnd : (mkeys m).Nodup) (h : (k, v) ∈ m) : mfind m k = some v := by
  induction m with
  | nil => simp at h
  | cons p rest ih =>
    rcases List.mem_cons.mp h with h1 | h1
    · subst h1
      simp [mfind]
    · have hk : k ∈ mkeys rest := List.mem_map_of_mem Prod.fst h1
      have hp : p.1 ≠ k := by
        intro he
        exact (List.nodup_cons.mp hnd).1 (he ▸ hk)
      simp only [mfind, hp, ite_false, if_neg]
      exact ih (List.nodup_cons.mp hnd).2 h1

theorem chain_lt_nodup (l : List Int) (h : List.Pairwise (· < ·) l) : l.Nodup :=
  h.imp (fun hlt => ne_of_lt hlt)

theorem topoWF_keys_nodup {t : Topo} (h : TopoWF t) : (mkeys t).Nodup :=
  chain_lt_nodup _ h.1

theorem topoWF_adj_nodup {t : Topo} (h : TopoWF t) {p : Int × Adj} (hp : p ∈ t) :
    (mkeys p.2).Nodup :=
  chain_lt_nodup _ (h.2 p hp).1

theorem adjOf_eq_of_mem {t : Topo} {p : Int × Adj} (hnd : (mkeys t).Nodup)
    (hp : p ∈ t) : adjOf t p.1 = p.2 := by
  obtain ⟨p1, p2⟩ := p
  simp [adjOf, mfind_of_mem_nodup hnd hp]

theorem dvInitColD_fold (i : Int) (cols : List Int) :
    ∀ st : DVState,
      (cols.foldl (dvInitColD i) st).upd = st.upd ∧
      ∀ a b, (cols.foldl (dvInitColD i) st).dist a b =
          (if a = i ∧ b ∈ cols then (if i = b then 0 else INF) else st.dist a b) ∧
        (cols.foldl (dvInitColD i) st).next a b =
          (if a = i ∧ b ∈ cols then (if i = b then i else -1) else st.next a b) := by
  induction cols with
  | nil => intro st; simp
  | cons c rest ih =>
    intro st
    obtain ⟨ihu, ihv⟩ := ih (dvInitColD i st c)
    refine ⟨by simpa [dvInitColD] using ihu, fun a b => ?_⟩
    obtain ⟨ihd, ihn⟩ := ihv a b
    constructor
    · rw [List.foldl_cons, ihd]
      by_cases ha : a = i
      · subst ha
        by_cases hbr : b ∈ rest
        · simp [hbr]
        · by_cases hbc : b = c
          · subst hbc
            simp [hbr, dvInitColD, set2]
          · simp [hbr, hbc, dvInitColD, set2]
      · simp [ha, dvInitColD, set2]
    · rw [List.foldl_cons, ihn]
      by_cases ha : a = i
      · subst ha
        by_cases hbr : b ∈ rest
        · simp [hbr]
        · by_cases hbc : b = c
          · subst hbc
            simp [hbr, dvInitColD, set2]
          · simp [hbr, hbc, dvInitColD, set2]
      · simp [ha, dvInitColD, set2]

theorem dvInitAdjD_fold (i : Int) (ad : Adj) (hnd : (mkeys ad).Nodup) :
    ∀ st : DVState,
      (ad.foldl (dvInitAdjD i) st).upd = st.upd ∧
      ∀ a b, (ad.foldl (dvInitAdjD i) st).dist a b =
          (if a = i then (mfind ad b).getD (st.dist a b) else st.dist a b) ∧
        (ad.foldl (dvInitAdjD i) st).next a b =
          (if a = i ∧ b ∈ mkeys ad then b else st.next a b) := by
  induction ad with
  | nil =>
    intro st
    refine ⟨rfl, fun a b => ⟨?_, ?_⟩⟩
    · simp [mfind]
    · simp [mkeys]
  | cons q rest ih =>
    intro st
    have hcons : (q.1 :: mkeys rest).Nodup := hnd
    have hq1 : q.1 ∉ mkeys rest := (List.nodup_cons.mp hcons).1
    have hndr : (mkeys rest).Nodup := (List.nodup_cons.mp hcons).2
    obtain ⟨ihu, ihv⟩ := ih hndr (dvInitAdjD i st q)
    refine ⟨by simpa [dvInitAdjD] using ihu, fun a b => ?_⟩
    obtain ⟨ihd, ihn⟩ := ihv a b
    by_cases ha : a = i
    · subst ha
      have hmem : b ∈ mkeys (q :: rest) ↔ b = q.1 ∨ b ∈ mkeys rest := by
        simp [mkeys]
      constructor
      · rw [List.foldl_cons, ihd, if_pos rfl, if_pos rfl]
        by_cases hbq : q.1 = b
        · subst hbq
          have hnone : mfind rest q.1 = none := mfind_eq_none_of_not_mem hq1
          have hstep : (dvInitAdjD a st q).dist a q.1 = q.2 := by
            simp [dvInitAdjD, set2]
          rw [hnone, hstep]
          simp [mfind]
        · have hbq2 : ¬b = q.1 := fun h => hbq h.symm
          have hstep : (dvInitAdjD a st q).dist a b = st.dist a b := by
            simp [dvInitAdjD, set2, hbq2]
          have hfind : mfind (q :: rest) b = mfind rest b := by
            simp [mfind, hbq]
          rw [hstep, hfind]
      · rw [List.foldl_cons, ihn]
        by_cases hbr : b ∈ mkeys rest
        · rw [if_pos ⟨rfl, hbr⟩, if_pos ⟨rfl, hmem.mpr (Or.inr hbr)⟩]
        · rw [if_neg (fun h => hbr h.2)]
          by_cases hbq : b = q.1
          · subst hbq
            have hstep : (dvInitAdjD a st q).next a q.1 = q.1 := by
              simp [dvInitAdjD, set2]
            rw [hstep, if_pos ⟨rfl, hmem.mpr (Or.inl rfl)⟩]
          · have hstep : (dvInitAdjD a st q).next a b = st.next a b := by
              simp [dvInitAdjD, set2, hbq]
            rw [hstep, if_neg (fun h => (hmem.mp h.2).elim hbq hbr)]
    · constructor
      · rw [List.foldl_cons, ihd, if_neg ha, if_neg ha]
        simp [dvInitAdjD, set2, ha]
      · rw [List.foldl_cons, ihn, if_neg (fun h => ha h.1), if_neg (fun h => ha h.1)]
        simp [dvInitAdjD, set2, ha]

theorem dvInitRow_other (t : Topo) (st : DVState) (p : Int × Adj)
    (hnd : (mkeys p.2).Nodup) :
    (dvInitRow t st p).upd = st.upd ∧
    ∀ a b, a ≠ p.1 →
      (dvInitRow t st p).dist a b = st.dist a b ∧
      (dvInitRow t st p).next a b = st.next a b := by
  unfold dvInitRow
  obtain ⟨hu1, hv1⟩ := dvInitColD_fold p.1 (nodeIds t) st
  obtain ⟨hu2, hv2⟩ := dvInitAdjD_fold p.1 p.2 hnd ((nodeIds t).foldl (dvInitColD p.1) st)
  refine ⟨by rw [hu2, hu1], fun a b ha => ?_⟩
  obtain ⟨hd1, hn1⟩ := hv1 a b
  obtain ⟨hd2, hn2⟩ := hv2 a b
  constructor
  · rw [hd2, if_neg ha, hd1, if_neg (fun h => ha h.1)]
  · rw [hn2, if_neg (fun h => ha h.1), hn1, if_neg (fun h => ha h.1)]

theorem dvInitRow_self (t : Topo) (st : DVState) (p : Int × Adj)
    (hnd : (mkeys p.2).Nodup) :
    ∀ b ∈ nodeIds t,
      (dvInitRow t st p).dist p.1 b = (mfind p.2 b).getD (if p.1 = b then 0 else INF) ∧
      (dvInitRow t st p).next p.1 b =
        (if b ∈ mkeys p.2 then b else (if p.1 = b then p.1 else -1)) := by
  intro b hb
  unfold dvInitRow
  obtain ⟨hu1, hv1⟩ := dvInitColD_fold p.1 (nodeIds t) st
  obtain ⟨hu2, hv2⟩ := dvInitAdjD_fold p.1 p.2 hnd ((nodeIds t).foldl (dvInitColD p.1) st)
  obtain ⟨hd1, hn1⟩ := hv1 p.1 b
  obtain ⟨hd2, hn2⟩ := hv2 p.1 b
  constructor
  · rw [hd2, if_pos rfl, hd1, if_pos ⟨rfl, hb⟩]
  · rw [hn2, hn1]
    by_cases hbm : b ∈ mkeys p.2
    · rw [if_pos (⟨rfl, hbm⟩ : p.1 = p.1 ∧ b ∈ mkeys p.2), if_pos hbm]
    · rw [if_neg (fun h : p.1 = p.1 ∧ b ∈ mkeys p.2 => hbm h.2),
        if_pos (⟨rfl, hb⟩ : p.1 = p.1 ∧ b ∈ nodeIds t), if_neg hbm]

theorem dvRowFold_untouched (t : Topo) (l : List (Int × Adj))
    (hnd : ∀ p ∈ l, (mkeys p.2).Nodup) :
    ∀ st a b, a ∉ mkeys l →
      (l.foldl (dvInitRow t) st).dist a b = st.dist a b ∧
      (l.foldl (dvInitRow t) st).next a b = st.next a b := by
  induction l with
  | nil => intro st a b _; exact ⟨rfl, rfl⟩
  | cons p rest ih =>
    intro st a b ha
    have ha1 : a ≠ p.1 := by
      intro h
      exact ha (by rw [h]; exact List.mem_cons_self _ _)
    have ha2 : a ∉ mkeys rest := fun h => ha (List.mem_cons_of_mem _ h)
    have hstep := (dvInitRow_other t st p (hnd p (List.mem_cons_self _ _))).2 a b ha1
    obtain ⟨hd, hn⟩ := ih (fun q hq => hnd q (List.mem_cons_of_mem _ hq)) (dvInitRow t st p) a b ha2
    rw [List.foldl_cons]
    exact ⟨by rw [hd, hstep.1], by rw [hn, hstep.2]⟩

theorem dvRowFold_char (t : Topo) (l : List (Int × Adj))
    (hnd : (mkeys l).Nodup) (hadnd : ∀ p ∈ l, (mkeys p.2).Nodup) :
    ∀ st, ∀ p ∈ l, ∀ b ∈ nodeIds t,
      (l.foldl (dvInitRow t) st).dist p.1 b = (mfind p.2 b).getD (if p.1 = b then 0 else INF) ∧
      (l.foldl (dvInitRow t) st).next p.1 b =
        (if b ∈ mkeys p.2 then b else (if p.1 = b then p.1 else -1)) := by
  induction l with
  | nil => intro st p hp; simp at hp
  | cons q rest ih =>
    intro st p hp b hb
    have hcons : (q.1 :: mkeys rest).Nodup := hnd
    have hq1 : q.1 ∉ mkeys rest := (List.nodup_cons.mp hcons).1
    have hndr : (mkeys rest).Nodup := (List.nodup_cons.mp hcons).2
    rcases List.mem_cons.mp hp with h1 | h1
    · subst h1
      rw [List.foldl_cons]
      have hrow := dvInitRow_self t st p (hadnd p (List.mem_cons_self _ _)) b hb
      have hunt := dvRowFold_untouched t rest
        (fun r hr => hadnd r (List.mem_cons_of_mem _ hr)) (dvInitRow t st p) p.1 b hq1
      exact ⟨by rw [hunt.1, hrow.1], by rw [hunt.2, hrow.2]⟩
    · rw [List.foldl_cons]
      exact ih hndr (fun r hr => hadnd r (List.mem_cons_of_mem _ hr)) _ p h1 b hb

theorem dvInit_upd (t : Topo) : (dvInit t).upd = true := by
  unfold dvInit
  refine @foldl_inv DVState (Int × Adj) (fun st => st.upd = true) t (dvInitRow t)
    (fun s p _ hs => ?_) _ rfl
  unfold dvInitRow
  obtain ⟨hu1, _⟩ := dvInitColD_fold p.1 (nodeIds t) s
  have hu2 : ∀ (ad : Adj) (st : DVState), (ad.foldl (dvInitAdjD p.1) st).upd = st.upd := by
    intro ad
    induction ad with
    | nil => intro st; rfl
    | cons r rest ih2 => intro st; rw [List.foldl_cons, ih2]; rfl
  rw [hu2, hu1, hs]

theorem dvInit_char (t : Topo) (hwf : TopoWF t) :
    ∀ a ∈ nodeIds t, ∀ b ∈ nodeIds t,
      (dvInit t).dist a b = (mfind (adjOf t a) b).getD (if a = b then 0 else INF) ∧
      (dvInit t).next a b =
        (if b ∈ mkeys (adjOf t a) then b else (if a = b then a else -1)) := by
  intro a ha b hb
  obtain ⟨p, hp, hpa⟩ := List.mem_map.mp ha
  subst hpa
  have hadj : adjOf t p.1 = p.2 := adjOf_eq_of_mem (topoWF_keys_nodup hwf) hp
  rw [hadj]
  exact dvRowFold_char t t (topoWF_keys_nodup hwf)
    (fun q hq => topoWF_adj_nodup hwf hq) _ p hp b hb

/-! ## Claim C9 amended — self entries under positive costs, no self-loops -/

theorem dvRelax_selfInv {t : Topo} {st : DVState} (i j k : Int)
    (hi : i ∈ mkeys t) (hj : j ∈ mkeys t) (hij : j ≠ i)
    (hinv : DVSelfInv t st) : DVSelfInv t (dvRelax i j k st) := by
  obtain ⟨hdiag, hoff⟩ := hinv
  have hii : st.dist i i = 0 := (hdiag i hi).1
  have hjj : st.dist j j = 0 := (hdiag j hj).1
  have hij1 : 1 ≤ st.dist i j := hoff i j hi hj (fun h => hij h.symm)
  have halt : ∀ m ∈ mkeys t, m ≠ i → 1 ≤ st.dist i j + st.dist j m := by
    intro m hm hmi
    by_cases hjm : j = m
    · subst hjm
      rw [hjj]
      omega
    · have := hoff j m hj hm hjm
      omega
  have haltd : 1 ≤ st.dist i j + st.dist j i := by
    by_cases hji : j = i
    · exact absurd hji hij
    · have := hoff j i hj hi hji
      omega
  unfold dvRelax
  by_cases hc1 : st.dist i j + st.dist j k < st.dist i k
  · rw [if_pos hc1]
    by_cases hk : k = i
    · subst hk
      rw [hii] at hc1
      omega
    · refine ⟨fun a ha => ?_, fun a b ha hb hab => ?_⟩
      · have hne : ¬(a = i ∧ a = k) := fun h => hk (h.2 ▸ h.1 ▸ rfl)
        constructor
        · show set2 st.dist i k _ a a = 0
          unfold set2
          by_cases hai : a = i
          · rw [if_pos hai, if_neg (fun h => hne ⟨hai, h⟩)]
            exact (hdiag a ha).1
          · rw [if_neg hai]
            exact (hdiag a ha).1
        · show set2 st.next i k _ a a = a
          unfold set2
          by_cases hai : a = i
          · rw [if_pos hai, if_neg (fun h => hne ⟨hai, h⟩)]
            exact (hdiag a ha).2
          · rw [if_neg hai]
            exact (hdiag a ha).2
      · show 1 ≤ set2 st.dist i k _ a b
        unfold set2
        by_cases hai : a = i
        · by_cases hbk : b = k
          · rw [if_pos hai, if_pos hbk]
            subst hai
            subst hbk
            exact halt b hb (Ne.symm hab)
          · rw [if_pos hai, if_neg hbk]
            exact hoff a b ha hb hab
        · rw [if_neg hai]
          exact hoff a b ha hb hab
  · rw [if_neg hc1]
    by_cases hc2 : st.dist i j + st.dist j k = st.dist i k ∧ st.next i j ≠ -1 ∧
        st.next i j < st.next i k
    · rw [if_pos hc2]
      by_cases hk : k = i
      · subst hk
        rw [hii] at hc2
        have := hc2.1
        omega
      · refine ⟨fun a ha => ?_, fun a b ha hb hab => hoff a b ha hb hab⟩
        have hne : ¬(a = i ∧ a = k) := fun h => hk (h.2 ▸ h.1 ▸ rfl)
        refine ⟨(hdiag a ha).1, ?_⟩
        show set2 st.next i k _ a a = a
        unfold set2
        by_cases hai : a = i
        · rw [if_pos hai, if_neg (fun h => hne ⟨hai, h⟩)]
          exact (hdiag a ha).2
        · rw [if_neg hai]
          exact (hdiag a ha).2
    · rw [if_neg hc2]
      exact ⟨hdiag, hoff⟩

theorem adjOf_mem_topo {t : Topo} {u : Int} {q : Int × Int}
    (hq : q ∈ adjOf t u) : ∃ ad, (u, ad) ∈ t ∧ q ∈ ad := by
  unfold adjOf at hq
  cases hm : mfind t u with
  | none => rw [hm] at hq; simp at hq
  | some ad =>
    rw [hm] at hq
    exact ⟨ad, mfind_some_mem hm, hq⟩

theorem dvPass_selfInv {t : Topo} (hwf : TopoWF t) (hns : NoSelfLoops t)
    {st : DVState} (hinv : DVSelfInv t st) : DVSelfInv t (dvPass t st) := by
  unfold dvPass
  refine @foldl_inv DVState (Int × Adj) (DVSelfInv t) t _ (fun s p hp hs => ?_) _ ?_
  · unfold dvLoopJ
    refine @foldl_inv DVState (Int × Int) (DVSelfInv t) p.2 _ (fun s2 q hq hs2 => ?_) _ hs
    have hj : q.1 ∈ mkeys t := (hwf.2 p hp).2 q hq
    have hji : q.1 ≠ p.1 := hns p hp q hq
    by_cases hskip : s2.dist p.1 q.1 = INF
    · rw [if_pos hskip]
      exact hs2
    · rw [if_neg hskip]
      unfold dvLoopK
      refine @foldl_inv DVState Int (DVSelfInv t) (nodeIds t) _ (fun s3 k _ hs3 => ?_) _ hs2
      exact dvRelax_selfInv p.1 q.1 k (List.mem_map_of_mem Prod.fst hp) hj hji hs3
  · exact ⟨hinv.1, hinv.2⟩

theorem dvIter_selfInv {t : Topo} (hwf : TopoWF t) (hns : NoSelfLoops t) :
    ∀ (n : Nat) (st : DVState), DVSelfInv t st → DVSelfInv t (dvIter t n st) := by
  intro n
  induction n with
  | zero => intro st h; exact h
  | succ n ih =>
    intro st h
    unfold dvIter
    by_cases hu : st.upd
    · rw [if_pos hu]
      exact ih _ (dvPass_selfInv hwf hns h)
    · rw [if_neg hu]
      exact h

theorem dvInit_selfInv {t : Topo} (hwf : TopoWF t) (hpos : PosCosts t)
    (hns : NoSelfLoops t) : DVSelfInv t (dvInit t) := by
  constructor
  · intro a ha
    obtain ⟨hd, hn⟩ := dvInit_char t hwf a ha a ha
    have hnomem : a ∉ mkeys (adjOf t a) := by
      intro hmem
      obtain ⟨q, hq, hqa⟩ := List.mem_map.mp hmem
      obtain ⟨ad, had, hqad⟩ := adjOf_mem_topo hq
      exact hns (a, ad) had q hqad hqa
    have hnone : mfind (adjOf t a) a = none := mfind_eq_none_of_not_mem hnomem
    rw [hd, hn, hnone, if_neg hnomem, if_pos rfl, if_pos rfl]
    exact ⟨rfl, rfl⟩
  · intro a b ha hb hab
    obtain ⟨hd, _⟩ := dvInit_char t hwf a ha b hb
    rw [hd]
    cases hm : mfind (adjOf t a) b with
    | none =>
      rw [if_neg hab]
      decide
    | some c =>
      obtain ⟨ad, had, hcad⟩ := adjOf_mem_topo (mfind_some_mem hm)
      simpa using hpos (a, ad) had (b, c) hcad

theorem adjOf_cost_pos {t : Topo} (hpos : PosCosts t) {u : Int} {q : Int × Int}
    (hq : q ∈ adjOf t u) : 1 ≤ q.2 := by
  obtain ⟨ad, had, hqad⟩ := adjOf_mem_topo hq
  exact hpos (u, ad) had q hqad

theorem lsInit_selfInv (s : Int) : LSSelfInv s (lsInit s) := by
  refine ⟨fun v => ?_, by simp [lsInit], by simp [lsInit]⟩
  show (0 : Int) ≤ (if v = s then 0 else INF)
  by_cases hv : v = s
  · rw [if_pos hv]
  · rw [if_neg hv]
    decide

/-! ## Arithmetic of the wrapped 32-bit addition -/

theorem wrap32_range (x : Int) :
    -2147483648 ≤ wrap32 x ∧ wrap32 x < 2147483648 := by
  unfold wrap32
  omega

theorem wrap32_eq_self {x : Int} (h1 : -2147483648 ≤ x) (h2 : x ≤ 2147483647) :
    wrap32 x = x := by
  unfold wrap32
  omega

theorem wrap32_le {x : Int} (h1 : -2147483648 ≤ x) : wrap32 x ≤ x := by
  unfold wrap32
  omega

/-! ## Claim C10 — termination of the link-state loop -/

theorem countP_mono_aux (l : List Int) (f g : Int → Bool)
    (h : ∀ a, f a = true → g a = true) : l.countP f ≤ l.countP g := by
  induction l with
  | nil => exact Nat.le_refl _
  | cons a rest ih =>
    rw [List.countP_cons, List.countP_cons]
    by_cases hf : f a = true
    · simp only [hf, h a hf, if_true]
      omega
    · have hf2 : f a = false := by
        cases hfa : f a
        · rfl
        · exact absurd hfa hf
      simp only [hf2]
      cases hg : g a <;> simp <;> omega
  
theorem countP_lt_of_mem (l : List Int) (u p : Int) (hup : u < p) (hp : p ∈ l) :
    l.countP (fun y => decide (y ≤ u)) < l.countP (fun y => decide (y ≤ p)) := by
  induction l with
  | nil => simp at hp
  | cons a rest ih =>
    rw [List.countP_cons, List.countP_cons]
    have hmono : rest.countP (fun y => decide (y ≤ u)) ≤
        rest.countP (fun y => decide (y ≤ p)) := by
      refine countP_mono_aux rest _ _ (fun b hb => ?_)
      simp only [decide_eq_true_eq] at hb ⊢
      omega
    rcases List.mem_cons.mp hp with h1 | h1
    · have h2 : (decide (a ≤ u)) = false := by
        simp only [decide_eq_false_iff_not]
        omega
      have h3 : (decide (a ≤ p)) = true := by
        simp only [decide_eq_true_eq]
        omega
      simp only [h2, h3, if_true]
      simp
      omega
    · have hstrict := ih h1
      by_cases hau : (a ≤ u)
      · have h2 : (decide (a ≤ u)) = true := by simpa
        have h3 : (decide (a ≤ p)) = true := by
          simp only [decide_eq_true_eq]
          omega
        simp only [h2, h3, if_true]
        omega
      · have h2 : (decide (a ≤ u)) = false := by
          simp only [decide_eq_false_iff_not]
          exact hau
        simp only [h2]
        cases h3 : (decide (a ≤ p)) <;> simp <;> omega
  
theorem lsRank_le (t : Topo) (x : Int) : lsRank t x ≤ (mkeys t).length + 1 := by
  have := List.countP_le_length (l := 0 :: mkeys t) (p := fun y => decide (y ≤ x))
  simpa [lsRank] using this

theorem lsRank_lt (t : Topo) {u p : Int} (hup : u < p) (hp : p ∈ (0 :: mkeys t)) :
    lsRank t u < lsRank t p :=
  countP_lt_of_mem _ u p hup hp

theorem sum_map_le_len_mul (l : List Int) (f : Int → Nat) (B : Nat)
    (h : ∀ a ∈ l, f a ≤ B) : (l.map f).sum ≤ l.length * B := by
  induction l with
  | nil => simp
  | cons a rest ih =>
    rw [List.map_cons, List.sum_cons, List.length_cons]
    have h1 := h a (List.mem_cons_self _ _)
    have h2 := ih (fun a ha => h a (List.mem_cons_of_mem _ ha))
    have : (rest.length + 1) * B = rest.length * B + B := by ring
    omega

theorem sum_map_le_sum_map (l : List Int) (f g : Int → Nat)
    (hle : ∀ a ∈ l, g a ≤ f a) : (l.map g).sum ≤ (l.map f).sum := by
  induction l with
  | nil => simp
  | cons a rest ih =>
    rw [List.map_cons, List.map_cons, List.sum_cons, List.sum_cons]
    have h1 := hle a (List.mem_cons_self _ _)
    have h2 := ih (fun a ha => hle a (List.mem_cons_of_mem _ ha))
    omega

theorem sum_map_lt_sum_map (l : List Int) (f g : Int → Nat)
    (hle : ∀ a ∈ l, g a ≤ f a) {v : Int} (hv : v ∈ l) (hlt : g v < f v) :
    (l.map g).sum < (l.map f).sum := by
  induction l with
  | nil => simp at hv
  | cons a rest ih =>
    rw [List.map_cons, List.map_cons, List.sum_cons, List.sum_cons]
    have h2 := sum_map_le_sum_map rest f g (fun a ha => hle a (List.mem_cons_of_mem _ ha))
    rcases List.mem_cons.mp hv with h1 | h1
    · subst h1
      omega
    · have h3 := ih (fun a ha => hle a (List.mem_cons_of_mem _ ha)) h1
      have h4 := hle a (List.mem_cons_self _ _)
      omega

theorem pqErase_sublist (x : Int × Int) (l : List (Int × Int)) :
    (pqErase x l).Sublist l := by
  induction l with
  | nil => simp [pqErase]
  | cons y ys ih =>
    unfold pqErase
    by_cases hxy : x = y
    · rw [if_pos hxy]
      exact List.sublist_cons_of_sublist y (List.Sublist.refl ys)
    · rw [if_neg hxy]
      exact List.Sublist.cons₂ y ih

theorem pqErase_mem {x p : Int × Int} {l : List (Int × Int)}
    (h : p ∈ pqErase x l) : p ∈ l :=
  (pqErase_sublist x l).mem h

theorem pqInsert_mem {x p : Int × Int} {l : List (Int × Int)}
    (h : p ∈ pqInsert x l) : p = x ∨ p ∈ l := by
  induction l with
  | nil => simpa [pqInsert] using h
  | cons y ys ih =>
    unfold pqInsert at h
    by_cases h1 : pairLt x y
    · rw [if_pos h1] at h
      rcases List.mem_cons.mp h with h2 | h2
      · exact Or.inl h2
      · exact Or.inr h2
    · rw [if_neg h1] at h
      by_cases h2 : x = y
      · rw [if_pos h2] at h
        exact Or.inr h
      · rw [if_neg h2] at h
        rcases List.mem_cons.mp h with h3 | h3
        · exact Or.inr (by rw [h3]; exact List.mem_cons_self _ _)
        · rcases ih h3 with h4 | h4
          · exact Or.inl h4
          · exact Or.inr (List.mem_cons_of_mem _ h4)

theorem pqInsert_length (x : Int × Int) (l : List (Int × Int)) :
    (pqInsert x l).length ≤ l.length + 1 := by
  induction l with
  | nil => simp [pqInsert]
  | cons y ys ih =>
    unfold pqInsert
    by_cases h1 : pairLt x y
    · rw [if_pos h1]
      simp
    · rw [if_neg h1]
      by_cases h2 : x = y
      · rw [if_pos h2]
        simp
      · rw [if_neg h2]
        simpa using ih

theorem pqInsert_snd_nodup {x : Int × Int} {l : List (Int × Int)}
    (hx : x.2 ∉ l.map Prod.snd) (hnd : (l.map Prod.snd).Nodup) :
    ((pqInsert x l).map Prod.snd).Nodup := by
  induction l with
  | nil => simp [pqInsert]
  | cons y ys ih =>
    have hxy2 : x.2 ≠ y.2 := by
      intro h
      exact hx (by rw [h]; exact List.mem_cons_self _ _)
    have hx2 : x.2 ∉ ys.map Prod.snd := fun h => hx (List.mem_cons_of_mem _ h)
    have hy2 : y.2 ∉ ys.map Prod.snd := ((List.nodup_cons).mp hnd).1
    have hnd2 : (ys.map Prod.snd).Nodup := ((List.nodup_cons).mp hnd).2
    unfold pqInsert
    by_cases h1 : pairLt x y
    · rw [if_pos h1]
      refine List.nodup_cons.mpr ⟨?_, hnd⟩
      intro h
      rcases List.mem_cons.mp h with h2 | h2
      · exact hxy2 h2
      · exact hx2 h2
    · rw [if_neg h1]
      by_cases h2 : x = y
      · rw [if_pos h2]
        exact hnd
      · rw [if_neg h2]
        rw [List.map_cons]
        refine List.nodup_cons.mpr ⟨?_, ih hx2 hnd2⟩
        intro h
        rcases List.mem_map.mp h with ⟨p, hp, hps⟩
        rcases pqInsert_mem hp with h3 | h3
        · exact hxy2 (by rw [← hps, h3])
        · exact hy2 (by rw [← hps]; exact List.mem_map_of_mem Prod.snd h3)

theorem snd_notMem_pqErase {l : List (Int × Int)} {dv v : Int}
    (hval : ∀ p ∈ l, p.2 = v → p.1 = dv) (hnd : (l.map Prod.snd).Nodup) :
    v ∉ (pqErase (dv, v) l).map Prod.snd := by
  induction l with
  | nil => simp [pqErase]
  | cons y ys ih =>
    have hy2 : y.2 ∉ ys.map Prod.snd := ((List.nodup_cons).mp hnd).1
    have hnd2 : (ys.map Prod.snd).Nodup := ((List.nodup_cons).mp hnd).2
    unfold pqErase
    by_cases hxy : (dv, v) = y
    · rw [if_pos hxy]
      rw [← hxy] at hy2
      exact hy2
    · rw [if_neg hxy]
      have hyv : y.2 ≠ v := by
        intro h
        have := hval y (List.mem_cons_self _ _) h
        exact hxy (by rw [← this, ← h])
      rw [List.map_cons]
      intro h
      rcases List.mem_cons.mp h with h2 | h2
      · exact hyv h2.symm
      · exact ih (fun p hp hpv => hval p (List.mem_cons_of_mem _ hp) hpv) hnd2 h2

theorem nodup_subset_length {l l2 : List Int} (hnd : l.Nodup)
    (hsub : ∀ x ∈ l, x ∈ l2) : l.length ≤ l2.length := by
  classical
  calc l.length = l.toFinset.card := (List.toFinset_card_of_nodup hnd).symm
    _ ≤ l2.toFinset.card := Finset.card_le_card
        (fun x hx => List.mem_toFinset.mpr (hsub x (List.mem_toFinset.mp hx)))
    _ ≤ l2.length := l2.toFinset_card_le

theorem lsRunInv_pq_len {t : Topo} {st : LSState} (hinv : LSRunInv t st) :
    st.pq.length ≤ (mkeys t).length := by
  have h1 : (st.pq.map Prod.snd).length = st.pq.length := List.length_map _ _
  rw [← h1]
  refine nodup_subset_length hinv.2.2.1 (fun x hx => ?_)
  obtain ⟨p, hp, hps⟩ := List.mem_map.mp hx
  rw [← hps]
  exact (hinv.2.1 p hp).2

theorem lsPhiNode_eq {t : Topo} {st1 st2 : LSState} (v : Int)
    (hd : st1.dist v = st2.dist v) (hp : st1.prev v = st2.prev v) :
    lsPhiNode t st1 v = lsPhiNode t st2 v := by
  unfold lsPhiNode
  rw [hd, hp]

theorem lsRelaxEdge_dichotomy {t : Topo} (hwf : TopoWF t) (hnn : NonnegCosts t)
    {s u : Int} {st : LSState} {q : Int × Int}
    (hq : q ∈ adjOf t u) (hinv : LSRunInv t st) :
    LSRunInv t (lsRelaxEdge s u st q) ∧
    (lsRelaxEdge s u st q = st ∨ lsPhi t (lsRelaxEdge s u st q) < lsPhi t st) := by
  obtain ⟨hrange, hent, hnd, hprev⟩ := hinv
  obtain ⟨ad, had, hqad⟩ := adjOf_mem_topo hq
  have hu : u ∈ mkeys t := List.mem_map_of_mem Prod.fst had
  have hv : q.1 ∈ mkeys t := (hwf.2 (u, ad) had).2 q hqad
  have halt : -2147483648 ≤ wrap32 (st.dist u + q.2) ∧
      wrap32 (st.dist u + q.2) < 2147483648 := wrap32_range _
  unfold lsRelaxEdge
  by_cases hg : wrap32 (st.dist u + q.2) < st.dist q.1 ∨
      (wrap32 (st.dist u + q.2) = st.dist q.1 ∧ u < st.prev q.1)
  · rw [if_pos hg]
    set alt := wrap32 (st.dist u + q.2) with halt_def
    set st2 : LSState :=
      { dist := set1 st.dist q.1 alt,
        next := set1o st.next q.1 (if u = s then q.1 else (st.next u).getD 0),
        prev := set1 st.prev q.1 u,
        pq := pqInsert (alt, q.1) (pqErase (st.dist q.1, q.1) st.pq) } with hst2
    have hdist_at : st2.dist q.1 = alt := by
      show set1 st.dist q.1 alt q.1 = alt
      unfold set1
      rw [if_pos rfl]
    have hdist_other : ∀ v, v ≠ q.1 → st2.dist v = st.dist v := by
      intro v hvv
      show set1 st.dist q.1 alt v = st.dist v
      unfold set1
      rw [if_neg hvv]
    have hprev_at : st2.prev q.1 = u := by
      show set1 st.prev q.1 u q.1 = u
      unfold set1
      rw [if_pos rfl]
    have hprev_other : ∀ v, v ≠ q.1 → st2.prev v = st.prev v := by
      intro v hvv
      show set1 st.prev q.1 u v = st.prev v
      unfold set1
      rw [if_neg hvv]
    have hvalq : ∀ p ∈ st.pq, p.2 = q.1 → p.1 = st.dist q.1 := by
      intro p hp hpq
      rw [(hent p hp).1, hpq]
    have hnotmem : q.1 ∉ (pqErase (st.dist q.1, q.1) st.pq).map Prod.snd :=
      snd_notMem_pqErase hvalq hnd
    have hnd_erase : ((pqErase (st.dist q.1, q.1) st.pq).map Prod.snd).Nodup :=
      (hnd.sublist ((pqErase_sublist _ _).map Prod.snd))
    constructor
    · refine ⟨?_, ?_, ?_, ?_⟩
      · intro v
        by_cases hvv : v = q.1
        · rw [hvv, hdist_at]
          exact halt
        · rw [hdist_other v hvv]
          exact hrange v
      · intro p hp
        rcases pqInsert_mem hp with h1 | h1
        · rw [h1]
          exact ⟨hdist_at.symm, hv⟩
        · have hpq := pqErase_mem h1
          have hps : p.2 ≠ q.1 := by
            intro h
            have hmm : p.2 ∈ (pqErase (st.dist q.1, q.1) st.pq).map Prod.snd :=
              List.mem_map_of_mem Prod.snd h1
            rw [h] at hmm
            exact hnotmem hmm
          rw [hdist_other p.2 hps]
          exact hent p hpq
      · exact pqInsert_snd_nodup hnotmem hnd_erase
      · intro v
        by_cases hvv : v = q.1
        · rw [hvv, hprev_at]
          exact List.mem_cons_of_mem _ hu
        · rw [hprev_other v hvv]
          exact hprev v
    · right
      have hstrict : lsPhiNode t st2 q.1 < lsPhiNode t st q.1 := by
        unfold lsPhiNode
        rw [hdist_at, hprev_at]
        have hranku : lsRank t u ≤ (mkeys t).length + 1 := lsRank_le t u
        rcases hg with h1 | h1
        · have htn : (alt + 2147483648).toNat < (st.dist q.1 + 2147483648).toNat := by
            omega
          have hmul : ((alt + 2147483648).toNat + 1) * ((mkeys t).length + 2) =
              (alt + 2147483648).toNat * ((mkeys t).length + 2) +
                ((mkeys t).length + 2) := by
            ring
          have hstep : (alt + 2147483648).toNat * ((mkeys t).length + 2) +
                ((mkeys t).length + 2) ≤
              (st.dist q.1 + 2147483648).toNat * ((mkeys t).length + 2) := by
            rw [← hmul]
            exact Nat.mul_le_mul_right _ (Nat.succ_le_of_lt htn)
          omega
        · rw [← h1.1]
          have hrlt : lsRank t u < lsRank t (st.prev q.1) :=
            lsRank_lt t h1.2 (hprev q.1)
          omega
      have hle : ∀ v ∈ mkeys t, lsPhiNode t st2 v ≤ lsPhiNode t st v := by
        intro v hvm
        by_cases hvv : v = q.1
        · rw [hvv]
          exact Nat.le_of_lt hstrict
        · exact Nat.le_of_eq (lsPhiNode_eq v (hdist_other v hvv) (hprev_other v hvv))
      exact sum_map_lt_sum_map _ _ _ hle hv hstrict
  · rw [if_neg hg]
    exact ⟨⟨hrange, hent, hnd, hprev⟩, Or.inl rfl⟩

theorem lsRelaxFold_dichotomy {t : Topo} (hwf : TopoWF t) (hnn : NonnegCosts t)
    (s u : Int) (l : List (Int × Int)) (hl : ∀ q ∈ l, q ∈ adjOf t u) :
    ∀ st, LSRunInv t st →
      LSRunInv t (l.foldl (lsRelaxEdge s u) st) ∧
      (l.foldl (lsRelaxEdge s u) st = st ∨
        lsPhi t (l.foldl (lsRelaxEdge s u) st) < lsPhi t st) := by
  induction l with
  | nil => intro st h; exact ⟨h, Or.inl rfl⟩
  | cons q rest ih =>
    intro st h
    have hq := hl q (List.mem_cons_self _ _)
    obtain ⟨h1, h2⟩ := lsRelaxEdge_dichotomy hwf hnn hq h
    obtain ⟨h3, h4⟩ := ih (fun r hr => hl r (List.mem_cons_of_mem _ hr)) _ h1
    rw [List.foldl_cons]
    refine ⟨h3, ?_⟩
    rcases h2 with h2 | h2
    · rw [h2] at h3 h4 ⊢
      exact h4
    · rcases h4 with h4 | h4
      · rw [h4]
        exact Or.inr h2
      · exact Or.inr (lt_trans h4 h2)

theorem lsStep_measure {t : Topo} (hwf : TopoWF t) (hnn : NonnegCosts t)
    (s : Int) {st : LSState} (hinv : LSRunInv t st) (hne : st.pq ≠ []) :
    LSRunInv t (lsStep t s st) ∧ lsMeasure t (lsStep t s st) < lsMeasure t st := by
  unfold lsStep
  cases hpq : st.pq with
  | nil => exact absurd hpq hne
  | cons d rest =>
    dsimp only
    have hinv0 : LSRunInv t { st with pq := rest } := by
      refine ⟨hinv.1, fun p hp => ?_, ?_, hinv.2.2.2⟩
      · exact hinv.2.1 p (by rw [hpq]; exact List.mem_cons_of_mem _ hp)
      · have := hinv.2.2.1
        rw [hpq] at this
        exact (List.nodup_cons.mp this).2
    obtain ⟨hres, hdich⟩ := lsRelaxFold_dichotomy hwf hnn s d.2 (adjOf t d.2)
      (fun q hq => hq) _ hinv0
    have hphi0 : lsPhi t { st with pq := rest } = lsPhi t st := rfl
    have hlen : st.pq.length = rest.length + 1 := by rw [hpq]; rfl
    refine ⟨hres, ?_⟩
    rcases hdich with hcase | hcase
    · rw [hcase]
      unfold lsMeasure
      rw [hphi0]
      simp only []
      omega
    · rw [hphi0] at hcase
      have hlenr := lsRunInv_pq_len hres
      unfold lsMeasure
      have hmul : (lsPhi t ((adjOf t d.2).foldl (lsRelaxEdge s d.2) { st with pq := rest }) + 1) *
          ((mkeys t).length + 1) ≤ lsPhi t st * ((mkeys t).length + 1) :=
        Nat.mul_le_mul_right _ (Nat.succ_le_of_lt hcase)
      have hmul2 : (lsPhi t ((adjOf t d.2).foldl (lsRelaxEdge s d.2) { st with pq := rest }) + 1) *
          ((mkeys t).length + 1) =
          lsPhi t ((adjOf t d.2).foldl (lsRelaxEdge s d.2) { st with pq := rest }) *
            ((mkeys t).length + 1) + ((mkeys t).length + 1) := by
        ring
      omega

theorem lsLoop_drains {t : Topo} (hwf : TopoWF t) (hnn : NonnegCosts t) (s : Int) :
    ∀ (n : Nat) (st : LSState), LSRunInv t st → lsMeasure t st < n →
      (lsLoop t s n st).pq = [] := by
  intro n
  induction n with
  | zero => intro st _ h; omega
  | succ n ih =>
    intro st hinv hm
    unfold lsLoop
    cases hpq : st.pq with
    | nil => exact hpq
    | cons d rest =>
      dsimp only
      obtain ⟨hinv2, hm2⟩ := lsStep_measure hwf hnn s hinv (by rw [hpq]; simp)
      exact ih _ hinv2 (by omega)

theorem lsInit_runInv (t : Topo) (s : Int) (hs : s ∈ mkeys t) :
    LSRunInv t (lsInit s) := by
  refine ⟨fun v => ?_, fun p hp => ?_, ?_, fun v => ?_⟩
  · show -2147483648 ≤ (if v = s then (0 : Int) else INF) ∧
      (if v = s then (0 : Int) else INF) < 2147483648
    by_cases hv : v = s
    · rw [if_pos hv]
      exact ⟨by decide, by decide⟩
    · rw [if_neg hv]
      exact ⟨by decide, by decide⟩
  · have : p = (0, s) := by simpa [lsInit] using hp
    rw [this]
    exact ⟨by simp [lsInit], hs⟩
  · simp [lsInit]
  · show (if v = s then s else 0) ∈ 0 :: mkeys t
    by_cases hv : v = s
    · rw [if_pos hv]
      exact List.mem_cons_of_mem _ hs
    · rw [if_neg hv]
      exact List.mem_cons_self _ _

theorem lsMeasure_init_lt (t : Topo) (s : Int) : lsMeasure t (lsInit s) < lsFuel t := by
  have hB : ∀ v ∈ mkeys t, lsPhiNode t (lsInit s) v ≤
      4294967295 * ((mkeys t).length + 2) + ((mkeys t).length + 1) := by
    intro v _
    unfold lsPhiNode
    have h1 : ((lsInit s).dist v + 2147483648).toNat ≤ 4294967295 := by
      show ((if v = s then (0 : Int) else INF) + 2147483648).toNat ≤ 4294967295
      by_cases hv : v = s
      · rw [if_pos hv]
        decide
      · rw [if_neg hv]
        decide
    have h2 : lsRank t ((lsInit s).prev v) ≤ (mkeys t).length + 1 := lsRank_le t _
    have h3 : ((lsInit s).dist v + 2147483648).toNat * ((mkeys t).length + 2) ≤
        4294967295 * ((mkeys t).length + 2) := Nat.mul_le_mul_right _ h1
    omega
  have hphi : lsPhi t (lsInit s) ≤
      (mkeys t).length * (4294967295 * ((mkeys t).length + 2) + ((mkeys t).length + 1)) :=
    sum_map_le_len_mul _ _ _ hB
  unfold lsMeasure lsFuel
  set L := (mkeys t).length with hL
  have hlen : (lsInit s).pq.length = 1 := rfl
  set P := lsPhi t (lsInit s) with hP
  set B1 := 4294967295 * (L + 2) + (L + 1) with hB1
  set B2 := 4294967296 * (L + 2) + L + 2 with hB2
  have hBle : B1 + 1 ≤ B2 := by
    rw [hB1, hB2]
    have : (4294967296 : Nat) * (L + 2) = 4294967295 * (L + 2) + (L + 2) := by ring
    omega
  have hcalc : P * (L + 1) + 1 ≤ L * B1 * (L + 1) + 1 :=
    Nat.add_le_add_right (Nat.mul_le_mul_right _ hphi) 1
  have hcalc2 : L * B1 * (L + 1) ≤ L * B2 * (L + 2) := by
    refine Nat.mul_le_mul ?_ (by omega)
    exact Nat.mul_le_mul_left _ (by omega)
  have hfinal : L * B2 * (L + 2) = (L + 2) * (L * B2) := by ring
  show P * (L + 1) + (lsInit s).pq.length < (L + 2) * (L * B2) + L + 2
  rw [hlen]
  omega

/-- **C10.**  With non-negative edge costs the link-state main loop always
    drains its priority structure — the fuelled run `lsSolve` reaches the
    empty queue — and every state-changing relaxation stores a
    lexicographically smaller `(cost, predecessor)` pair for the updated
    node (the update guard is exactly `alt < dist[v]` or
    `alt = dist[v] ∧ u < prevHop[v]`). -/
theorem c10_ls_loop_terminates (t : Topo) (s : Int) (hwf : TopoWF t)
    (hnn : NonnegCosts t) (hs : s ∈ nodeIds t) :
    (lsSolve t s).pq = [] ∧
    ∀ (u : Int) (st : LSState) (q : Int × Int),
      lsRelaxEdge s u st q ≠ st →
      pairLt ((lsRelaxEdge s u st q).dist q.1, (lsRelaxEdge s u st q).prev q.1)
        (st.dist q.1, st.prev q.1) := by
  constructor
  · exact lsLoop_drains hwf hnn s _ _ (lsInit_runInv t s hs) (lsMeasure_init_lt t s)
  · intro u st q hne
    unfold lsRelaxEdge at hne ⊢
    by_cases hg : wrap32 (st.dist u + q.2) < st.dist q.1 ∨
        (wrap32 (st.dist u + q.2) = st.dist q.1 ∧ u < st.prev q.1)
    · rw [if_pos hg]
      have hd : set1 st.dist q.1 (wrap32 (st.dist u + q.2)) q.1 =
          wrap32 (st.dist u + q.2) := by
        unfold set1
        rw [if_pos rfl]
      have hp : set1 st.prev q.1 u q.1 = u := by
        unfold set1
        rw [if_pos rfl]
      show pairLt (set1 st.dist q.1 (wrap32 (st.dist u + q.2)) q.1, set1 st.prev q.1 u q.1)
        (st.dist q.1, st.prev q.1)
      rw [hd, hp]
      rcases hg with h1 | h1
      · exact Or.inl h1
      · exact Or.inr ⟨h1.1, h1.2⟩
    · rw [if_neg hg] at hne
      exact absurd rfl hne

/-- Witness for `c10_ls_loop_terminates`: the scenario topology, source 1. -/
theorem c10_witness :
    (TopoWF topoA ∧ NonnegCosts topoA ∧ (1 : Int) ∈ nodeIds topoA) ∧
    (lsSolve topoA 1).pq = [] :=
  ⟨⟨by decide, by decide, by decide⟩,
    (c10_ls_loop_terminates topoA 1 (by decide) (by decide) (by decide)).1⟩

/-! ## Chain lemmas -/

theorem adjCost_mem_topo {t : Topo} {a b c : Int} (h : adjCost t a b = some c) :
    ∃ ad, (a, ad) ∈ t ∧ (b, c) ∈ ad := by
  unfold adjCost at h
  obtain ⟨ad, had, hmem⟩ := adjOf_mem_topo (mfind_some_mem h)
  exact ⟨ad, had, hmem⟩

theorem adjCost_nonneg {t : Topo} (hnn : NonnegCosts t) {a b c : Int}
    (h : adjCost t a b = some c) : 0 ≤ c := by
  obtain ⟨ad, had, hmem⟩ := adjCost_mem_topo h
  exact hnn (a, ad) had (b, c) hmem

theorem adjCost_target_mem {t : Topo} (hwf : TopoWF t) {a b c : Int}
    (h : adjCost t a b = some c) : b ∈ mkeys t := by
  obtain ⟨ad, had, hmem⟩ := adjCost_mem_topo h
  exact (hwf.2 (a, ad) had).2 (b, c) hmem

theorem chainCost_nonneg {t : Topo} (hnn : NonnegCosts t) :
    ∀ (l : List Int) (a : Int) (c : Int), chainCost t a l = some c → 0 ≤ c := by
  intro l
  induction l with
  | nil =>
    intro a c h
    unfold chainCost at h
    injection h with h2
    omega
  | cons b rest ih =>
    intro a c h
    unfold chainCost at h
    cases h1 : adjCost t a b with
    | none => rw [h1] at h; simp at h
    | some c1 =>
      cases h2 : chainCost t b rest with
      | none => rw [h1, h2] at h; simp at h
      | some c2 =>
        rw [h1, h2] at h
        injection h with h3
        have := adjCost_nonneg hnn h1
        have := ih b c2 h2
        omega

theorem chainLast_cons (a b : Int) (l : List Int) :
    chainLast a (b :: l) = chainLast b l := by
  unfold chainLast
  exact List.getLastD_cons a b l

theorem chain_append {t : Topo} :
    ∀ (l1 : List Int) (a : Int) (c1 : Int), chainCost t a l1 = some c1 →
      ∀ (l2 : List Int) (c2 : Int), chainCost t (chainLast a l1) l2 = some c2 →
      chainCost t a (l1 ++ l2) = some (c1 + c2) ∧
      chainLast a (l1 ++ l2) = chainLast (chainLast a l1) l2 := by
  intro l1
  induction l1 with
  | nil =>
    intro a c1 h1 l2 c2 h2
    unfold chainCost at h1
    injection h1 with h1
    have hl : chainLast a ([] : List Int) = a := rfl
    rw [hl] at h2
    constructor
    · show chainCost t a l2 = some (c1 + c2)
      rw [h2, ← h1]
      norm_num
    · rfl
  | cons b rest ih =>
    intro a c1 h1 l2 c2 h2
    unfold chainCost at h1
    cases he : adjCost t a b with
    | none => rw [he] at h1; simp at h1
    | some ce =>
      cases hr : chainCost t b rest with
      | none => rw [he, hr] at h1; simp at h1
      | some cr =>
        rw [he, hr] at h1
        injection h1 with h1
        rw [chainLast_cons] at h2
        obtain ⟨ha, hb⟩ := ih b cr hr l2 c2 h2
        constructor
        · show chainCost t a ((b :: rest) ++ l2) = some (c1 + c2)
          rw [List.cons_append]
          unfold chainCost
          rw [he, ha, ← h1]
          ring
        · rw [List.cons_append, chainLast_cons, chainLast_cons, hb]

theorem chain_subset_keys {t : Topo} (hwf : TopoWF t) :
    ∀ (l : List Int) (a : Int) (c : Int), chainCost t a l = some c →
      ∀ x ∈ l, x ∈ mkeys t := by
  intro l
  induction l with
  | nil => intro a c _ x hx; simp at hx
  | cons b rest ih =>
    intro a c h x hx
    unfold chainCost at h
    cases he : adjCost t a b with
    | none => rw [he] at h; simp at h
    | some ce =>
      cases hr : chainCost t b rest with
      | none => rw [he, hr] at h; simp at h
      | some cr =>
        rcases List.mem_cons.mp hx with h1 | h1
        · rw [h1]
          exact adjCost_target_mem hwf he
        · exact ih b cr hr x h1

theorem chain_drop_prefix {t : Topo} (hnn : NonnegCosts t) :
    ∀ (l1 : List Int) (a x : Int) (l2 : List Int) (c : Int),
      chainCost t a (l1 ++ x :: l2) = some c →
      ∃ c2, chainCost t x l2 = some c2 ∧ c2 ≤ c ∧
        chainLast a (l1 ++ x :: l2) = chainLast x l2 := by
  intro l1
  induction l1 with
  | nil =>
    intro a x l2 c h
    rw [List.nil_append] at h
    unfold chainCost at h
    cases he : adjCost t a x with
    | none => rw [he] at h; simp at h
    | some ce =>
      cases hr : chainCost t x l2 with
      | none => rw [he, hr] at h; simp at h
      | some cr =>
        rw [he, hr] at h
        injection h with h1
        have hce := adjCost_nonneg hnn he
        exact ⟨cr, rfl, by omega, by rw [List.nil_append, chainLast_cons]⟩
  | cons b rest ih =>
    intro a x l2 c h
    rw [List.cons_append] at h
    unfold chainCost at h
    cases he : adjCost t a b with
    | none => rw [he] at h; simp at h
    | some ce =>
      cases hr : chainCost t b (rest ++ x :: l2) with
      | none => rw [he, hr] at h; simp at h
      | some cr =>
        rw [he, hr] at h
        injection h with h1
        obtain ⟨c2, hc2, hle, hlast⟩ := ih b x l2 cr hr
        have hce := adjCost_nonneg hnn he
        refine ⟨c2, hc2, by omega, ?_⟩
        rw [List.cons_append, chainLast_cons, hlast]

theorem chain_simplify {t : Topo} (hwf : TopoWF t) (hnn : NonnegCosts t) :
    ∀ (n : Nat) (l : List Int) (a c : Int), l.length ≤ n →
      chainCost t a l = some c →
      ∃ l2 c2, chainCost t a l2 = some c2 ∧ chainLast a l2 = chainLast a l ∧
        c2 ≤ c ∧ (a :: l2).Nodup ∧ l2 ⊆ l := by
  intro n
  induction n with
  | zero =>
    intro l a c hlen h
    have hl : l = [] := List.length_eq_zero.mp (Nat.le_zero.mp hlen)
    subst hl
    exact ⟨[], c, h, rfl, le_refl c, List.nodup_singleton a, List.Subset.refl []⟩
  | succ n ih =>
    intro l a c hlen h
    cases l with
    | nil =>
      exact ⟨[], c, h, rfl, le_refl c, List.nodup_singleton a, List.Subset.refl []⟩
    | cons b rest =>
      by_cases hmem : a ∈ b :: rest
      · obtain ⟨l1, l2, hsplit⟩ := List.append_of_mem hmem
        rw [hsplit] at h
        obtain ⟨c2, hc2, hle, hlast⟩ := chain_drop_prefix hnn l1 a a l2 c h
        have hlen2 : l2.length ≤ n := by
          have := congrArg List.length hsplit
          simp at this
          simp at hlen
          omega
        obtain ⟨l3, c3, h3, hlast3, hle3, hnd3, hsub3⟩ := ih l2 a c2 hlen2 hc2
        refine ⟨l3, c3, h3, ?_, by omega, hnd3, ?_⟩
        · rw [hsplit, hlast, hlast3]
        · intro x hx
          rw [hsplit]
          have : x ∈ l2 := hsub3 hx
          exact List.mem_append_right l1 (List.mem_cons_of_mem a this)
      · unfold chainCost at h
        cases he : adjCost t a b with
        | none => rw [he] at h; simp at h
        | some ce =>
          cases hr : chainCost t b rest with
          | none => rw [he, hr] at h; simp at h
          | some cr =>
            rw [he, hr] at h
            injection h with h1
            have hlen2 : rest.length ≤ n := by
              simp at hlen
              omega
            obtain ⟨l3, c3, h3, hlast3, hle3, hnd3, hsub3⟩ := ih rest b cr hlen2 hr
            have hsub4 : b :: l3 ⊆ b :: rest := by
              intro x hx
              rcases List.mem_cons.mp hx with h4 | h4
              · rw [h4]; exact List.mem_cons_self _ _
              · exact List.mem_cons_of_mem b (hsub3 h4)
            refine ⟨b :: l3, ce + c3, ?_, ?_, by omega, ?_, hsub4⟩
            · unfold chainCost
              rw [he, h3]
            · rw [chainLast_cons, chainLast_cons, hlast3]
            · refine List.nodup_cons.mpr ⟨?_, hnd3⟩
              intro hax
              exact hmem (hsub4 hax)

/-! ## Distance-vector: monotone decrease and invariant preservation -/

theorem dvRelax_dist_le (i j k : Int) (st : DVState) :
    ∀ a b, (dvRelax i j k st).dist a b ≤ st.dist a b := by
  intro a b
  unfold dvRelax
  by_cases h1 : st.dist i j + st.dist j k < st.dist i k
  · rw [if_pos h1]
    show set2 st.dist i k _ a b ≤ st.dist a b
    unfold set2
    by_cases ha : a = i
    · rw [if_pos ha]
      by_cases hb : b = k
      · rw [if_pos hb, ha, hb]
        omega
      · rw [if_neg hb]
    · rw [if_neg ha]
  · rw [if_neg h1]
    by_cases h2 : st.dist i j + st.dist j k = st.dist i k ∧ st.next i j ≠ -1 ∧
        st.next i j < st.next i k
    · rw [if_pos h2]
    · rw [if_neg h2]

theorem foldl_dist_le {α : Type} (l : List α) (f : DVState → α → DVState)
    (h : ∀ s x, x ∈ l → ∀ a b, (f s x).dist a b ≤ s.dist a b) :
    ∀ st a b, (l.foldl f st).dist a b ≤ st.dist a b := by
  induction l with
  | nil => intro st a b; exact le_refl _
  | cons x rest ih =>
    intro st a b
    rw [List.foldl_cons]
    calc (rest.foldl f (f st x)).dist a b
        ≤ (f st x).dist a b :=
          ih (fun s y hy => h s y (List.mem_cons_of_mem x hy)) _ a b
      _ ≤ st.dist a b := h st x (List.mem_cons_self x rest) a b

theorem dvLoopK_dist_le (i j : Int) (ks : List Int) (st : DVState) :
    ∀ a b, (dvLoopK i j ks st).dist a b ≤ st.dist a b :=
  foldl_dist_le ks _ (fun s k _ a b => dvRelax_dist_le i j k s a b) st

theorem dvLoopJ_dist_le (i : Int) (ad : Adj) (ks : List Int) (st : DVState) :
    ∀ a b, (dvLoopJ i ad ks st).dist a b ≤ st.dist a b := by
  refine foldl_dist_le ad _ (fun s q _ a b => ?_) st
  by_cases hg : s.dist i q.1 = INF
  · rw [if_pos hg]
  · rw [if_neg hg]
    exact dvLoopK_dist_le i q.1 ks s a b

theorem dvPass_dist_le (t : Topo) (st : DVState) :
    ∀ a b, (dvPass t st).dist a b ≤ st.dist a b := by
  intro a b
  unfold dvPass
  exact foldl_dist_le t _ (fun s p _ a b => dvLoopJ_dist_le p.1 p.2 (nodeIds t) s a b)
    { st with upd := false } a b

theorem dvIter_dist_le (t : Topo) :
    ∀ (n : Nat) (st : DVState) (a b : Int), (dvIter t n st).dist a b ≤ st.dist a b := by
  intro n
  induction n with
  | zero => intro st a b; exact le_refl _
  | succ n ih =>
    intro st a b
    unfold dvIter
    by_cases hu : st.upd
    · rw [if_pos hu]
      exact le_trans (ih (dvPass t st) a b) (dvPass_dist_le t st a b)
    · rw [if_neg hu]

theorem dvRelax_inv {t : Topo} (hwf : TopoWF t) (hnn : NonnegCosts t)
    (i j k : Int) (hi : i ∈ mkeys t) (hj : j ∈ mkeys t) (hk : k ∈ mkeys t)
    (hedge : adjCost t i j ≠ none)
    {st : DVState} (hinv : DVInv t st) : DVInv t (dvRelax i j k st) := by
  obtain ⟨hdiag, hbox⟩ := hinv
  have hij0 : 0 ≤ st.dist i j := (hbox i j hi hj).1
  have hjk0 : 0 ≤ st.dist j k := (hbox j k hj hk).1
  unfold dvRelax
  by_cases h1 : st.dist i j + st.dist j k < st.dist i k
  · rw [if_pos h1]
    have hik : st.dist i k ≤ INF := (hbox i k hi hk).2.1
    have hijW : st.dist i j ≠ INF := by
      intro he
      omega
    have hjkW : st.dist j k ≠ INF := by
      intro he
      omega
    obtain ⟨l1, hl1, hlast1⟩ := ((hbox i j hi hj).2.2).resolve_left hijW
    obtain ⟨l2, hl2, hlast2⟩ := ((hbox j k hj hk).2.2).resolve_left hjkW
    have hl2j : chainCost t (chainLast i l1) l2 = some (st.dist j k) := by
      rw [hlast1]
      exact hl2
    obtain ⟨happ, hlastapp⟩ := chain_append l1 i (st.dist i j) hl1 l2 (st.dist j k) hl2j
    have hki : k ≠ i := by
      intro hki
      have hzero : st.dist i k = 0 := by
        rw [hki]
        exact hdiag i hi
      omega
    constructor
    · intro a ha
      show set2 st.dist i k _ a a = 0
      unfold set2
      by_cases hai : a = i
      · rw [if_pos hai, if_neg (fun hak : a = k => hki (hak ▸ hai ▸ rfl))]
        exact hdiag a ha
      · rw [if_neg hai]
        exact hdiag a ha
    · intro a b ha hb
      show 0 ≤ set2 st.dist i k (st.dist i j + st.dist j k) a b ∧
        set2 st.dist i k (st.dist i j + st.dist j k) a b ≤ INF ∧
        (set2 st.dist i k (st.dist i j + st.dist j k) a b = INF ∨
          ∃ l, chainCost t a l =
            some (set2 st.dist i k (st.dist i j + st.dist j k) a b) ∧
            chainLast a l = b)
      by_cases hai : a = i
      · by_cases hbk : b = k
        · have hv : set2 st.dist i k (st.dist i j + st.dist j k) a b =
              st.dist i j + st.dist j k := by
            unfold set2
            rw [if_pos hai, if_pos hbk]
          rw [hv]
          subst hai
          subst hbk
          refine ⟨by omega, by omega, Or.inr ⟨l1 ++ l2, happ, ?_⟩⟩
          rw [hlastapp, hlast1, hlast2]
        · have hv : set2 st.dist i k (st.dist i j + st.dist j k) a b = st.dist a b := by
            unfold set2
            rw [if_pos hai, if_neg hbk, hai]
          rw [hv]
          exact hbox a b ha hb
      · have hv : set2 st.dist i k (st.dist i j + st.dist j k) a b = st.dist a b := by
          unfold set2
          rw [if_neg hai]
        rw [hv]
        exact hbox a b ha hb
  · rw [if_neg h1]
    by_cases h2 : st.dist i j + st.dist j k = st.dist i k ∧ st.next i j ≠ -1 ∧
        st.next i j < st.next i k
    · rw [if_pos h2]
      exact ⟨hdiag, hbox⟩
    · rw [if_neg h2]
      exact ⟨hdiag, hbox⟩

theorem dvLoopK_inv {t : Topo} (hwf : TopoWF t) (hnn : NonnegCosts t)
    (i j : Int) (hi : i ∈ mkeys t) (hj : j ∈ mkeys t)
    (hedge : adjCost t i j ≠ none)
    {st : DVState} (hinv : DVInv t st) : DVInv t (dvLoopK i j (nodeIds t) st) := by
  unfold dvLoopK
  refine @foldl_inv DVState Int (DVInv t) (nodeIds t) _ (fun s k hkm hs => ?_) _ hinv
  exact dvRelax_inv hwf hnn i j k hi hj hkm hedge hs

theorem dvLoopJ_inv {t : Topo} (hwf : TopoWF t) (hnn : NonnegCosts t)
    (p : Int × Adj) (hp : p ∈ t)
    {st : DVState} (hinv : DVInv t st) : DVInv t (dvLoopJ p.1 p.2 (nodeIds t) st) := by
  unfold dvLoopJ
  refine @foldl_inv DVState (Int × Int) (DVInv t) p.2 _ (fun s q hq hs => ?_) _ hinv
  by_cases hg : s.dist p.1 q.1 = INF
  · rw [if_pos hg]
    exact hs
  · rw [if_neg hg]
    have hi : p.1 ∈ mkeys t := List.mem_map_of_mem Prod.fst hp
    have hj : q.1 ∈ mkeys t := (hwf.2 p hp).2 q hq
    have hedge : adjCost t p.1 q.1 ≠ none := by
      unfold adjCost
      rw [adjOf_eq_of_mem (topoWF_keys_nodup hwf) hp]
      have hq2 : (q.1, q.2) ∈ p.2 := by
        obtain ⟨q1, q2⟩ := q
        exact hq
      rw [mfind_of_mem_nodup (topoWF_adj_nodup hwf hp) hq2]
      simp
    exact dvLoopK_inv hwf hnn p.1 q.1 hi hj hedge hs

theorem dvPass_inv {t : Topo} (hwf : TopoWF t) (hnn : NonnegCosts t)
    {st : DVState} (hinv : DVInv t st) : DVInv t (dvPass t st) := by
  unfold dvPass
  refine @foldl_inv DVState (Int × Adj) (DVInv t) t _ (fun s p hp hs => ?_) _ ?_
  · exact dvLoopJ_inv hwf hnn p hp hs
  · exact ⟨hinv.1, hinv.2⟩

theorem dvIter_inv {t : Topo} (hwf : TopoWF t) (hnn : NonnegCosts t) :
    ∀ (n : Nat) (st : DVState), DVInv t st → DVInv t (dvIter t n st) := by
  intro n
  induction n with
  | zero => intro st h; exact h
  | succ n ih =>
    intro st h
    unfold dvIter
    by_cases hu : st.upd
    · rw [if_pos hu]
      exact ih _ (dvPass_inv hwf hnn h)
    · rw [if_neg hu]
      exact h

theorem dvInit_inv {t : Topo} (hwf : TopoWF t) (hnn : NonnegCosts t)
    (hbd : BoundedCosts t) (hns : NoSelfLoops t) : DVInv t (dvInit t) := by
  constructor
  · intro a ha
    obtain ⟨hd, _⟩ := dvInit_char t hwf a ha a ha
    have hnomem : a ∉ mkeys (adjOf t a) := by
      intro hmem
      obtain ⟨q, hq, hqa⟩ := List.mem_map.mp hmem
      obtain ⟨ad, had, hqad⟩ := adjOf_mem_topo hq
      exact hns (a, ad) had q hqad hqa
    rw [hd, mfind_eq_none_of_not_mem hnomem]
    simp
  · intro a b ha hb
    obtain ⟨hd, _⟩ := dvInit_char t hwf a ha b hb
    rw [hd]
    cases hm : mfind (adjOf t a) b with
    | none =>
      by_cases hab : a = b
      · rw [if_pos hab]
        refine ⟨by simp, by simp; decide, Or.inr ⟨[], by simp [chainCost], ?_⟩⟩
        rw [hab]
        rfl
      · rw [if_neg hab]
        exact ⟨by simp; decide, by simp, Or.inl (by simp)⟩
    | some c =>
      have hedge : adjCost t a b = some c := hm
      obtain ⟨ad, had, hcad⟩ := adjCost_mem_topo hedge
      have h0 : 0 ≤ c := hnn (a, ad) had (b, c) hcad
      have h1 : c ≤ INF := hbd (a, ad) had (b, c) hcad
      refine ⟨by simpa using h0, by simpa using h1, Or.inr ⟨[b], ?_, rfl⟩⟩
      unfold chainCost
      rw [hedge]
      show some (c + 0) = some ((Option.getD (some c) _))
      simp

theorem dvInit_nbub {t : Topo} (hwf : TopoWF t) : DVNbUB t (dvInit t) := by
  intro a ha q hq
  have hb : q.1 ∈ mkeys t := by
    obtain ⟨ad, had, hqad⟩ := adjOf_mem_topo hq
    exact (hwf.2 (a, ad) had).2 q hqad
  obtain ⟨hd, _⟩ := dvInit_char t hwf a ha q.1 hb
  rw [hd]
  have hfind : mfind (adjOf t a) q.1 = some q.2 := by
    obtain ⟨ad, had, hqad⟩ := adjOf_mem_topo hq
    rw [adjOf_eq_of_mem (topoWF_keys_nodup hwf) had] at hq ⊢
    exact mfind_of_mem_nodup (topoWF_adj_nodup hwf had) (by
      obtain ⟨q1, q2⟩ := q
      exact hq)
  rw [hfind]
  exact le_refl _

theorem dvRun_nbub {t : Topo} (hwf : TopoWF t) : DVNbUB t (dvRun t) := by
  intro a ha q hq
  calc (dvRun t).dist a q.1 ≤ (dvInit t).dist a q.1 := dvIter_dist_le t _ _ a q.1
    _ ≤ q.2 := dvInit_nbub hwf a ha q hq

/-! ## Distance-vector: the no-update pass is a fixed point -/

theorem dvRelax_noflag (i j k : Int) (st : DVState)
    (h : (dvRelax i j k st).upd = false) :
    dvRelax i j k st = st ∧ st.dist i k ≤ st.dist i j + st.dist j k := by
  unfold dvRelax at h ⊢
  by_cases h1 : st.dist i j + st.dist j k < st.dist i k
  · rw [if_pos h1] at h
    simp at h
  · rw [if_neg h1] at h ⊢
    by_cases h2 : st.dist i j + st.dist j k = st.dist i k ∧ st.next i j ≠ -1 ∧
        st.next i j < st.next i k
    · rw [if_pos h2] at h
      simp at h
    · rw [if_neg h2] at h ⊢
      exact ⟨rfl, by omega⟩

theorem foldl_noflag {α : Type} (l : List α) (f : DVState → α → DVState)
    (hmono : ∀ s x, x ∈ l → (f s x).upd = false → f s x = s) :
    ∀ st, (l.foldl f st).upd = false →
      l.foldl f st = st ∧ ∀ x ∈ l, f st x = st := by
  induction l with
  | nil => intro st _; exact ⟨rfl, fun x hx => absurd hx (List.not_mem_nil x)⟩
  | cons x rest ih =>
    intro st h
    rw [List.foldl_cons] at h ⊢
    obtain ⟨hfold, hall⟩ := ih (fun s y hy => hmono s y (List.mem_cons_of_mem x hy))
      (f st x) h
    have hupd : (f st x).upd = false := by
      rw [← hfold]
      exact h
    have hx : f st x = st := hmono st x (List.mem_cons_self x rest) hupd
    rw [hx] at hfold hall
    refine ⟨by rw [hx, hfold], fun y hy => ?_⟩
    rcases List.mem_cons.mp hy with h1 | h1
    · rw [h1]
      exact hx
    · exact hall y h1

theorem dvLoopK_noflag (i j : Int) (ks : List Int) (st : DVState)
    (h : (dvLoopK i j ks st).upd = false) :
    dvLoopK i j ks st = st ∧ ∀ k ∈ ks, dvRelax i j k st = st := by
  exact foldl_noflag ks _ (fun s k _ hk => (dvRelax_noflag i j k s hk).1) st h

theorem dvLoopJ_noflag (i : Int) (ad : Adj) (ks : List Int) (st : DVState)
    (h : (dvLoopJ i ad ks st).upd = false) :
    dvLoopJ i ad ks st = st ∧
    ∀ q ∈ ad, (if st.dist i q.1 = INF then st else dvLoopK i q.1 ks st) = st := by
  refine foldl_noflag ad _ (fun s q _ hq => ?_) st h
  by_cases hg : s.dist i q.1 = INF
  · rw [if_pos hg] at hq ⊢
  · rw [if_neg hg] at hq ⊢
    exact (dvLoopK_noflag i q.1 ks s hq).1

theorem dvPass_noflag (t : Topo) (st : DVState)
    (h : (dvPass t st).upd = false) :
    dvPass t st = { st with upd := false } ∧ DVFP t (dvPass t st) := by
  unfold dvPass at h ⊢
  obtain ⟨hfold, hall⟩ := foldl_noflag t _ (fun s p _ hp => (dvLoopJ_noflag p.1 p.2
    (nodeIds t) s hp).1) { st with upd := false } h
  refine ⟨hfold, ?_⟩
  rw [hfold]
  intro p hp q hq hne k hk
  have hrow := hall p hp
  have hupd : ({ st with upd := false } : DVState).upd = false := rfl
  have hrowflag : (dvLoopJ p.1 p.2 (nodeIds t) { st with upd := false }).upd = false := by
    rw [hrow]
  obtain ⟨_, hsteps⟩ := dvLoopJ_noflag p.1 p.2 (nodeIds t) _ hrowflag
  have hstep := hsteps q hq
  rw [if_neg hne] at hstep
  have hstepflag : (dvLoopK p.1 q.1 (nodeIds t) { st with upd := false }).upd = false := by
    rw [hstep]
  obtain ⟨_, hks⟩ := dvLoopK_noflag p.1 q.1 (nodeIds t) _ hstepflag
  have hkflag : (dvRelax p.1 q.1 k { st with upd := false }).upd = false := by
    rw [hks k hk]
  exact (dvRelax_noflag p.1 q.1 k _ hkflag).2

theorem chainLast_mem (a : Int) (l : List Int) : chainLast a l ∈ a :: l := by
  unfold chainLast
  induction l generalizing a with
  | nil => exact List.mem_cons_self a []
  | cons b rest ih =>
    rw [List.getLastD_cons]
    rcases List.mem_cons.mp (ih b) with h1 | h1
    · rw [h1]
      exact List.mem_cons_of_mem a (List.mem_cons_self b rest)
    · exact List.mem_cons_of_mem a (List.mem_cons_of_mem b h1)

theorem dvFP_fullUB {t : Topo} (hwf : TopoWF t) (hnn : NonnegCosts t)
    {st : DVState} (hfp : DVFP t st) (hnb : DVNbUB t st) (hinv : DVInv t st) :
    DVFullUB t st := by
  intro a b ha hb l
  induction l generalizing a with
  | nil =>
    intro c hc hl
    have hba : a = b := hl
    unfold chainCost at hc
    injection hc with hc
    rw [← hba, hinv.1 a ha]
    omega
  | cons v1 rest ih =>
    intro c hc hl
    unfold chainCost at hc
    cases he : adjCost t a v1 with
    | none => rw [he] at hc; simp at hc
    | some c1 =>
      cases hr : chainCost t v1 rest with
      | none => rw [he, hr] at hc; simp at hc
      | some cr =>
        rw [he, hr] at hc
        injection hc with hc
        have hv1 : v1 ∈ mkeys t := adjCost_target_mem hwf he
        have hq : (v1, c1) ∈ adjOf t a := mfind_some_mem he
        have hnbav : st.dist a v1 ≤ c1 := hnb a ha (v1, c1) hq
        have hcr0 : 0 ≤ cr := chainCost_nonneg hnn rest v1 cr hr
        have hlast : chainLast v1 rest = b := by
          rw [← hl, chainLast_cons]
        by_cases hinf : st.dist a v1 = INF
        · have hub : st.dist a b ≤ INF := (hinv.2 a b ha hb).2.1
          omega
        · obtain ⟨ad, had, hv1ad⟩ := adjOf_mem_topo hq
          have hfp2 := hfp (a, ad) had (v1, c1) (by
            rw [adjOf_eq_of_mem (topoWF_keys_nodup hwf) had] at hq
            exact hq) hinf b hb
          have hih := ih v1 hv1 cr hr hlast
          calc st.dist a b ≤ st.dist a v1 + st.dist v1 b := hfp2
            _ ≤ c1 + cr := by
                have := hnbav
                omega
            _ = c := hc

/-! ## Distance-vector: one pass relaxes every edge-tail pair -/

theorem dvRelax_le_alt (i j k : Int) (st : DVState) :
    (dvRelax i j k st).dist i k ≤ st.dist i j + st.dist j k := by
  unfold dvRelax
  by_cases h1 : st.dist i j + st.dist j k < st.dist i k
  · rw [if_pos h1]
    have hv : set2 st.dist i k (st.dist i j + st.dist j k) i k =
        st.dist i j + st.dist j k := by
      unfold set2
      rw [if_pos rfl, if_pos rfl]
    exact le_of_eq hv
  · rw [if_neg h1]
    by_cases h2 : st.dist i j + st.dist j k = st.dist i k ∧ st.next i j ≠ -1 ∧
        st.next i j < st.next i k
    · rw [if_pos h2]
      show st.dist i k ≤ st.dist i j + st.dist j k
      omega
    · rw [if_neg h2]
      show st.dist i k ≤ st.dist i j + st.dist j k
      omega

theorem dvPass_progress {t : Topo} (st : DVState) :
    ∀ p ∈ t, ∀ q ∈ p.2, st.dist p.1 q.1 < INF →
      ∀ k ∈ nodeIds t,
        (dvPass t st).dist p.1 k ≤ st.dist p.1 q.1 + st.dist q.1 k := by
  intro p hp q hq hlt k hk
  obtain ⟨t1, t2, ht⟩ := List.append_of_mem hp
  subst ht
  obtain ⟨a1, a2, ha⟩ := List.append_of_mem hq
  obtain ⟨k1, k2, hks⟩ := List.append_of_mem hk
  show ((t1 ++ p :: t2).foldl (fun s p2 => dvLoopJ p2.1 p2.2 (nodeIds (t1 ++ p :: t2)) s)
      { st with upd := false }).dist p.1 k ≤ _
  rw [List.foldl_append, List.foldl_cons]
  set T : Topo := t1 ++ p :: t2 with hT
  set st1 := t1.foldl (fun s p2 => dvLoopJ p2.1 p2.2 (nodeIds T) s)
    ({ st with upd := false } : DVState) with hst1
  have hmono1 : ∀ a b, st1.dist a b ≤ st.dist a b := by
    intro a b
    exact foldl_dist_le t1 _
      (fun s p2 _ a b => dvLoopJ_dist_le p2.1 p2.2 (nodeIds T) s a b) _ a b
  have hkey : (dvLoopJ p.1 p.2 (nodeIds T) st1).dist p.1 k ≤
      st.dist p.1 q.1 + st.dist q.1 k := by
    show (p.2.foldl (fun s q2 => if s.dist p.1 q2.1 = INF then s
      else dvLoopK p.1 q2.1 (nodeIds T) s) st1).dist p.1 k ≤ _
    conv_lhs => rw [ha]
    rw [List.foldl_append, List.foldl_cons]
    set st2 := a1.foldl (fun s q2 => if s.dist p.1 q2.1 = INF then s
      else dvLoopK p.1 q2.1 (nodeIds T) s) st1 with hst2
    have hmono2 : ∀ a b, st2.dist a b ≤ st1.dist a b := by
      intro a b
      refine foldl_dist_le a1 _ (fun s q2 _ a b => ?_) st1 a b
      by_cases hg : s.dist p.1 q2.1 = INF
      · rw [if_pos hg]
      · rw [if_neg hg]
        exact dvLoopK_dist_le p.1 q2.1 (nodeIds T) s a b
    have hg2 : ¬ st2.dist p.1 q.1 = INF := by
      have h1 := hmono2 p.1 q.1
      have h2 := hmono1 p.1 q.1
      omega
    rw [if_neg hg2]
    have hkloop : (dvLoopK p.1 q.1 (nodeIds T) st2).dist p.1 k ≤
        st.dist p.1 q.1 + st.dist q.1 k := by
      show ((nodeIds T).foldl (fun s k3 => dvRelax p.1 q.1 k3 s) st2).dist p.1 k ≤ _
      conv_lhs => rw [hks]
      rw [List.foldl_append, List.foldl_cons]
      set st3 := k1.foldl (fun s k3 => dvRelax p.1 q.1 k3 s) st2 with hst3
      have hmono3 : ∀ a b, st3.dist a b ≤ st2.dist a b := by
        intro a b
        exact foldl_dist_le k1 _
          (fun s k3 _ a b => dvRelax_dist_le p.1 q.1 k3 s a b) st2 a b
      have hrelax : (dvRelax p.1 q.1 k st3).dist p.1 k ≤
          st.dist p.1 q.1 + st.dist q.1 k := by
        calc (dvRelax p.1 q.1 k st3).dist p.1 k
            ≤ st3.dist p.1 q.1 + st3.dist q.1 k := dvRelax_le_alt p.1 q.1 k st3
          _ ≤ st.dist p.1 q.1 + st.dist q.1 k := by
              have h1 := hmono3 p.1 q.1
              have h2 := hmono2 p.1 q.1
              have h3 := hmono1 p.1 q.1
              have h4 := hmono3 q.1 k
              have h5 := hmono2 q.1 k
              have h6 := hmono1 q.1 k
              omega
      calc (k2.foldl (fun s k3 => dvRelax p.1 q.1 k3 s)
            (dvRelax p.1 q.1 k st3)).dist p.1 k
          ≤ (dvRelax p.1 q.1 k st3).dist p.1 k :=
            foldl_dist_le k2 _
              (fun s k3 _ a b => dvRelax_dist_le p.1 q.1 k3 s a b) _ p.1 k
        _ ≤ st.dist p.1 q.1 + st.dist q.1 k := hrelax
    calc (a2.foldl (fun s q2 => if s.dist p.1 q2.1 = INF then s
          else dvLoopK p.1 q2.1 (nodeIds T) s)
          (dvLoopK p.1 q.1 (nodeIds T) st2)).dist p.1 k
        ≤ (dvLoopK p.1 q.1 (nodeIds T) st2).dist p.1 k := by
          refine foldl_dist_le a2 _ (fun s q2 _ a b => ?_) _ p.1 k
          by_cases hg : s.dist p.1 q2.1 = INF
          · rw [if_pos hg]
          · rw [if_neg hg]
            exact dvLoopK_dist_le p.1 q2.1 (nodeIds T) s a b
      _ ≤ st.dist p.1 q.1 + st.dist q.1 k := hkloop
  calc (t2.foldl (fun s p2 => dvLoopJ p2.1 p2.2 (nodeIds T) s)
        (dvLoopJ p.1 p.2 (nodeIds T) st1)).dist p.1 k
      ≤ (dvLoopJ p.1 p.2 (nodeIds T) st1).dist p.1 k :=
        foldl_dist_le t2 _
          (fun s p2 _ a b => dvLoopJ_dist_le p2.1 p2.2 (nodeIds T) s a b) _ p.1 k
    _ ≤ st.dist p.1 q.1 + st.dist q.1 k := hkey

/-! ## Distance-vector: the run dominates every chain -/

theorem dvPass_nbub {t : Topo} {st : DVState} (hnb : DVNbUB t st) :
    DVNbUB t (dvPass t st) := by
  intro a ha q hq
  exact le_trans (dvPass_dist_le t st a q.1) (hnb a ha q hq)

theorem dvPass_pub {t : Topo} (hwf : TopoWF t) (hnn : NonnegCosts t)
    {st : DVState} (m : Nat) (hinv : DVInv t st) (hnb : DVNbUB t st)
    (hpub : DVPUB t st m) : DVPUB t (dvPass t st) (m + 1) := by
  intro a b ha hb l c hlen hc hl
  cases l with
  | nil =>
    have hba : a = b := hl
    unfold chainCost at hc
    injection hc with hc
    rw [← hba, (dvPass_inv hwf hnn hinv).1 a ha]
    omega
  | cons v1 rest =>
    unfold chainCost at hc
    cases he : adjCost t a v1 with
    | none => rw [he] at hc; simp at hc
    | some c1 =>
      cases hr : chainCost t v1 rest with
      | none => rw [he, hr] at hc; simp at hc
      | some cr =>
        rw [he, hr] at hc
        injection hc with hc
        have hv1 : v1 ∈ mkeys t := adjCost_target_mem hwf he
        have hq : (v1, c1) ∈ adjOf t a := mfind_some_mem he
        have hnbav : st.dist a v1 ≤ c1 := by simpa using hnb a ha (v1, c1) hq
        have hcr0 : 0 ≤ cr := chainCost_nonneg hnn rest v1 cr hr
        have hlast : chainLast v1 rest = b := by
          rw [← hl, chainLast_cons]
        have hlen2 : rest.length ≤ m := by
          simp at hlen
          omega
        by_cases hinf : st.dist a v1 = INF
        · have hub : (dvPass t st).dist a b ≤ INF :=
            ((dvPass_inv hwf hnn hinv).2 a b ha hb).2.1
          omega
        · obtain ⟨p, hp, hpa⟩ := List.mem_map.mp ha
          have hadj : adjOf t p.1 = p.2 := adjOf_eq_of_mem (topoWF_keys_nodup hwf) hp
          have hq2 : (v1, c1) ∈ p.2 := by
            rw [← hadj]
            rw [hpa]
            exact hq
          have hlt : st.dist p.1 (v1, c1).1 < INF := by
            rw [hpa]
            show st.dist a v1 < INF
            have := (hinv.2 a v1 ha hv1).2.1
            omega
          have hprog0 := dvPass_progress st p hp (v1, c1) hq2 hlt b hb
          rw [hpa] at hprog0
          have hprog : (dvPass t st).dist a b ≤ st.dist a v1 + st.dist v1 b := by
            simpa using hprog0
          have hpubst : st.dist v1 b ≤ cr := hpub v1 b hv1 hb rest cr hlen2 hr hlast
          omega

theorem dvInit_pub {t : Topo} (hwf : TopoWF t) (hnn : NonnegCosts t)
    (hbd : BoundedCosts t) (hns : NoSelfLoops t) : DVPUB t (dvInit t) 1 := by
  intro a b ha hb l c hlen hc hl
  cases l with
  | nil =>
    have hba : a = b := hl
    unfold chainCost at hc
    injection hc with hc
    rw [← hba, (dvInit_inv hwf hnn hbd hns).1 a ha]
    omega
  | cons v1 rest =>
    have hrest : rest = [] := by
      simp at hlen
      exact hlen
    subst hrest
    unfold chainCost at hc
    cases he : adjCost t a v1 with
    | none => rw [he] at hc; simp at hc
    | some c1 =>
      rw [he] at hc
      unfold chainCost at hc
      simp at hc
      have hb1 : b = v1 := by
        rw [← hl, chainLast_cons]
        rfl
    
      have hq : (v1, c1) ∈ adjOf t a := mfind_some_mem he
      have hnb2 : (dvInit t).dist a v1 ≤ c1 := by
        simpa using dvInit_nbub hwf a ha (v1, c1) hq
      rw [hb1]
      omega

theorem dvIter_exit (t : Topo) (n : Nat) (st : DVState) (h : st.upd = false) :
    dvIter t n st = st := by
  cases n with
  | zero => rfl
  | succ n =>
    show (if st.upd = true then dvIter t n (dvPass t st) else st) = st
    rw [h]
    simp

theorem dvIter_ub {t : Topo} (hwf : TopoWF t) (hnn : NonnegCosts t) :
    ∀ (n : Nat) (st : DVState) (m : Nat), st.upd = true → DVInv t st →
      DVNbUB t st → DVPUB t st m →
      (DVPUB t (dvIter t n st) (m + n) ∨ DVFullUB t (dvIter t n st)) := by
  intro n
  induction n with
  | zero =>
    intro st m _ _ _ hpub
    left
    unfold dvIter
    rw [Nat.add_zero]
    exact hpub
  | succ n ih =>
    intro st m hupd hinv hnb hpub
    unfold dvIter
    rw [if_pos (by rw [hupd])]
    have hinv2 := dvPass_inv hwf hnn hinv
    have hnb2 := dvPass_nbub hnb
    have hpub2 := dvPass_pub hwf hnn m hinv hnb hpub
    cases hu2 : (dvPass t st).upd with
    | true =>
      rcases ih (dvPass t st) (m + 1) hu2 hinv2 hnb2 hpub2 with h1 | h1
      · left
        have heq : m + 1 + n = m + (n + 1) := by omega
        rw [heq] at h1
        exact h1
      · right
        exact h1
    | false =>
      right
      rw [dvIter_exit t n _ hu2]
      obtain ⟨_, hfp⟩ := dvPass_noflag t st hu2
      exact dvFP_fullUB hwf hnn hfp hnb2 hinv2

theorem dvRun_fullUB {t : Topo} (hwf : TopoWF t) (hnn : NonnegCosts t)
    (hbd : BoundedCosts t) (hns : NoSelfLoops t) : DVFullUB t (dvRun t) := by
  have h := dvIter_ub hwf hnn ((nodeIds t).length - 1) (dvInit t) 1
    (dvInit_upd t) (dvInit_inv hwf hnn hbd hns) (dvInit_nbub hwf)
    (dvInit_pub hwf hnn hbd hns)
  rcases h with h | h
  · intro a b ha hb l c hc hl
    obtain ⟨l2, c2, h2, hlast2, hle2, hnd2, hsub2⟩ :=
      chain_simplify hwf hnn l.length l a c (le_refl _) hc
    have hsubk : ∀ x ∈ a :: l2, x ∈ mkeys t := by
      intro x hx
      rcases List.mem_cons.mp hx with h3 | h3
      · rw [h3]; exact ha
      · exact chain_subset_keys hwf l2 a c2 h2 x h3
    have hlenle : (a :: l2).length ≤ (mkeys t).length :=
      nodup_subset_length hnd2 hsubk
    have hlen2 : l2.length ≤ 1 + ((nodeIds t).length - 1) := by
      have h4 : (a :: l2).length = l2.length + 1 := by
        rw [List.length_cons]
      have h5 : 1 ≤ (mkeys t).length := by
        have := List.length_pos_of_mem ha
        omega
      show l2.length ≤ 1 + ((mkeys t).length - 1)
      omega
    have := h a b ha hb l2 c2 hlen2 h2 (by rw [hlast2, hl])
    unfold dvRun
    omega
  · exact h

theorem nat_least (P : Nat → Prop) (h : ∃ n, P n) :
    ∃ n, P n ∧ ∀ m, P m → n ≤ m := by
  classical
  obtain ⟨n, hn⟩ := h
  induction n using Nat.strong_induction_on with
  | _ n ih =>
    by_cases h2 : ∃ m, m < n ∧ P m
    · obtain ⟨m, hm, hPm⟩ := h2
      exact ih m hm hPm
    · push_neg at h2
      exact ⟨n, hn, fun m hPm => Nat.le_of_not_lt (fun hlt => h2 m hlt hPm)⟩

theorem exists_minCost {t : Topo} (hnn : NonnegCosts t) {a b : Int}
    (hr : Reachable t a b) : ∃ v, 0 ≤ v ∧ IsMinCost t a b v := by
  obtain ⟨l0, c0, hc0, hl0⟩ := hr
  have hc00 : 0 ≤ c0 := chainCost_nonneg hnn l0 a c0 hc0
  obtain ⟨n, ⟨l1, hl1, hlast1⟩, hmin⟩ := nat_least
    (fun n => ∃ l, chainCost t a l = some (n : Int) ∧ chainLast a l = b)
    ⟨c0.toNat, l0, by rwa [Int.toNat_of_nonneg hc00], hl0⟩
  refine ⟨(n : Int), Int.natCast_nonneg _, ⟨l1, hl1, hlast1⟩, ?_⟩
  intro l c hc hl
  have hc0l : 0 ≤ c := chainCost_nonneg hnn l a c hc
  have h2 : n ≤ c.toNat :=
    hmin c.toNat ⟨l, by rwa [Int.toNat_of_nonneg hc0l], hl⟩
  have h3 : ((n : Nat) : Int) ≤ ((c.toNat : Nat) : Int) := by exact_mod_cast h2
  rwa [Int.toNat_of_nonneg hc0l] at h3

theorem dvRun_eq_min {t : Topo} (hwf : TopoWF t) (hnn : NonnegCosts t)
    (hbd : BoundedCosts t) (hns : NoSelfLoops t) {a b v : Int}
    (ha : a ∈ mkeys t) (hb : b ∈ mkeys t)
    (hmin : IsMinCost t a b v) (hv : v < INF) : dvDist t a b = v := by
  obtain ⟨⟨l, hl, hlast⟩, hleast⟩ := hmin
  have hub : (dvRun t).dist a b ≤ v :=
    dvRun_fullUB hwf hnn hbd hns a b ha hb l v hl hlast
  have hinv : DVInv t (dvRun t) :=
    dvIter_inv hwf hnn ((nodeIds t).length - 1) (dvInit t)
      (dvInit_inv hwf hnn hbd hns)
  rcases (hinv.2 a b ha hb).2.2 with hINF | ⟨l2, hl2, hlast2⟩
  · show (dvRun t).dist a b = v
    omega
  · have hge : v ≤ (dvRun t).dist a b := hleast l2 _ hl2 hlast2
    show (dvRun t).dist a b = v
    omega

theorem dvRun_eq_inf {t : Topo} (hwf : TopoWF t) (hnn : NonnegCosts t)
    (hbd : BoundedCosts t) (hns : NoSelfLoops t) {a b : Int}
    (ha : a ∈ mkeys t) (hb : b ∈ mkeys t)
    (hbig : ∀ l c, chainCost t a l = some c → chainLast a l = b → INF ≤ c) :
    dvDist t a b = INF := by
  have hinv : DVInv t (dvRun t) :=
    dvIter_inv hwf hnn ((nodeIds t).length - 1) (dvInit t)
      (dvInit_inv hwf hnn hbd hns)
  rcases (hinv.2 a b ha hb).2.2 with hINF | ⟨l2, hl2, hlast2⟩
  · exact hINF
  · have h1 := hbig l2 _ hl2 hlast2
    have h2 := (hinv.2 a b ha hb).2.1
    show (dvRun t).dist a b = INF
    omega

/-! ## Link-state: the drained loop dominates every chain -/

theorem mem_pqInsert_self (x : Int × Int) (l : List (Int × Int)) :
    x ∈ pqInsert x l := by
  induction l with
  | nil => exact List.mem_singleton.mpr rfl
  | cons y ys ih =>
    unfold pqInsert
    by_cases h1 : pairLt x y
    · rw [if_pos h1]
      exact List.mem_cons_self _ _
    · rw [if_neg h1]
      by_cases h2 : x = y
      · rw [if_pos h2]
        rw [h2]
        exact List.mem_cons_self _ _
      · rw [if_neg h2]
        exact List.mem_cons_of_mem y ih

theorem mem_pqInsert_of_mem {p : Int × Int} {l : List (Int × Int)} (x : Int × Int)
    (h : p ∈ l) : p ∈ pqInsert x l := by
  induction l with
  | nil => simp at h
  | cons y ys ih =>
    unfold pqInsert
    by_cases h1 : pairLt x y
    · rw [if_pos h1]
      exact List.mem_cons_of_mem x h
    · rw [if_neg h1]
      by_cases h2 : x = y
      · rw [if_pos h2]
        exact h
      · rw [if_neg h2]
        rcases List.mem_cons.mp h with h3 | h3
        · rw [h3]
          exact List.mem_cons_self _ _
        · exact List.mem_cons_of_mem y (ih h3)

theorem mem_pqErase_of_ne {p x : Int × Int} {l : List (Int × Int)}
    (h : p ∈ l) (hne : p ≠ x) : p ∈ pqErase x l := by
  induction l with
  | nil => simp at h
  | cons y ys ih =>
    unfold pqErase
    by_cases h1 : x = y
    · rw [if_pos h1]
      rcases List.mem_cons.mp h with h2 | h2
      · exact absurd (h2.trans h1.symm) hne
      · exact h2
    · rw [if_neg h1]
      rcases List.mem_cons.mp h with h2 | h2
      · rw [h2]
        exact List.mem_cons_self _ _
      · exact List.mem_cons_of_mem y (ih h2)

/-! ## List surgery and chain splitting -/

theorem append_singleton_eq {α : Type} (l1 : List α) (x : α) (l2 m : List α) (y : α)
    (h : l1 ++ x :: l2 = m ++ [y]) :
    (l2 = [] ∧ x = y ∧ l1 = m) ∨ ∃ l2a, l2 = l2a ++ [y] ∧ m = l1 ++ x :: l2a := by
  rcases List.eq_nil_or_concat l2 with h2 | ⟨l2a, y2, h2⟩
  · subst h2
    left
    obtain ⟨hl, hx⟩ := List.append_inj' h rfl
    refine ⟨rfl, ?_, hl⟩
    simpa using hx
  · subst h2
    rw [List.concat_eq_append] at h
    right
    have hre : (l1 ++ x :: l2a) ++ [y2] = m ++ [y] := by
      rw [← h]
      simp
    obtain ⟨hm, hy⟩ := List.append_inj' hre rfl
    have hyy : y2 = y := by simpa using hy
    exact ⟨l2a, by rw [List.concat_eq_append, hyy], hm.symm⟩

theorem chain_split {t : Topo} :
    ∀ (m1 m2 : List Int) (a c : Int), chainCost t a (m1 ++ m2) = some c →
      ∃ c1 c2, chainCost t a m1 = some c1 ∧
        chainCost t (chainLast a m1) m2 = some c2 ∧ c = c1 + c2 := by
  intro m1
  induction m1 with
  | nil =>
    intro m2 a c hc
    exact ⟨0, c, rfl, hc, by omega⟩
  | cons b rest ih =>
    intro m2 a c hc
    rw [List.cons_append] at hc
    unfold chainCost at hc
    cases he : adjCost t a b with
    | none => rw [he] at hc; simp at hc
    | some e =>
      cases hr : chainCost t b (rest ++ m2) with
      | none => rw [he, hr] at hc; simp at hc
      | some cr =>
        rw [he, hr] at hc
        injection hc with hc
        obtain ⟨c1, c2, h1, h2, h3⟩ := ih m2 b cr hr
        refine ⟨e + c1, c2, ?_, ?_, by omega⟩
        · show (match adjCost t a b, chainCost t b rest with
            | some e2, some r2 => some (e2 + r2)
            | _, _ => none) = some (e + c1)
          rw [he, h1]
        · rw [chainLast_cons]
          exact h2

/-! ## Cost-sum bounds: node-simple chains cost at most the total -/

theorem adjSum_nonneg {t : Topo} (hnn : NonnegCosts t) (u : Int) :
    0 ≤ adjSum t u := by
  refine List.sum_nonneg ?_
  intro x hx
  obtain ⟨q, hq, hqx⟩ := List.mem_map.mp hx
  obtain ⟨ad, had, hqad⟩ := adjOf_mem_topo hq
  rw [← hqx]
  exact hnn (u, ad) had q hqad

theorem cost_le_adjSum {t : Topo} (hnn : NonnegCosts t) {u : Int}
    {q : Int × Int} (hq : q ∈ adjOf t u) : q.2 ≤ adjSum t u := by
  refine List.single_le_sum ?_ _ (List.mem_map_of_mem Prod.snd hq)
  intro x hx
  obtain ⟨q2, hq2, hq2x⟩ := List.mem_map.mp hx
  obtain ⟨ad, had, hqad⟩ := adjOf_mem_topo hq2
  rw [← hq2x]
  exact hnn (u, ad) had q2 hqad

theorem totalCost_nonneg {t : Topo} (hnn : NonnegCosts t) : 0 ≤ totalCost t := by
  refine List.sum_nonneg ?_
  intro x hx
  obtain ⟨u, _, hux⟩ := List.mem_map.mp hx
  rw [← hux]
  exact adjSum_nonneg hnn u

theorem adjSum_le_total {t : Topo} (hnn : NonnegCosts t) {u : Int}
    (hu : u ∈ mkeys t) : adjSum t u ≤ totalCost t := by
  refine List.single_le_sum ?_ _ (List.mem_map_of_mem (adjSum t) hu)
  intro x hx
  obtain ⟨w, _, hwx⟩ := List.mem_map.mp hx
  rw [← hwx]
  exact adjSum_nonneg hnn w

theorem cost_le_total {t : Topo} (hnn : NonnegCosts t) {u : Int}
    {q : Int × Int} (hq : q ∈ adjOf t u) : q.2 ≤ totalCost t := by
  have hu : u ∈ mkeys t := by
    unfold adjOf at hq
    cases hm : mfind t u with
    | none => rw [hm] at hq; simp at hq
    | some ad => exact mem_keys_of_mfind_some hm
  exact le_trans (cost_le_adjSum hnn hq) (adjSum_le_total hnn hu)

theorem sum_map_le_sum_map_subset (f : Int → Int) :
    ∀ (src keys : List Int), src.Nodup → (∀ x ∈ src, x ∈ keys) →
      (∀ x ∈ keys, 0 ≤ f x) → (src.map f).sum ≤ (keys.map f).sum := by
  intro src
  induction src with
  | nil =>
    intro keys _ _ hpos
    show (0 : Int) ≤ (keys.map f).sum
    refine List.sum_nonneg ?_
    intro x hx
    obtain ⟨y, hy, hyx⟩ := List.mem_map.mp hx
    rw [← hyx]
    exact hpos y hy
  | cons a rest ih =>
    intro keys hnd hsub hpos
    have ha : a ∈ keys := hsub a (List.mem_cons_self _ _)
    have hperm : keys.Perm (a :: keys.erase a) := List.perm_cons_erase ha
    have hsum : (keys.map f).sum = f a + ((keys.erase a).map f).sum := by
      rw [(hperm.map f).sum_eq]
      simp
    have hrest : (rest.map f).sum ≤ ((keys.erase a).map f).sum := by
      refine ih (keys.erase a) (List.nodup_cons.mp hnd).2 ?_ ?_
      · intro x hx
        have hxa : x ≠ a := fun h => (List.nodup_cons.mp hnd).1 (h ▸ hx)
        exact (List.mem_erase_of_ne hxa).mpr (hsub x (List.mem_cons_of_mem _ hx))
      · intro x hx
        exact hpos x (List.mem_of_mem_erase hx)
    have hfa : 0 ≤ f a := hpos a ha
    rw [hsum]
    simp only [List.map_cons, List.sum_cons]
    omega

theorem chain_cost_le_sources {t : Topo} (hnn : NonnegCosts t) :
    ∀ (l : List Int) (a c : Int), chainCost t a l = some c →
      c ≤ (((a :: l).dropLast).map (adjSum t)).sum := by
  intro l
  induction l with
  | nil =>
    intro a c hc
    injection hc with hc
    show c ≤ (([] : List Int).map (adjSum t)).sum
    simp
    omega
  | cons b rest ih =>
    intro a c hc
    unfold chainCost at hc
    cases he : adjCost t a b with
    | none => rw [he] at hc; simp at hc
    | some e =>
      cases hr : chainCost t b rest with
      | none => rw [he, hr] at hc; simp at hc
      | some cr =>
        rw [he, hr] at hc
        injection hc with hc
        have hmemq : (b, e) ∈ adjOf t a := by
          unfold adjCost at he
          exact mfind_some_mem he
        have h1 : e ≤ adjSum t a := by
          have := cost_le_adjSum hnn hmemq
          simpa using this
        have h2 : cr ≤ (((b :: rest).dropLast).map (adjSum t)).sum := ih b cr hr
        show c ≤ ((a :: (b :: rest).dropLast).map (adjSum t)).sum
        simp only [List.map_cons, List.sum_cons]
        omega

theorem simple_chain_le_total {t : Topo} (hwf : TopoWF t) (hnn : NonnegCosts t) :
    ∀ (l : List Int) (a c : Int), chainCost t a l = some c → (a :: l).Nodup →
      c ≤ totalCost t := by
  intro l a c hc hnd
  have h1 := chain_cost_le_sources hnn l a c hc
  cases l with
  | nil =>
    injection hc with hc
    have := totalCost_nonneg hnn
    omega
  | cons b rest =>
    have hak : a ∈ mkeys t := by
      unfold chainCost at hc
      cases he : adjCost t a b with
      | none => rw [he] at hc; simp at hc
      | some e =>
        unfold adjCost at he
        unfold adjOf at he
        cases hm : mfind t a with
        | none => rw [hm] at he; simp [mfind] at he
        | some ad => exact mem_keys_of_mfind_some hm
    have hsub : ∀ x ∈ (a :: b :: rest).dropLast, x ∈ mkeys t := by
      intro x hx
      have hx2 : x ∈ a :: b :: rest := (List.dropLast_sublist _).subset hx
      rcases List.mem_cons.mp hx2 with h | h
      · rw [h]; exact hak
      · exact chain_subset_keys hwf (b :: rest) a c hc x h
    have hnd2 : ((a :: b :: rest).dropLast).Nodup := hnd.sublist (List.dropLast_sublist _)
    have h2 : (((a :: b :: rest).dropLast).map (adjSum t)).sum ≤
        ((mkeys t).map (adjSum t)).sum := by
      refine sum_map_le_sum_map_subset (adjSum t) _ _ hnd2 hsub ?_
      intro x _
      exact adjSum_nonneg hnn x
    show c ≤ ((mkeys t).map (adjSum t)).sum
    omega

/-! ## The wrapped relaxation in the overflow-free regime -/

theorem lsRelaxEdge_exact {s u : Int} {st : LSState} {q : Int × Int}
    (h1 : -2147483648 ≤ st.dist u + q.2) (h2 : st.dist u + q.2 ≤ 2147483647) :
    lsRelaxEdge s u st q =
      if st.dist u + q.2 < st.dist q.1 ∨
          (st.dist u + q.2 = st.dist q.1 ∧ u < st.prev q.1) then
        { dist := set1 st.dist q.1 (st.dist u + q.2),
          next := set1o st.next q.1 (if u = s then q.1 else (st.next u).getD 0),
          prev := set1 st.prev q.1 u,
          pq := pqInsert (st.dist u + q.2, q.1) (pqErase (st.dist q.1, q.1) st.pq) }
      else st := by
  unfold lsRelaxEdge
  rw [wrap32_eq_self h1 h2]

theorem lsRelaxEdge_pred_pres (s u : Int) (st : LSState) (q : Int × Int)
    (u2 : Int) (q2 : Int × Int) (h : LSPred st u2 q2) :
    LSPred (lsRelaxEdge s u st q) u2 q2 := by
  unfold lsRelaxEdge
  by_cases hg : wrap32 (st.dist u + q.2) < st.dist q.1 ∨
      (wrap32 (st.dist u + q.2) = st.dist q.1 ∧ u < st.prev q.1)
  · rw [if_pos hg]
    set alt := wrap32 (st.dist u + q.2) with halt
    by_cases hu2 : u2 = q.1
    · right
      show (set1 st.dist q.1 alt u2, u2) ∈ pqInsert (alt, q.1) (pqErase (st.dist q.1, q.1) st.pq)
      have hd : set1 st.dist q.1 alt u2 = alt := by
        unfold set1
        rw [if_pos hu2]
      rw [hd, hu2]
      exact mem_pqInsert_self _ _
    · rcases h with h1 | h1
      · left
        show set1 st.dist q.1 alt q2.1 ≤ set1 st.dist q.1 alt u2 + q2.2
        have hdu : set1 st.dist q.1 alt u2 = st.dist u2 := by
          unfold set1
          rw [if_neg hu2]
        rw [hdu]
        have hdq : set1 st.dist q.1 alt q2.1 ≤ st.dist q2.1 := by
          unfold set1
          by_cases hq2 : q2.1 = q.1
          · rw [if_pos hq2, hq2]
            rcases hg with h2 | h2
            · omega
            · omega
          · rw [if_neg hq2]
        omega
      · right
        show (set1 st.dist q.1 alt u2, u2) ∈ pqInsert (alt, q.1) (pqErase (st.dist q.1, q.1) st.pq)
        have hdu : set1 st.dist q.1 alt u2 = st.dist u2 := by
          unfold set1
          rw [if_neg hu2]
        rw [hdu]
        refine mem_pqInsert_of_mem _ (mem_pqErase_of_ne h1 ?_)
        intro hcontra
        have : u2 = q.1 := by
          have := congrArg Prod.snd hcontra
          simpa using this
        exact hu2 this
  · rw [if_neg hg]
    exact h

theorem lsRelaxEdge_pred_post {t : Topo} (hnn : NonnegCosts t) (s u : Int)
    (st : LSState) (q : Int × Int) (hq : q ∈ adjOf t u)
    (hu0 : -2147483648 ≤ st.dist u) :
    LSPred (lsRelaxEdge s u st q) u q := by
  have hc : 0 ≤ q.2 := by
    obtain ⟨ad, had, hqad⟩ := adjOf_mem_topo hq
    exact hnn (u, ad) had q hqad
  have hwle : wrap32 (st.dist u + q.2) ≤ st.dist u + q.2 := wrap32_le (by omega)
  unfold lsRelaxEdge
  by_cases hg : wrap32 (st.dist u + q.2) < st.dist q.1 ∨
      (wrap32 (st.dist u + q.2) = st.dist q.1 ∧ u < st.prev q.1)
  · rw [if_pos hg]
    left
    set alt := wrap32 (st.dist u + q.2) with halt
    show set1 st.dist q.1 alt q.1 ≤ set1 st.dist q.1 alt u + q.2
    have hd : set1 st.dist q.1 alt q.1 = alt := by
      unfold set1
      rw [if_pos rfl]
    rw [hd]
    by_cases hu : u = q.1
    · have hdu : set1 st.dist q.1 alt u = alt := by
        unfold set1
        rw [if_pos hu]
      rw [hdu]
      omega
    · have hdu : set1 st.dist q.1 alt u = st.dist u := by
        unfold set1
        rw [if_neg hu]
      rw [hdu]
      omega
  · rw [if_neg hg]
    left
    push_neg at hg
    have := hg.1
    omega

theorem lsRelaxEdge_bound {t : Topo} (hwf : TopoWF t) (hnn : NonnegCosts t)
    (hsafe : SafeCosts t) {s u : Int} {st : LSState} {q : Int × Int}
    (hq : q ∈ adjOf t u) (hufin : st.dist u ≠ INF)
    (hbound : LSBound t s st) (hqfin : LSQFin st) :
    LSBound t s (lsRelaxEdge s u st q) ∧ LSQFin (lsRelaxEdge s u st q) ∧
    (lsRelaxEdge s u st q).dist u = st.dist u := by
  obtain ⟨h0, hwit⟩ := hbound
  obtain ⟨lu, hclu, hllu, hndu, hpu⟩ := (hwit u).resolve_left hufin
  have hu0 : 0 ≤ st.dist u := chainCost_nonneg hnn lu s _ hclu
  have huB : st.dist u ≤ totalCost t := simple_chain_le_total hwf hnn lu s _ hclu hndu
  obtain ⟨ad, had, hqad⟩ := adjOf_mem_topo hq
  have hc : 0 ≤ q.2 := hnn (u, ad) had q hqad
  have hcB : q.2 ≤ totalCost t := cost_le_total hnn hq
  have hB0 : 0 ≤ totalCost t := totalCost_nonneg hnn
  have hsafe2 : 2 * totalCost t < 2147483647 := hsafe
  have h1 : -2147483648 ≤ st.dist u + q.2 := by omega
  have h2 : st.dist u + q.2 ≤ 2147483647 := by omega
  have haltINF : st.dist u + q.2 < 2147483647 := by omega
  have hadj : adjOf t u = ad := adjOf_eq_of_mem (topoWF_keys_nodup hwf) had
  have hqmem : (q.1, q.2) ∈ ad := by
    rw [← hadj]
    simpa using hq
  have hedge : adjCost t u q.1 = some q.2 := by
    unfold adjCost
    rw [hadj]
    exact mfind_of_mem_nodup (topoWF_adj_nodup hwf had) hqmem
  have hseg2 : chainCost t u [q.1] = some q.2 := by
    show (match adjCost t u q.1, chainCost t q.1 ([] : List Int) with
      | some e, some r => some (e + r)
      | _, _ => none) = some q.2
    rw [hedge]
    show some (q.2 + 0) = some q.2
    rw [add_zero]
  have humem : u ∈ s :: lu := by
    rw [← hllu]
    exact chainLast_mem s lu
  rw [lsRelaxEdge_exact h1 h2]
  by_cases hg : st.dist u + q.2 < st.dist q.1 ∨
      (st.dist u + q.2 = st.dist q.1 ∧ u < st.prev q.1)
  · rw [if_pos hg]
    set alt := st.dist u + q.2 with halt_def
    by_cases hmem : q.1 ∈ s :: lu
    · have hge : st.dist q.1 ≤ alt := by
        rcases List.mem_cons.mp hmem with hc1 | hc1
        · rw [hc1, h0]
          omega
        · obtain ⟨l1, l2, hdec⟩ := List.append_of_mem hc1
          have hclu2 : chainCost t s (l1 ++ q.1 :: l2) = some (st.dist u) := by
            rw [← hdec]
            exact hclu
          obtain ⟨c2, hc2, _, _⟩ := chain_drop_prefix hnn l1 s q.1 l2 _ hclu2
          have hple := hpu l1 q.1 l2 hdec c2 hc2
          have hc20 : 0 ≤ c2 := chainCost_nonneg hnn l2 q.1 c2 hc2
          omega
      have htie : alt = st.dist q.1 := by
        rcases hg with hg1 | hg1
        · omega
        · exact hg1.1
      have hpt : ∀ w, set1 st.dist q.1 alt w = st.dist w := by
        intro w
        unfold set1
        by_cases hw : w = q.1
        · rw [if_pos hw, hw]
          exact htie
        · rw [if_neg hw]
      refine ⟨⟨?_, ?_⟩, ?_, ?_⟩
      · show set1 st.dist q.1 alt s = 0
        rw [hpt s]
        exact h0
      · intro v
        rcases hwit v with hv | ⟨l, hcl, hll, hnd, hpp⟩
        · left
          show set1 st.dist q.1 alt v = INF
          rw [hpt v]
          exact hv
        · right
          refine ⟨l, ?_, hll, hnd, ?_⟩
          · show chainCost t s l = some (set1 st.dist q.1 alt v)
            rw [hpt v]
            exact hcl
          · intro l1 x l2 hdec c2 hc2
            show set1 st.dist q.1 alt x + c2 ≤ set1 st.dist q.1 alt v
            rw [hpt x, hpt v]
            exact hpp l1 x l2 hdec c2 hc2
      · intro p hp
        show set1 st.dist q.1 alt p.2 ≠ INF
        rw [hpt p.2]
        rcases pqInsert_mem hp with hp1 | hp1
        · rw [hp1]
          show st.dist q.1 ≠ INF
          show st.dist q.1 ≠ 2147483647
          omega
        · exact hqfin p (pqErase_mem hp1)
      · show set1 st.dist q.1 alt u = st.dist u
        rw [hpt u]
    · have hq1s : q.1 ≠ s := fun h => hmem (by rw [h]; exact List.mem_cons_self s lu)
      have hq1u : q.1 ≠ u := fun h => hmem (by rw [h]; exact humem)
      have hq1lu : q.1 ∉ lu := fun h => hmem (List.mem_cons_of_mem s h)
      have hndnew : (s :: (lu ++ [q.1])).Nodup := by
        rw [show s :: (lu ++ [q.1]) = (s :: lu) ++ [q.1] from rfl]
        rw [List.nodup_append]
        refine ⟨hndu, List.nodup_singleton _, ?_⟩
        intro a ha hb
        have hab : a = q.1 := List.mem_singleton.mp hb
        rw [hab] at ha
        exact hmem ha
      have hseg : chainCost t (chainLast s lu) [q.1] = some q.2 := by
        rw [hllu]
        exact hseg2
      obtain ⟨happ, hlastapp⟩ := chain_append lu s (st.dist u) hclu [q.1] q.2 hseg
      have hlastnew : chainLast s (lu ++ [q.1]) = q.1 := by
        rw [hlastapp]
        rfl
      have hat : set1 st.dist q.1 alt q.1 = alt := by
        unfold set1
        rw [if_pos rfl]
      have hother : ∀ w, w ≠ q.1 → set1 st.dist q.1 alt w = st.dist w := by
        intro w hw
        unfold set1
        rw [if_neg hw]
      have hmono : ∀ w, set1 st.dist q.1 alt w ≤ st.dist w := by
        intro w
        unfold set1
        by_cases hw : w = q.1
        · rw [if_pos hw, hw]
          rcases hg with hg1 | hg1
          · omega
          · omega
        · rw [if_neg hw]
      refine ⟨⟨?_, ?_⟩, ?_, ?_⟩
      · show set1 st.dist q.1 alt s = 0
        rw [hother s (fun h => hq1s h.symm)]
        exact h0
      · intro v
        by_cases hv : v = q.1
        · right
          refine ⟨lu ++ [q.1], ?_, ?_, hndnew, ?_⟩
          · show chainCost t s (lu ++ [q.1]) = some (set1 st.dist q.1 alt v)
            rw [hv, hat]
            exact happ
          · rw [hv]
            exact hlastnew
          · intro l1 x l2 hdec c2 hc2
            show set1 st.dist q.1 alt x + c2 ≤ set1 st.dist q.1 alt v
            rw [hv, hat]
            rcases append_singleton_eq l1 x l2 lu q.1 hdec.symm with
              ⟨hl2, hx, hl1⟩ | ⟨l2a, hl2, hm⟩
            · rw [hl2] at hc2
              have hc2z : c2 = 0 := by
                have hz : (some (0 : Int) : Option Int) = some c2 := hc2
                injection hz with hz
                omega
              rw [hx, hat, hc2z]
              omega
            · have hxlu : x ∈ lu := by
                rw [hm]
                exact List.mem_append.mpr (Or.inr (List.mem_cons_self _ _))
              have hxq : x ≠ q.1 := fun h => hq1lu (h ▸ hxlu)
              rw [hother x hxq]
              rw [hl2] at hc2
              obtain ⟨c2a, cb, hc2a, hcb, hsumc⟩ := chain_split l2a [q.1] x c2 hc2
              have hclu3 : chainCost t s (l1 ++ x :: l2a) = some (st.dist u) := by
                rw [← hm]
                exact hclu
              obtain ⟨c2x, _, _, hlasteq⟩ := chain_drop_prefix hnn l1 s x l2a _ hclu3
              have hxl : chainLast x l2a = u := by
                rw [← hm] at hlasteq
                rw [hllu] at hlasteq
                exact hlasteq.symm
              have hcb2 : cb = q.2 := by
                rw [hxl] at hcb
                have := hseg2.symm.trans hcb
                injection this with h
                omega
              have hpux := hpu l1 x l2a hm c2a hc2a
              omega
        · rcases hwit v with hvi | ⟨l, hcl, hll, hnd, hpp⟩
          · left
            show set1 st.dist q.1 alt v = INF
            rw [hother v hv]
            exact hvi
          · right
            refine ⟨l, ?_, hll, hnd, ?_⟩
            · show chainCost t s l = some (set1 st.dist q.1 alt v)
              rw [hother v hv]
              exact hcl
            · intro l1 x l2 hdec c2 hc2
              show set1 st.dist q.1 alt x + c2 ≤ set1 st.dist q.1 alt v
              rw [hother v hv]
              have hp2 := hpp l1 x l2 hdec c2 hc2
              have hm2 := hmono x
              omega
      · intro p hp
        rcases pqInsert_mem hp with hp1 | hp1
        · rw [hp1]
          show set1 st.dist q.1 alt q.1 ≠ INF
          rw [hat]
          show alt ≠ 2147483647
          omega
        · have hpold := pqErase_mem hp1
          show set1 st.dist q.1 alt p.2 ≠ INF
          by_cases hps : p.2 = q.1
          · rw [hps, hat]
            show alt ≠ 2147483647
            omega
          · rw [hother p.2 hps]
            exact hqfin p hpold
      · show set1 st.dist q.1 alt u = st.dist u
        rw [hother u (fun h => hq1u h.symm)]
  · rw [if_neg hg]
    exact ⟨⟨h0, hwit⟩, hqfin, rfl⟩

theorem lsRelaxEdge_nextInv {t : Topo} (hwf : TopoWF t) (hnn : NonnegCosts t)
    (hsafe : SafeCosts t) {s u : Int} {st : LSState} {q : Int × Int}
    (hq : q ∈ adjOf t u) (hufin : st.dist u ≠ INF)
    (hbound : LSBound t s st) (hninv : LSNextInv t s st) :
    LSNextInv t s (lsRelaxEdge s u st q) := by
  obtain ⟨h0, hwit⟩ := hbound
  obtain ⟨lu, hclu, hllu, hndu, hpu⟩ := (hwit u).resolve_left hufin
  have hu0 : 0 ≤ st.dist u := chainCost_nonneg hnn lu s _ hclu
  have huB : st.dist u ≤ totalCost t := simple_chain_le_total hwf hnn lu s _ hclu hndu
  obtain ⟨ad, had, hqad⟩ := adjOf_mem_topo hq
  have hc : 0 ≤ q.2 := hnn (u, ad) had q hqad
  have hcB : q.2 ≤ totalCost t := cost_le_total hnn hq
  have hB0 : 0 ≤ totalCost t := totalCost_nonneg hnn
  have hsafe2 : 2 * totalCost t < 2147483647 := hsafe
  have h1 : -2147483648 ≤ st.dist u + q.2 := by omega
  have h2 : st.dist u + q.2 ≤ 2147483647 := by omega
  have hadj : adjOf t u = ad := adjOf_eq_of_mem (topoWF_keys_nodup hwf) had
  have hqmem : (q.1, q.2) ∈ ad := by
    rw [← hadj]
    simpa using hq
  have hedge : adjCost t u q.1 = some q.2 := by
    unfold adjCost
    rw [hadj]
    exact mfind_of_mem_nodup (topoWF_adj_nodup hwf had) hqmem
  rw [lsRelaxEdge_exact h1 h2]
  by_cases hg : st.dist u + q.2 < st.dist q.1 ∨
      (st.dist u + q.2 = st.dist q.1 ∧ u < st.prev q.1)
  · rw [if_pos hg]
    intro v hvs hfin
    have hfin2 : set1 st.dist q.1 (st.dist u + q.2) v < INF := hfin
    show ∃ h l,
      set1o st.next q.1 (if u = s then q.1 else (st.next u).getD 0) v = some h ∧
      chainCost t s (h :: l) = some (set1 st.dist q.1 (st.dist u + q.2) v) ∧
      chainLast s (h :: l) = v
    by_cases hv : v = q.1
    · have hvd : set1 st.dist q.1 (st.dist u + q.2) v = st.dist u + q.2 := by
        unfold set1
        rw [if_pos hv]
      have hvn : set1o st.next q.1 (if u = s then q.1 else (st.next u).getD 0) v =
          some (if u = s then q.1 else (st.next u).getD 0) := by
        unfold set1o
        rw [if_pos hv]
      have hult : st.dist u < INF := by
        show st.dist u < 2147483647
        omega
      rw [hvd, hvn]
      by_cases hus : u = s
      · rw [if_pos hus]
        refine ⟨q.1, [], rfl, ?_, ?_⟩
        · show (match adjCost t s q.1, chainCost t q.1 ([] : List Int) with
            | some e, some r => some (e + r)
            | _, _ => none) = some (st.dist u + q.2)
          rw [← hus, hedge]
          show some (q.2 + 0) = some (st.dist u + q.2)
          rw [hus, h0, add_zero, zero_add]
        · show q.1 = v
          rw [hv]
      · rw [if_neg hus]
        obtain ⟨hu, lnu, hnu, hcu, hlu⟩ := hninv u hus hult
        rw [hnu]
        have hseg : chainCost t (chainLast s (hu :: lnu)) [q.1] = some q.2 := by
          rw [hlu]
          show (match adjCost t u q.1, chainCost t q.1 ([] : List Int) with
            | some e, some r => some (e + r)
            | _, _ => none) = some q.2
          rw [hedge]
          show some (q.2 + 0) = some q.2
          rw [add_zero]
        obtain ⟨happ, hlastapp⟩ :=
          chain_append (hu :: lnu) s (st.dist u) hcu [q.1] q.2 hseg
        refine ⟨hu, lnu ++ [q.1], rfl, ?_, ?_⟩
        · rw [← List.cons_append]
          exact happ
        · rw [← List.cons_append, hlastapp, hlu, hv]
          rfl
    · have hvd : set1 st.dist q.1 (st.dist u + q.2) v = st.dist v := by
        unfold set1
        rw [if_neg hv]
      have hvn : set1o st.next q.1 (if u = s then q.1 else (st.next u).getD 0) v =
          st.next v := by
        unfold set1o
        rw [if_neg hv]
      rw [hvd] at hfin2
      rw [hvd, hvn]
      exact hninv v hvs hfin2
  · rw [if_neg hg]
    exact hninv

/-! ## The combined invariant through fold, step, loop -/

theorem lsRelaxFold_all {t : Topo} (hwf : TopoWF t) (hnn : NonnegCosts t)
    (hsafe : SafeCosts t) (s u : Int) (Q : LSState → Prop)
    (hQ : ∀ (st2 : LSState) (q : Int × Int), q ∈ adjOf t u → st2.dist u ≠ INF →
      LSBound t s st2 → LSQFin st2 → Q st2 → Q (lsRelaxEdge s u st2 q)) :
    ∀ (l : List (Int × Int)) (st : LSState), (∀ x ∈ l, x ∈ adjOf t u) →
      st.dist u ≠ INF → LSBound t s st → LSQFin st → LSNextInv t s st → Q st →
      (∀ u2 q2, q2 ∈ adjOf t u2 → u2 ≠ u → LSPred st u2 q2) →
      (∀ q2, q2 ∈ adjOf t u → q2 ∉ l → LSPred st u q2) →
      LSBound t s (l.foldl (lsRelaxEdge s u) st) ∧
      LSQFin (l.foldl (lsRelaxEdge s u) st) ∧
      LSNextInv t s (l.foldl (lsRelaxEdge s u) st) ∧
      Q (l.foldl (lsRelaxEdge s u) st) ∧
      (∀ u2 q2, q2 ∈ adjOf t u2 → LSPred (l.foldl (lsRelaxEdge s u) st) u2 q2) := by
  intro l
  induction l with
  | nil =>
    intro st _ hufin hb hqf hni hQst H1 H2
    refine ⟨hb, hqf, hni, hQst, fun u2 q2 hq2 => ?_⟩
    by_cases hu2 : u2 = u
    · rw [hu2] at hq2 ⊢
      exact H2 q2 hq2 (by simp)
    · exact H1 u2 q2 hq2 hu2
  | cons q rest ih =>
    intro st hsub hufin hb hqf hni hQst H1 H2
    have hqm : q ∈ adjOf t u := hsub q (List.mem_cons_self _ _)
    obtain ⟨hb1, hqf1, hdu1⟩ := lsRelaxEdge_bound hwf hnn hsafe hqm hufin hb hqf
    have hni1 := lsRelaxEdge_nextInv hwf hnn hsafe hqm hufin hb hni
    have hQ1 := hQ st q hqm hufin hb hqf hQst
    have hu0 : 0 ≤ st.dist u := by
      obtain ⟨lu, hclu, _, _, _⟩ := (hb.2 u).resolve_left hufin
      exact chainCost_nonneg hnn lu s _ hclu
    rw [List.foldl_cons]
    refine ih (lsRelaxEdge s u st q) (fun x hx => hsub x (List.mem_cons_of_mem _ hx))
      (by rw [hdu1]; exact hufin) hb1 hqf1 hni1 hQ1 ?_ ?_
    · intro u2 q2 hq2 hne
      exact lsRelaxEdge_pred_pres s u st q u2 q2 (H1 u2 q2 hq2 hne)
    · intro q2 hq2 hq2n
      by_cases he : q2 = q
      · rw [he]
        exact lsRelaxEdge_pred_post hnn s u st q hqm (by omega)
      · have hnin : q2 ∉ q :: rest := by
          intro hmemq
          rcases List.mem_cons.mp hmemq with h | h
          · exact he h
          · exact hq2n h
        exact lsRelaxEdge_pred_pres s u st q u q2 (H2 q2 hq2 hnin)

theorem lsStep_all {t : Topo} (hwf : TopoWF t) (hnn : NonnegCosts t)
    (hsafe : SafeCosts t) (s : Int) (Q : LSState → Prop)
    (hQ : ∀ (u : Int) (st2 : LSState) (q : Int × Int), q ∈ adjOf t u →
      st2.dist u ≠ INF → LSBound t s st2 → LSQFin st2 → Q st2 →
      Q (lsRelaxEdge s u st2 q))
    (hQpq : ∀ (st2 : LSState) (pq2 : List (Int × Int)), Q st2 → Q { st2 with pq := pq2 })
    {st : LSState} (hall : LSAll t s st) (hQst : Q st) :
    LSAll t s (lsStep t s st) ∧ Q (lsStep t s st) := by
  obtain ⟨hb, hqf, hpred, hni⟩ := hall
  unfold lsStep
  cases hpq : st.pq with
  | nil => exact ⟨⟨hb, hqf, hpred, hni⟩, hQst⟩
  | cons d rest =>
    dsimp only
    have hdfin : st.dist d.2 ≠ INF := hqf d (by rw [hpq]; exact List.mem_cons_self _ _)
    have hb0 : LSBound t s { st with pq := rest } := hb
    have hqf0 : LSQFin { st with pq := rest } := by
      intro p hp
      exact hqf p (by rw [hpq]; exact List.mem_cons_of_mem _ hp)
    have hni0 : LSNextInv t s { st with pq := rest } := hni
    have hQ0 : Q { st with pq := rest } := hQpq st rest hQst
    have H1 : ∀ u2 q2, q2 ∈ adjOf t u2 → u2 ≠ d.2 →
        LSPred { st with pq := rest } u2 q2 := by
      intro u2 q2 hq2 hne
      rcases hpred u2 q2 hq2 with h | h
      · exact Or.inl h
      · right
        rw [hpq] at h
        show (st.dist u2, u2) ∈ rest
        rcases List.mem_cons.mp h with h1 | h1
        · exact absurd (by simpa using congrArg Prod.snd h1) hne
        · exact h1
    obtain ⟨hb2, hqf2, hni2, hQ2, hpred2⟩ :=
      lsRelaxFold_all hwf hnn hsafe s d.2 Q
        (fun st2 q2 hq2 hf hbb hqq hQQ => hQ d.2 st2 q2 hq2 hf hbb hqq hQQ)
        (adjOf t d.2) { st with pq := rest } (fun x hx => hx) hdfin hb0 hqf0 hni0 hQ0
        H1 (fun q2 hq2 hq2n => absurd hq2 hq2n)
    exact ⟨⟨hb2, hqf2, hpred2, hni2⟩, hQ2⟩

theorem lsLoop_all {t : Topo} (hwf : TopoWF t) (hnn : NonnegCosts t)
    (hsafe : SafeCosts t) (s : Int) (Q : LSState → Prop)
    (hQ : ∀ (u : Int) (st2 : LSState) (q : Int × Int), q ∈ adjOf t u →
      st2.dist u ≠ INF → LSBound t s st2 → LSQFin st2 → Q st2 →
      Q (lsRelaxEdge s u st2 q))
    (hQpq : ∀ (st2 : LSState) (pq2 : List (Int × Int)), Q st2 → Q { st2 with pq := pq2 }) :
    ∀ (n : Nat) (st : LSState), LSAll t s st → Q st →
      LSAll t s (lsLoop t s n st) ∧ Q (lsLoop t s n st) := by
  intro n
  induction n with
  | zero => intro st h hq; exact ⟨h, hq⟩
  | succ n ih =>
    intro st h hq
    unfold lsLoop
    cases hpq : st.pq with
    | nil => exact ⟨h, hq⟩
    | cons d rest =>
      dsimp only
      obtain ⟨h1, h2⟩ := lsStep_all hwf hnn hsafe s Q hQ hQpq h hq
      exact ih _ h1 h2

theorem lsInit_all {t : Topo} (hnn : NonnegCosts t) (s : Int) :
    LSAll t s (lsInit s) := by
  refine ⟨⟨?_, ?_⟩, ?_, ?_, ?_⟩
  · show (if s = s then (0 : Int) else INF) = 0
    rw [if_pos rfl]
  · intro v
    by_cases hv : v = s
    · right
      refine ⟨[], ?_, ?_, List.nodup_singleton s, ?_⟩
      · show some 0 = some (if v = s then (0 : Int) else INF)
        rw [if_pos hv]
      · show s = v
        rw [hv]
      · intro l1 x l2 hdec c2 _
        exact absurd hdec.symm (by simp)
    · left
      show (if v = s then (0 : Int) else INF) = INF
      rw [if_neg hv]
  · intro p hp
    have hps : p = (0, s) := by simpa [lsInit] using hp
    rw [hps]
    show (if s = s then (0 : Int) else INF) ≠ INF
    rw [if_pos rfl]
    decide
  · intro u2 q2 hq2
    by_cases hu2 : u2 = s
    · right
      show ((if u2 = s then (0 : Int) else INF), u2) ∈ [(0, s)]
      rw [if_pos hu2, hu2]
      exact List.mem_singleton.mpr rfl
    · left
      show (if q2.1 = s then (0 : Int) else INF) ≤ (if u2 = s then (0 : Int) else INF) + q2.2
      rw [if_neg hu2]
      have hc : 0 ≤ q2.2 := by
        obtain ⟨ad, had, hqad⟩ := adjOf_mem_topo hq2
        exact hnn (u2, ad) had q2 hqad
      by_cases hq : q2.1 = s
      · rw [if_pos hq]
        have hI : (0 : Int) ≤ INF := by decide
        omega
      · rw [if_neg hq]
        omega
  · intro v hvs hfin
    exfalso
    have hd : (lsInit s).dist v = INF := by
      show (if v = s then (0 : Int) else INF) = INF
      rw [if_neg hvs]
    rw [hd] at hfin
    omega

theorem lsSolve_all {t : Topo} (hwf : TopoWF t) (hnn : NonnegCosts t)
    (hsafe : SafeCosts t) (s : Int) : LSAll t s (lsSolve t s) :=
  (lsLoop_all hwf hnn hsafe s (fun _ => True)
    (fun _ _ _ _ _ _ _ _ => trivial) (fun _ _ _ => trivial)
    (lsFuel t) (lsInit s) (lsInit_all hnn s) trivial).1

theorem lsSolve_pq_empty {t : Topo} (hwf : TopoWF t) (hnn : NonnegCosts t)
    {s : Int} (hs : s ∈ mkeys t) : (lsSolve t s).pq = [] :=
  lsLoop_drains hwf hnn s (lsFuel t) (lsInit s) (lsInit_runInv t s hs)
    (lsMeasure_init_lt t s)

theorem lsSolve_nextInv {t : Topo} (hwf : TopoWF t) (hnn : NonnegCosts t)
    (hsafe : SafeCosts t) (s : Int) : LSNextInv t s (lsSolve t s) :=
  (lsSolve_all hwf hnn hsafe s).2.2.2

theorem lsSolve_dist0 {t : Topo} (hwf : TopoWF t) (hnn : NonnegCosts t)
    (hsafe : SafeCosts t) (s : Int) : (lsSolve t s).dist s = 0 :=
  (lsSolve_all hwf hnn hsafe s).1.1

theorem lsSolve_witness {t : Topo} (hwf : TopoWF t) (hnn : NonnegCosts t)
    (hsafe : SafeCosts t) (s : Int) :
    ∀ v, (lsSolve t s).dist v = INF ∨
      ∃ l, chainCost t s l = some ((lsSolve t s).dist v) ∧ chainLast s l = v := by
  intro v
  rcases (lsSolve_all hwf hnn hsafe s).1.2 v with h | ⟨l, hcl, hll, _, _⟩
  · exact Or.inl h
  · exact Or.inr ⟨l, hcl, hll⟩

theorem lsSolve_dist_le_INF {t : Topo} (hwf : TopoWF t) (hnn : NonnegCosts t)
    (hsafe : SafeCosts t) (s : Int) : ∀ v, (lsSolve t s).dist v ≤ INF := by
  intro v
  rcases (lsSolve_all hwf hnn hsafe s).1.2 v with h | ⟨l, hcl, _, hnd, _⟩
  · rw [h]
  · have h1 := simple_chain_le_total hwf hnn l s _ hcl hnd
    have hB0 : 0 ≤ totalCost t := totalCost_nonneg hnn
    have hsafe2 : 2 * totalCost t < 2147483647 := hsafe
    show (lsSolve t s).dist v ≤ 2147483647
    omega

theorem lsSolve_relaxed {t : Topo} (hwf : TopoWF t) (hnn : NonnegCosts t)
    (hsafe : SafeCosts t) {s : Int} (hs : s ∈ mkeys t) :
    ∀ u2 q2, q2 ∈ adjOf t u2 →
      (lsSolve t s).dist q2.1 ≤ (lsSolve t s).dist u2 + q2.2 := by
  intro u2 q2 hq2
  rcases (lsSolve_all hwf hnn hsafe s).2.2.1 u2 q2 hq2 with h | h
  · exact h
  · rw [lsSolve_pq_empty hwf hnn hs] at h
    simp at h

theorem lsSolve_chain_ub {t : Topo} (hwf : TopoWF t) (hnn : NonnegCosts t)
    (hsafe : SafeCosts t) {s : Int} (hs : s ∈ mkeys t) :
    ∀ (l : List Int) (cur c : Int), chainCost t cur l = some c →
      (lsSolve t s).dist (chainLast cur l) ≤ (lsSolve t s).dist cur + c := by
  intro l
  induction l with
  | nil =>
    intro cur c hc
    injection hc with hc
    show (lsSolve t s).dist cur ≤ (lsSolve t s).dist cur + c
    omega
  | cons b rest ih =>
    intro cur c hc
    unfold chainCost at hc
    cases he : adjCost t cur b with
    | none => rw [he] at hc; simp at hc
    | some ce =>
      cases hr : chainCost t b rest with
      | none => rw [he, hr] at hc; simp at hc
      | some cr =>
        rw [he, hr] at hc
        injection hc with hc
        have hmem : (b, ce) ∈ adjOf t cur := by
          unfold adjCost at he
          exact mfind_some_mem he
        have hedge := lsSolve_relaxed hwf hnn hsafe hs cur (b, ce) hmem
        have hrest := ih b cr hr
        rw [chainLast_cons]
        simp only at hedge
        omega

theorem lsSolve_dist_min {t : Topo} (hwf : TopoWF t) (hnn : NonnegCosts t)
    (hsafe : SafeCosts t) {s b v : Int} (hs : s ∈ mkeys t)
    (hmin : IsMinCost t s b v) (hv : v < INF) : lsDist t s b = v := by
  obtain ⟨⟨l, hl, hlast⟩, hleast⟩ := hmin
  have hub : (lsSolve t s).dist b ≤ v := by
    have h1 := lsSolve_chain_ub hwf hnn hsafe hs l s v hl
    rw [hlast] at h1
    have h0 : (lsSolve t s).dist s = 0 := lsSolve_dist0 hwf hnn hsafe s
    rw [h0] at h1
    omega
  rcases lsSolve_witness hwf hnn hsafe s b with hINF | ⟨l2, hl2, hlast2⟩
  · show (lsSolve t s).dist b = v
    omega
  · have hge := hleast l2 _ hl2 hlast2
    show (lsSolve t s).dist b = v
    omega

theorem lsSolve_dist_inf {t : Topo} (hwf : TopoWF t) (hnn : NonnegCosts t)
    (hsafe : SafeCosts t) (s b : Int)
    (hbig : ∀ l c, chainCost t s l = some c → chainLast s l = b → INF ≤ c) :
    lsDist t s b = INF := by
  rcases lsSolve_witness hwf hnn hsafe s b with h | ⟨l, hl, hlast⟩
  · exact h
  · have h1 := hbig l _ hl hlast
    have h2 := lsSolve_dist_le_INF hwf hnn hsafe s b
    show (lsSolve t s).dist b = INF
    omega

/-- C6 (amended): for every well-formed topology with non-negative,
    `int`-representable edge costs, no self-loops, and a total edge cost
    small enough that linkstate's `int alt = dist[u] + edge.cost` cannot
    overflow (`SafeCosts`), every node pair `(i, k)` with `k` reachable
    from `i` gets the same cost from the distance-vector solver's
    `cost[i][k]` and the link-state solver's `routeCost[k]` for source `i`:
    both compute the least chain cost.  (The original claim omitted both
    the no-self-loop requirement — under which the two solvers disagree,
    see the counterexample — and overflow-safety, without which the
    wrapped link-state addition corrupts its estimates.) -/
theorem c6_amended {t : Topo} (hwf : TopoWF t) (hnn : NonnegCosts t)
    (hbd : BoundedCosts t) (hns : NoSelfLoops t) (hsafe : SafeCosts t) {i k : Int}
    (hi : i ∈ nodeIds t) (hk : k ∈ nodeIds t) (hr : Reachable t i k) :
    dvDist t i k = lsDist t i k := by
  obtain ⟨v, hv0, hmin⟩ := exists_minCost hnn hr
  by_cases hcase : v < INF
  · rw [dvRun_eq_min hwf hnn hbd hns hi hk hmin hcase,
      lsSolve_dist_min hwf hnn hsafe hi hmin hcase]
  · have hbig : ∀ l c, chainCost t i l = some c → chainLast i l = k → INF ≤ c := by
      intro l c hl hlast
      have := hmin.2 l c hl hlast
      omega
    rw [dvRun_eq_inf hwf hnn hbd hns hi hk hbig,
      lsSolve_dist_inf hwf hnn hsafe i k hbig]

/-- Witness for C6 (amended) at the scenario topology `(1,2,1) (2,3,1)
    (1,3,5)`: all hypotheses hold concretely for the pair `(1, 3)` and the
    two solvers agree. -/
theorem c6_amended_witness :
    (TopoWF topoA ∧ NonnegCosts topoA ∧ BoundedCosts topoA ∧ NoSelfLoops topoA ∧
     SafeCosts topoA ∧
     (1 : Int) ∈ nodeIds topoA ∧ (3 : Int) ∈ nodeIds topoA ∧ Reachable topoA 1 3) ∧
    dvDist topoA 1 3 = lsDist topoA 1 3 :=
  have hr : Reachable topoA 1 3 := ⟨[2, 3], 2, by decide, by decide⟩
  ⟨⟨by decide, by decide, by decide, by decide, by decide, by decide, by decide, hr⟩,
   c6_amended (by decide) (by decide) (by decide) (by decide) (by decide) (by decide)
     (by decide) hr⟩

/-! ## Claim C7 — resolver walk round-trip (corrected): machinery -/

theorem countP_lt_general (l : List Int) (f g : Int → Bool)
    (hmono : ∀ a, f a = true → g a = true) (y : Int) (hy : y ∈ l)
    (hgy : g y = true) (hfy : f y = false) :
    l.countP f < l.countP g := by
  induction l with
  | nil => simp at hy
  | cons a rest ih =>
    rw [List.countP_cons, List.countP_cons]
    rcases List.mem_cons.mp hy with h1 | h1
    · have hmr := countP_mono_aux rest f g hmono
      rw [← h1, hfy, hgy]
      have e1 : (if (false = true) then 1 else 0) = 0 := rfl
      have e2 : (if (true = true) then 1 else 0) = 1 := rfl
      rw [e1, e2]
      omega
    · have hrec := ih h1
      have hhead : (if f a = true then 1 else 0) ≤ (if g a = true then 1 else 0) := by
        by_cases hfa : f a = true
        · rw [if_pos hfa, if_pos (hmono a hfa)]
        · rw [if_neg hfa]
          omega
      omega

theorem minCost_split {t : Topo} {i h k c r : Int} {l : List Int}
    (hedge : adjCost t i h = some c) (hl : chainCost t h l = some r)
    (hlast : chainLast h l = k) (hmin : IsMinCost t i k (c + r)) :
    IsMinCost t h k r := by
  refine ⟨⟨l, hl, hlast⟩, ?_⟩
  intro l2 c2 hl2 hlast2
  have hcons : chainCost t i (h :: l2) = some (c + c2) := by
    show (match adjCost t i h, chainCost t h l2 with
      | some e, some s2 => some (e + s2)
      | _, _ => none) = some (c + c2)
    rw [hedge, hl2]
  have hlc : chainLast i (h :: l2) = k := by
    rw [chainLast_cons]
    exact hlast2
  have := hmin.2 (h :: l2) (c + c2) hcons hlc
  omega

theorem walk_generic (t : Topo) (f : Int → Int) (D : Int → Int) (dst : Int)
    (P : Int → Prop) (hdst0 : D dst = 0)
    (hstep : ∀ cur, cur ∈ mkeys t → P cur → cur ≠ dst →
      f cur ∈ mkeys t ∧ P (f cur) ∧ D (f cur) < D cur ∧
      ∃ c, adjCost t cur (f cur) = some c ∧ D cur = c + D (f cur)) :
    ∀ (m : Nat) (cur : Int),
      (mkeys t).countP (fun x => decide (D x < D cur)) ≤ m →
      cur ∈ mkeys t → P cur →
      ∃ n, n ≤ m ∧ chainLast cur (walkList f n cur) = dst ∧
        chainCost t cur (walkList f n cur) = some (D cur) := by
  intro m
  induction m with
  | zero =>
    intro cur hcnt hcur hP
    by_cases heq : cur = dst
    · refine ⟨0, Nat.le_refl _, heq, ?_⟩
      show some 0 = some (D cur)
      rw [heq, hdst0]
    · exfalso
      obtain ⟨hfk, _, hlt, _⟩ := hstep cur hcur hP heq
      have h1 : 0 < (mkeys t).countP (fun x => decide (D x < D cur)) :=
        List.countP_pos_iff.mpr ⟨f cur, hfk, by simpa using hlt⟩
      omega
  | succ m ih =>
    intro cur hcnt hcur hP
    by_cases heq : cur = dst
    · refine ⟨0, Nat.zero_le _, heq, ?_⟩
      show some 0 = some (D cur)
      rw [heq, hdst0]
    · obtain ⟨hfk, hfP, hlt, c, hedge, hsum⟩ := hstep cur hcur hP heq
      have hstrict : (mkeys t).countP (fun x => decide (D x < D (f cur))) <
          (mkeys t).countP (fun x => decide (D x < D cur)) := by
        refine countP_lt_general (mkeys t) _ _ (fun a ha => ?_) (f cur) hfk
          (by simpa using hlt) (by simp)
        have := of_decide_eq_true ha
        have h2 : D a < D cur := by omega
        simpa using h2
      obtain ⟨n, hn, hlastw, hcostw⟩ := ih (f cur) (by omega) hfk hfP
      refine ⟨n + 1, by omega, ?_, ?_⟩
      · show chainLast cur (f cur :: walkList f n (f cur)) = dst
        rw [chainLast_cons]
        exact hlastw
      · show (match adjCost t cur (f cur), chainCost t (f cur) (walkList f n (f cur)) with
          | some e, some s2 => some (e + s2)
          | _, _ => none) = some (D cur)
        rw [hedge, hcostw, hsum]

theorem dvNext_rebuild {t : Topo} {st : DVState} {i j k : Int}
    (hi : i ∈ mkeys t) (hj : j ∈ mkeys t) (hk : k ∈ mkeys t) (hij : i ≠ j)
    (hinv : DVInv t st) (hnext : DVNextInv t st)
    (hlt : st.dist i j + st.dist j k < INF) :
    ∃ l, chainCost t i (st.next i j :: l) = some (st.dist i j + st.dist j k) ∧
      chainLast i (st.next i j :: l) = k := by
  obtain ⟨hdiag, hbox⟩ := hinv
  have hij0 : 0 ≤ st.dist i j := (hbox i j hi hj).1
  have hjk0 : 0 ≤ st.dist j k := (hbox j k hj hk).1
  have hijW : st.dist i j < INF := by omega
  obtain ⟨l1, hl1, hlast1⟩ := hnext i j hi hj hij hijW
  by_cases hkj : k = j
  · subst hkj
    refine ⟨l1, ?_, hlast1⟩
    rw [hdiag k hk, add_zero]
    exact hl1
  · have hjkW : st.dist j k < INF := by omega
    obtain ⟨l2, hl2, hlast2⟩ :=
      ((hbox j k hj hk).2.2).resolve_left (by omega)
    have hl2' : chainCost t (chainLast i (st.next i j :: l1)) l2 = some (st.dist j k) := by
      rw [hlast1]
      exact hl2
    obtain ⟨happ, hlastapp⟩ :=
      chain_append (st.next i j :: l1) i (st.dist i j) hl1 l2 (st.dist j k) hl2'
    refine ⟨l1 ++ l2, ?_, ?_⟩
    · rw [← List.cons_append]
      exact happ
    · rw [← List.cons_append, hlastapp, hlast1, hlast2]

theorem dvRelax_nextInv {t : Topo} {st : DVState} (i j k : Int)
    (hi : i ∈ mkeys t) (hj : j ∈ mkeys t) (hk : k ∈ mkeys t) (hij : i ≠ j)
    (hinv : DVInv t st) (hnext : DVNextInv t st) :
    DVNextInv t (dvRelax i j k st) := by
  unfold dvRelax
  by_cases h1 : st.dist i j + st.dist j k < st.dist i k
  · rw [if_pos h1]
    intro a b ha hb hab hfin
    have hfin2 : set2 st.dist i k (st.dist i j + st.dist j k) a b < INF := hfin
    show ∃ l, chainCost t a (set2 st.next i k (st.next i j) a b :: l) =
        some (set2 st.dist i k (st.dist i j + st.dist j k) a b) ∧
      chainLast a (set2 st.next i k (st.next i j) a b :: l) = b
    by_cases hai : a = i
    · by_cases hbk : b = k
      · have hvd : set2 st.dist i k (st.dist i j + st.dist j k) a b =
            st.dist i j + st.dist j k := by
          unfold set2
          rw [if_pos hai, if_pos hbk]
        have hvn : set2 st.next i k (st.next i j) a b = st.next i j := by
          unfold set2
          rw [if_pos hai, if_pos hbk]
        rw [hvd, hvn]
        rw [hvd] at hfin2
        subst hai
        subst hbk
        exact dvNext_rebuild hi hj hk hij ⟨hinv.1, hinv.2⟩ hnext hfin2
      · have hvd : set2 st.dist i k (st.dist i j + st.dist j k) a b = st.dist a b := by
          unfold set2
          rw [if_pos hai, if_neg hbk, hai]
        have hvn : set2 st.next i k (st.next i j) a b = st.next a b := by
          unfold set2
          rw [if_pos hai, if_neg hbk, hai]
        rw [hvd, hvn]
        rw [hvd] at hfin2
        exact hnext a b ha hb hab hfin2
    · have hvd : set2 st.dist i k (st.dist i j + st.dist j k) a b = st.dist a b := by
        unfold set2
        rw [if_neg hai]
      have hvn : set2 st.next i k (st.next i j) a b = st.next a b := by
        unfold set2
        rw [if_neg hai]
      rw [hvd, hvn]
      rw [hvd] at hfin2
      exact hnext a b ha hb hab hfin2
  · rw [if_neg h1]
    by_cases h2 : st.dist i j + st.dist j k = st.dist i k ∧ st.next i j ≠ -1 ∧
        st.next i j < st.next i k
    · rw [if_pos h2]
      intro a b ha hb hab hfin
      have hfin2 : st.dist a b < INF := hfin
      show ∃ l, chainCost t a (set2 st.next i k (st.next i j) a b :: l) =
          some (st.dist a b) ∧
        chainLast a (set2 st.next i k (st.next i j) a b :: l) = b
      by_cases hai : a = i
      · by_cases hbk : b = k
        · have hvn : set2 st.next i k (st.next i j) a b = st.next i j := by
            unfold set2
            rw [if_pos hai, if_pos hbk]
          rw [hvn]
          subst hai
          subst hbk
          have hlt : st.dist a j + st.dist j b < INF := by
            rw [h2.1]
            exact hfin2
          obtain ⟨l, hc, hl⟩ := dvNext_rebuild hi hj hk hij ⟨hinv.1, hinv.2⟩ hnext hlt
          rw [h2.1] at hc
          exact ⟨l, hc, hl⟩
        · have hvn : set2 st.next i k (st.next i j) a b = st.next a b := by
            unfold set2
            rw [if_pos hai, if_neg hbk, hai]
          rw [hvn]
          exact hnext a b ha hb hab hfin2
      · have hvn : set2 st.next i k (st.next i j) a b = st.next a b := by
          unfold set2
          rw [if_neg hai]
        rw [hvn]
        exact hnext a b ha hb hab hfin2
    · rw [if_neg h2]
      exact hnext

theorem dvLoopK_nextInv {t : Topo} (hwf : TopoWF t) (hnn : NonnegCosts t)
    (i j : Int) (hi : i ∈ mkeys t) (hj : j ∈ mkeys t) (hij : i ≠ j)
    (hedge : adjCost t i j ≠ none) {st : DVState}
    (h : DVInv t st ∧ DVNextInv t st) :
    DVInv t (dvLoopK i j (nodeIds t) st) ∧ DVNextInv t (dvLoopK i j (nodeIds t) st) := by
  unfold dvLoopK
  refine @foldl_inv DVState Int (fun s => DVInv t s ∧ DVNextInv t s) (nodeIds t) _
    (fun s k hkm hs => ?_) _ h
  exact ⟨dvRelax_inv hwf hnn i j k hi hj hkm hedge hs.1,
    dvRelax_nextInv i j k hi hj hkm hij hs.1 hs.2⟩

theorem dvLoopJ_nextInv {t : Topo} (hwf : TopoWF t) (hnn : NonnegCosts t)
    (hns : NoSelfLoops t) (p : Int × Adj) (hp : p ∈ t) {st : DVState}
    (h : DVInv t st ∧ DVNextInv t st) :
    DVInv t (dvLoopJ p.1 p.2 (nodeIds t) st) ∧
      DVNextInv t (dvLoopJ p.1 p.2 (nodeIds t) st) := by
  unfold dvLoopJ
  refine @foldl_inv DVState (Int × Int) (fun s => DVInv t s ∧ DVNextInv t s) p.2 _
    (fun s q hq hs => ?_) _ h
  by_cases hg : s.dist p.1 q.1 = INF
  · rw [if_pos hg]
    exact hs
  · rw [if_neg hg]
    have hi2 : p.1 ∈ mkeys t := List.mem_map_of_mem Prod.fst hp
    have hj2 : q.1 ∈ mkeys t := (hwf.2 p hp).2 q hq
    have hij : p.1 ≠ q.1 := (hns p hp q hq).symm
    have hedge : adjCost t p.1 q.1 ≠ none := by
      unfold adjCost
      rw [adjOf_eq_of_mem (topoWF_keys_nodup hwf) hp]
      have hq2 : (q.1, q.2) ∈ p.2 := by
        obtain ⟨q1, q2⟩ := q
        exact hq
      rw [mfind_of_mem_nodup (topoWF_adj_nodup hwf hp) hq2]
      simp
    exact dvLoopK_nextInv hwf hnn p.1 q.1 hi2 hj2 hij hedge hs

theorem dvPass_nextInv {t : Topo} (hwf : TopoWF t) (hnn : NonnegCosts t)
    (hns : NoSelfLoops t) {st : DVState} (h : DVInv t st ∧ DVNextInv t st) :
    DVInv t (dvPass t st) ∧ DVNextInv t (dvPass t st) := by
  unfold dvPass
  refine @foldl_inv DVState (Int × Adj) (fun s => DVInv t s ∧ DVNextInv t s) t _
    (fun s p hp hs => ?_) _ ?_
  · exact dvLoopJ_nextInv hwf hnn hns p hp hs
  · exact ⟨⟨h.1.1, h.1.2⟩, h.2⟩

theorem dvIter_nextInv {t : Topo} (hwf : TopoWF t) (hnn : NonnegCosts t)
    (hns : NoSelfLoops t) :
    ∀ (n : Nat) (st : DVState), DVInv t st ∧ DVNextInv t st →
      DVInv t (dvIter t n st) ∧ DVNextInv t (dvIter t n st) := by
  intro n
  induction n with
  | zero => intro st h; exact h
  | succ n ih =>
    intro st h
    unfold dvIter
    by_cases hu : st.upd
    · rw [if_pos hu]
      exact ih _ (dvPass_nextInv hwf hnn hns h)
    · rw [if_neg hu]
      exact h

theorem dvInit_nextInv {t : Topo} (hwf : TopoWF t) : DVNextInv t (dvInit t) := by
  intro a b ha hb hab hfin
  obtain ⟨hd, hn⟩ := dvInit_char t hwf a ha b hb
  cases he : mfind (adjOf t a) b with
  | none =>
    exfalso
    rw [he] at hd
    rw [if_neg hab] at hd
    rw [hd] at hfin
    simp at hfin
  | some c =>
    rw [he] at hd
    have hmemk : b ∈ mkeys (adjOf t a) := mem_keys_of_mfind_some he
    rw [if_pos hmemk] at hn
    rw [hd, hn]
    refine ⟨[], ?_, rfl⟩
    show (match adjCost t a b, chainCost t b ([] : List Int) with
      | some e, some s2 => some (e + s2)
      | _, _ => none) = some ((some c).getD (if a = b then 0 else INF))
    have hedge : adjCost t a b = some c := he
    rw [hedge]
    show some (c + 0) = some c
    rw [add_zero]

theorem dvRun_nextInv {t : Topo} (hwf : TopoWF t) (hnn : NonnegCosts t)
    (hbd : BoundedCosts t) (hns : NoSelfLoops t) :
    DVInv t (dvRun t) ∧ DVNextInv t (dvRun t) :=
  dvIter_nextInv hwf hnn hns ((nodeIds t).length - 1) (dvInit t)
    ⟨dvInit_inv hwf hnn hbd hns, dvInit_nextInv hwf⟩

theorem dv_step_tight {t : Topo} (hwf : TopoWF t) (hnn : NonnegCosts t)
    (hbd : BoundedCosts t) (hns : NoSelfLoops t) (hpos : PosCosts t)
    {i k : Int} (hi : i ∈ mkeys t) (hk : k ∈ mkeys t) (hik : i ≠ k)
    (hr : Reachable t i k) (hfin : dvDist t i k < INF) :
    dvNext t i k ∈ mkeys t ∧
    (Reachable t (dvNext t i k) k ∧ dvDist t (dvNext t i k) k < INF) ∧
    dvDist t (dvNext t i k) k < dvDist t i k ∧
    ∃ c, adjCost t i (dvNext t i k) = some c ∧
      dvDist t i k = c + dvDist t (dvNext t i k) k := by
  obtain ⟨v, hv0, hmin⟩ := exists_minCost hnn hr
  have hvINF : v < INF := by
    by_contra hcon
    push_neg at hcon
    have hbig : ∀ l c, chainCost t i l = some c → chainLast i l = k → INF ≤ c := by
      intro l c hl hlast
      have := hmin.2 l c hl hlast
      omega
    have := dvRun_eq_inf hwf hnn hbd hns hi hk hbig
    omega
  have hdv : dvDist t i k = v := dvRun_eq_min hwf hnn hbd hns hi hk hmin hvINF
  have hnextinv := (dvRun_nextInv hwf hnn hbd hns).2
  obtain ⟨l, hc, hlast⟩ := hnextinv i k hi hk hik hfin
  cases he : adjCost t i ((dvRun t).next i k) with
  | none =>
    exfalso
    unfold chainCost at hc
    rw [he] at hc
    simp at hc
  | some c =>
    cases hrest : chainCost t ((dvRun t).next i k) l with
    | none =>
      exfalso
      unfold chainCost at hc
      rw [he, hrest] at hc
      simp at hc
    | some r =>
      have hcr : c + r = dvDist t i k := by
        unfold chainCost at hc
        rw [he, hrest] at hc
        injection hc
      have hmemq : ((dvRun t).next i k, c) ∈ adjOf t i := by
        unfold adjCost at he
        exact mfind_some_mem he
      obtain ⟨ad, had, hqad⟩ := adjOf_mem_topo hmemq
      have hhk : (dvRun t).next i k ∈ mkeys t :=
        (hwf.2 (i, ad) had).2 ((dvRun t).next i k, c) hqad
      have hcpos : 1 ≤ c := hpos (i, ad) had ((dvRun t).next i k, c) hqad
      have hlast2 : chainLast ((dvRun t).next i k) l = k := by
        rw [← chainLast_cons i]
        exact hlast
      have hminh : IsMinCost t ((dvRun t).next i k) k r := by
        refine minCost_split he hrest hlast2 ?_
        rw [hdv] at hcr
        rw [← hcr] at hmin
        exact hmin
      have hrv : c + r = v := by
        rw [hdv] at hcr
        exact hcr
      have hrINF : r < INF := by omega
      have hdvh : dvDist t ((dvRun t).next i k) k = r :=
        dvRun_eq_min hwf hnn hbd hns hhk hk hminh hrINF
      have hreach : Reachable t ((dvRun t).next i k) k := ⟨l, r, hrest, hlast2⟩
      refine ⟨hhk, ⟨hreach, ?_⟩, ?_, c, he, ?_⟩
      · show dvDist t ((dvRun t).next i k) k < INF
        omega
      · show dvDist t ((dvRun t).next i k) k < dvDist t i k
        omega
      · show dvDist t i k = c + dvDist t ((dvRun t).next i k) k
        omega

theorem ls_step_tight {t : Topo} (hwf : TopoWF t) (hnn : NonnegCosts t)
    (hsafe : SafeCosts t) (hpos : PosCosts t) {cur dst : Int}
    (hcur : cur ∈ mkeys t) (hdstk : dst ∈ mkeys t) (hne : cur ≠ dst)
    (hr : Reachable t cur dst) (hfin : lsDist t cur dst < INF) :
    lsStepTo (lsNext t) dst cur ∈ mkeys t ∧
    (Reachable t (lsStepTo (lsNext t) dst cur) dst ∧
      lsDist t (lsStepTo (lsNext t) dst cur) dst < INF) ∧
    lsDist t (lsStepTo (lsNext t) dst cur) dst < lsDist t cur dst ∧
    ∃ c, adjCost t cur (lsStepTo (lsNext t) dst cur) = some c ∧
      lsDist t cur dst = c + lsDist t (lsStepTo (lsNext t) dst cur) dst := by
  obtain ⟨v, hv0, hmin⟩ := exists_minCost hnn hr
  have hvINF : v < INF := by
    by_contra hcon
    push_neg at hcon
    have hbig : ∀ l c, chainCost t cur l = some c → chainLast cur l = dst → INF ≤ c := by
      intro l c hl hlast
      have := hmin.2 l c hl hlast
      omega
    have := lsSolve_dist_inf hwf hnn hsafe cur dst hbig
    omega
  have hls : lsDist t cur dst = v := lsSolve_dist_min hwf hnn hsafe hcur hmin hvINF
  obtain ⟨h, l, hnx, hcc, hlast⟩ :=
    lsSolve_nextInv hwf hnn hsafe cur dst (fun he => hne he.symm) hfin
  have hstep : lsStepTo (lsNext t) dst cur = h := by
    show ((lsSolve t cur).next dst).getD cur = h
    rw [hnx]
    rfl
  rw [hstep]
  cases he : adjCost t cur h with
  | none =>
    exfalso
    unfold chainCost at hcc
    rw [he] at hcc
    simp at hcc
  | some c =>
    cases hrest : chainCost t h l with
    | none =>
      exfalso
      unfold chainCost at hcc
      rw [he, hrest] at hcc
      simp at hcc
    | some r =>
      have hcr : c + r = lsDist t cur dst := by
        unfold chainCost at hcc
        rw [he, hrest] at hcc
        injection hcc
      have hmemq : (h, c) ∈ adjOf t cur := by
        unfold adjCost at he
        exact mfind_some_mem he
      obtain ⟨ad, had, hqad⟩ := adjOf_mem_topo hmemq
      have hhk : h ∈ mkeys t := (hwf.2 (cur, ad) had).2 (h, c) hqad
      have hcpos : 1 ≤ c := hpos (cur, ad) had (h, c) hqad
      have hlast2 : chainLast h l = dst := by
        rw [← chainLast_cons cur]
        exact hlast
      have hminh : IsMinCost t h dst r := by
        refine minCost_split he hrest hlast2 ?_
        rw [hls] at hcr
        rw [← hcr] at hmin
        exact hmin
      have hrv : c + r = v := by
        rw [hls] at hcr
        exact hcr
      have hrINF : r < INF := by omega
      have hdvh : lsDist t h dst = r := lsSolve_dist_min hwf hnn hsafe hhk hminh hrINF
      have hreach : Reachable t h dst := ⟨l, r, hrest, hlast2⟩
      refine ⟨hhk, ⟨hreach, by omega⟩, by omega, c, rfl, by omega⟩

/-- **C7 (amended).**  For every well-formed topology with strictly
    positive, `int`-representable edge costs and no self-loops, and every
    pair `(src, dst)` with `dst` reachable from `src` and reported
    reachable by the solver (`cost[src][dst] < INF`), the resolver walk
    that repeatedly follows the next-hop tables — `nextHop[·][dst]` for
    distvec, each visited node's own `routeNext[dst]` for linkstate —
    reaches `dst` from `src` in at most `N` steps (`N` = node count), and
    the edge costs along the visited hops sum to the reported
    `cost[src][dst]` in both variants.  The topology is also assumed
    overflow-safe (`SafeCosts`), without which linkstate's wrapped `int`
    addition corrupts its tables.  (The original claim assumed only
    non-negative costs; with a zero-cost edge the walk cycles forever, see
    the counterexample.) -/
theorem c7_amended {t : Topo} (hwf : TopoWF t) (hpos : PosCosts t)
    (hbd : BoundedCosts t) (hns : NoSelfLoops t) (hsafe : SafeCosts t) {src dst : Int}
    (hsrc : src ∈ nodeIds t) (hdst : dst ∈ nodeIds t)
    (hr : Reachable t src dst) (hfin : dvDist t src dst < INF) :
    (∃ n, n ≤ (nodeIds t).length ∧
      chainLast src (walkList (dvStepTo (dvNext t) dst) n src) = dst ∧
      chainCost t src (walkList (dvStepTo (dvNext t) dst) n src) =
        some (dvDist t src dst)) ∧
    (∃ n, n ≤ (nodeIds t).length ∧
      chainLast src (walkList (lsStepTo (lsNext t) dst) n src) = dst ∧
      chainCost t src (walkList (lsStepTo (lsNext t) dst) n src) =
        some (lsDist t src dst)) := by
  have hnn : NonnegCosts t := fun p hp q hq => by
    have := hpos p hp q hq
    omega
  obtain ⟨v, hv0, hmin⟩ := exists_minCost hnn hr
  have hvINF : v < INF := by
    by_contra hcon
    push_neg at hcon
    have hbig : ∀ l c, chainCost t src l = some c → chainLast src l = dst → INF ≤ c := by
      intro l c hl hlast
      have := hmin.2 l c hl hlast
      omega
    have := dvRun_eq_inf hwf hnn hbd hns hsrc hdst hbig
    omega
  have hlsv : lsDist t src dst = v := lsSolve_dist_min hwf hnn hsafe hsrc hmin hvINF
  have hlsfin : lsDist t src dst < INF := by omega
  have hdv0 : dvDist t dst dst = 0 := (dvRun_nextInv hwf hnn hbd hns).1.1 dst hdst
  have hls0 : lsDist t dst dst = 0 := lsSolve_dist0 hwf hnn hsafe dst
  constructor
  · obtain ⟨n, hn, hl, hc⟩ :=
      walk_generic t (dvStepTo (dvNext t) dst) (fun x => dvDist t x dst) dst
        (fun x => Reachable t x dst ∧ dvDist t x dst < INF) hdv0
        (fun cur hcur hP hnedst =>
          dv_step_tight hwf hnn hbd hns hpos hcur hdst hnedst hP.1 hP.2)
        ((mkeys t).length) src (List.countP_le_length _) hsrc ⟨hr, hfin⟩
    exact ⟨n, hn, hl, hc⟩
  · obtain ⟨n, hn, hl, hc⟩ :=
      walk_generic t (lsStepTo (lsNext t) dst) (fun x => lsDist t x dst) dst
        (fun x => Reachable t x dst ∧ lsDist t x dst < INF) hls0
        (fun cur hcur hP hnedst =>
          ls_step_tight hwf hnn hsafe hpos hcur hdst hnedst hP.1 hP.2)
        ((mkeys t).length) src (List.countP_le_length _) hsrc ⟨hr, hlsfin⟩
    exact ⟨n, hn, hl, hc⟩

/-- Witness for C7 (amended) at the scenario topology `(1,2,1) (2,3,1)
    (1,3,5)`: all hypotheses hold concretely for the pair `(1, 3)` and
    both resolver walks reach `3` with the reported cost. -/
theorem c7_amended_witness :
    (TopoWF topoA ∧ PosCosts topoA ∧ BoundedCosts topoA ∧ NoSelfLoops topoA ∧
     SafeCosts topoA ∧
     (1 : Int) ∈ nodeIds topoA ∧ (3 : Int) ∈ nodeIds topoA ∧
     Reachable topoA 1 3 ∧ dvDist topoA 1 3 < INF) ∧
    (∃ n, n ≤ (nodeIds topoA).length ∧
      chainLast 1 (walkList (dvStepTo (dvNext topoA) 3) n 1) = 3 ∧
      chainCost topoA 1 (walkList (dvStepTo (dvNext topoA) 3) n 1) =
        some (dvDist topoA 1 3)) ∧
    (∃ n, n ≤ (nodeIds topoA).length ∧
      chainLast 1 (walkList (lsStepTo (lsNext topoA) 3) n 1) = 3 ∧
      chainCost topoA 1 (walkList (lsStepTo (lsNext topoA) 3) n 1) =
        some (lsDist topoA 1 3)) :=
  have hr : Reachable topoA 1 3 := ⟨[2, 3], 2, by decide, by decide⟩
  have happ := @c7_amended topoA (by decide) (by decide) (by decide) (by decide)
    (by decide) 1 3 (by decide) (by decide) hr (by decide)
  ⟨⟨by decide, by decide, by decide, by decide, by decide, by decide, by decide, hr,
    by decide⟩,
   happ.1, happ.2⟩

/-! ## Claim C9 (amended): self entries, now in the wrapped model -/

theorem lsRelaxEdge_selfInv {t : Topo} (hwf : TopoWF t) (hnn : NonnegCosts t)
    (hsafe : SafeCosts t) {s u : Int} {st : LSState} {q : Int × Int}
    (hq : q ∈ adjOf t u) (hc1 : 1 ≤ q.2) (hufin : st.dist u ≠ INF)
    (hbound : LSBound t s st) (hinv : LSSelfInv s st) :
    LSSelfInv s (lsRelaxEdge s u st q) := by
  obtain ⟨hnn0, hds, hns⟩ := hinv
  obtain ⟨lu, hclu, _, hndu, _⟩ := (hbound.2 u).resolve_left hufin
  have huB : st.dist u ≤ totalCost t := simple_chain_le_total hwf hnn lu s _ hclu hndu
  have hu0 : 0 ≤ st.dist u := hnn0 u
  have hcB : q.2 ≤ totalCost t := cost_le_total hnn hq
  have hB0 : 0 ≤ totalCost t := totalCost_nonneg hnn
  have hsafe2 : 2 * totalCost t < 2147483647 := hsafe
  have h1 : -2147483648 ≤ st.dist u + q.2 := by omega
  have h2 : st.dist u + q.2 ≤ 2147483647 := by omega
  have halt : 1 ≤ st.dist u + q.2 := by omega
  rw [lsRelaxEdge_exact h1 h2]
  by_cases hcond : st.dist u + q.2 < st.dist q.1 ∨
      (st.dist u + q.2 = st.dist q.1 ∧ u < st.prev q.1)
  · rw [if_pos hcond]
    have hqs : q.1 ≠ s := by
      intro h
      rw [h, hds] at hcond
      rcases hcond with h1a | h1a
      · omega
      · omega
    refine ⟨fun v => ?_, ?_, ?_⟩
    · show 0 ≤ set1 st.dist q.1 _ v
      unfold set1
      by_cases hv : v = q.1
      · rw [if_pos hv]
        omega
      · rw [if_neg hv]
        exact hnn0 v
    · show set1 st.dist q.1 _ s = 0
      unfold set1
      rw [if_neg (fun h => hqs h.symm)]
      exact hds
    · show set1o st.next q.1 _ s = some s
      unfold set1o
      rw [if_neg (fun h => hqs h.symm)]
      exact hns
  · rw [if_neg hcond]
    exact ⟨hnn0, hds, hns⟩

/-- **C9 amended.**  For every topology whose edges have strictly positive
    cost and join distinct nodes, and whose total cost is small enough that
    linkstate's `int` addition cannot overflow, the final routing state of
    both solvers keeps the self entries: `cost[i][i] = 0` and
    `nextHop[i][i] = i` (distvec), `routeCost[i][i] = 0` and
    `routeNext[i][i] = i` (linkstate).  (With a zero-cost edge or a
    self-loop the claim fails — see the counterexample; with an
    overflowing topology the wrapped relaxation rewrites the source's own
    self entry.) -/
theorem c9_amended (t : Topo) (hwf : TopoWF t) (hpos : PosCosts t)
    (hns : NoSelfLoops t) (hsafe : SafeCosts t) (i : Int) (hi : i ∈ nodeIds t) :
    dvDist t i i = 0 ∧ dvNext t i i = i ∧
    lsDist t i i = 0 ∧ lsNext t i i = some i := by
  have hnn : NonnegCosts t := fun p hp q hq => by
    have := hpos p hp q hq
    omega
  have hdv : DVSelfInv t (dvRun t) :=
    dvIter_selfInv hwf hns _ _ (dvInit_selfInv hwf hpos hns)
  have hls : LSSelfInv i (lsSolve t i) :=
    (lsLoop_all hwf hnn hsafe i (LSSelfInv i)
      (fun u st2 q hq2 hf hb hqf hQ =>
        lsRelaxEdge_selfInv hwf hnn hsafe hq2 (adjOf_cost_pos hpos hq2) hf hb hQ)
      (fun st2 pq2 h => h)
      (lsFuel t) (lsInit i) (lsInit_all hnn i) (lsInit_selfInv i)).2
  exact ⟨(hdv.1 i hi).1, (hdv.1 i hi).2, hls.2.1, hls.2.2⟩

/-- Witness for `c9_amended`: the diamond topology, node 1. -/
theorem c9_amended_witness :
    (TopoWF topoD ∧ PosCosts topoD ∧ NoSelfLoops topoD ∧ SafeCosts topoD ∧
      (1 : Int) ∈ nodeIds topoD) ∧
    (dvDist topoD 1 1 = 0 ∧ dvNext topoD 1 1 = 1 ∧
      lsDist topoD 1 1 = 0 ∧ lsNext topoD 1 1 = some 1) :=
  ⟨⟨by decide, by decide, by decide, by decide, by decide⟩,
    c9_amended topoD (by decide) (by decide) (by decide) (by decide) 1 (by decide)⟩

/-! ## The overflow regime is real: without `SafeCosts` the wrapped
    addition corrupts the link-state tables -/

/-- On `topoOvf` — strictly positive, `int`-representable costs, no
    self-loops, but `2 · totalCost ≥ INT_MAX` — the program's
    `int alt = dist[u] + edge.cost` wraps negative: the source's own
    self-cost becomes negative with a rewritten next hop, and the two
    solvers disagree on the reachable pair `(1, 3)` (distvec, computing in
    `long long`, correctly reports it unreachable-as-`INF`).  This is why
    the amended C6/C7/C9 carry the `SafeCosts` hypothesis. -/
theorem ls_overflow_wraps :
    TopoWF topoOvf ∧ PosCosts topoOvf ∧ NoSelfLoops topoOvf ∧
    BoundedCosts topoOvf ∧ ¬ SafeCosts topoOvf ∧
    lsDist topoOvf 1 1 = -1294967296 ∧ lsNext topoOvf 1 1 = some 2 ∧
    dvDist topoOvf 1 1 = 0 ∧
    Reachable topoOvf 1 3 ∧
    lsDist topoOvf 1 3 = -1294967296 ∧ dvDist topoOvf 1 3 = INF ∧
    dvDist topoOvf 1 3 ≠ lsDist topoOvf 1 3 :=
  ⟨by decide, by decide, by decide, by decide, by decide, by decide, by decide,
   by decide, ⟨[2, 3], 3000000000, by decide, by decide⟩, by decide, by decide,
   by decide⟩
